import Mathlib

/-!
SPRAL SSIDS CPU core: buddy allocator and multifrontal driver

A shallow embedding of

* `src/ssids/cpu/BuddyAllocator.hxx` (`Page`, `Table`),
* `src/ssids/factor_cpu.cxx` (`assemble_node`, `factor_node_*`, `calculate_update`, `factor`),
* `src/ssids/cpu/kernels/assemble.hxx` (`assemble_node`, stack-allocator variant),

followed by theorems about the embedded definitions.

Conventions of the embedding.

* `size_t` values are `Nat` reduced modulo `2^64` wherever the source performs unsigned
  arithmetic; `int` values are `Int` (signed overflow is undefined behaviour in the source and
  is outside the model); a conversion from `size_t` to `int` wraps to 32 bits (`toInt32`).
* C arrays are total functions from the index to the element; a write is `Function.update`.
  Memory that the source leaves uninitialised is a parameter of the model.
* Pointers are natural-number addresses; a null pointer is `none`.
* Recursive source functions whose depth is bounded by the number of levels carry a fuel
  argument that is large enough for every call; `while` loops over the linked free lists carry
  a fuel argument and yield `none` when it is exhausted (the source loop would not terminate
  within the size of the page).
-/

set_option autoImplicit false

namespace BuddyAlloc

/-! ## Constants of `Page` -/

/-- Number of block levels, `static int const nlevel=8`. -/
def nlevel : Nat := 8

/-- Alignment in bytes, `static int const align=32`. -/
def align : Nat := 32

/-- Flag stored in `next_` for a block that has been handed out. -/
def ISSUED_FLAG : Int := -2

/-- Number of values of a 64-bit `size_t`. -/
def SIZE_MOD : Nat := 2 ^ 64

/-- Conversion of an unsigned value to a 32-bit `int` (two's complement wrap). -/
def toInt32 (x : Nat) : Int :=
  let y : Nat := x % 2 ^ 32
  if y < 2 ^ 31 then (y : Int) else (y : Int) - 2 ^ 32

/-- Conversion of an `int` to a 64-bit `size_t`. -/
def toSizeT (i : Int) : Nat := (i % (2 ^ 64 : Int)).toNat

/-- State of one `Page`: the sizes, the aligned base address, and the two arrays
`head_[nlevel]` and `next_[1<<(nlevel-1)]`. -/
structure Page where
  min_size : Nat
  size : Nat
  base : Nat
  head : Nat → Int
  next : Int → Int

/-- The effect of `std::align(alignment, size, ptr, space)` on `ptr`: the pointer is moved up to
the next multiple of `alignment` when `size` bytes still fit into `space`, and is left alone
otherwise. -/
def std_align (alignment size ptr space : Nat) : Nat :=
  let aligned := (ptr + alignment - 1) / alignment * alignment
  let adjustment := aligned - ptr
  if space < size ∨ space - size < adjustment then ptr else aligned

/-- Constructor `Page(size_t size, ...)`. `mem` is the address returned by the character
allocator and `junk` the uninitialised content of the freshly allocated `next_` array. -/
def Page.new (size mem : Nat) (junk : Int → Int) : Page :=
  let min0 := max 1 (size / 2 ^ (nlevel - 1))
  let min_size := (align * ((min0 - 1) / align + 1)) % SIZE_MOD
  let size_ := (min_size * 2 ^ (nlevel - 1)) % SIZE_MOD
  let space := (size_ + align) % SIZE_MOD
  { min_size := min_size
    size := size_
    base := std_align align size mem space
    head := fun i => if i = nlevel - 1 then 0 else -1
    next := Function.update junk 0 (-1) }

/-- Condition under which `~Page` throws "outstanding allocations on cleanup"
(`next_` is non-null for a page that has not been moved from). -/
def Page.destructor_throws (s : Page) : Bool := s.head (nlevel - 1) != 0

/-- `get_partner(idx, level)`: `idx ^ (1<<level)`. -/
def get_partner (idx : Int) (level : Nat) : Int := Int.xor idx (2 ^ level)

/-- The loop of `sz_to_level`: `while((val>>level) > 0) ++level;`. An `int` has 31 value bits,
so 32 rounds always suffice. -/
def sz_to_level_loop : Nat → Int → Nat → Nat
  | 0, _, level => level
  | fuel + 1, val, level =>
    if (val >>> level) > 0 then sz_to_level_loop fuel val (level + 1) else level

/-- `sz_to_level(sz)`. -/
def sz_to_level (s : Page) (sz : Nat) : Nat :=
  let val : Int := toInt32 (sz / s.min_size)
  sz_to_level_loop 32 val 0

/-- `addr_to_ptr(idx)`: null for `-1`, otherwise `base_ + idx*min_size_`
(the product is formed in `size_t`). -/
def addr_to_ptr (s : Page) (idx : Int) : Option Nat :=
  if idx = -1 then none else some (s.base + (toSizeT idx * s.min_size) % SIZE_MOD)

/-- `ptr_to_addr(ptr)`: `static_cast<uintptr_t>(ptr-base_) / min_size_`, returned as `int`. -/
def ptr_to_addr (s : Page) (ptr : Nat) : Int :=
  toInt32 (toSizeT ((ptr : Int) - (s.base : Int)) / s.min_size)

/-- `split_block(level, block)`. -/
def split_block (s : Page) (level : Nat) (block : Int) : Page :=
  let left := block
  let right := get_partner block (level - 1)
  let next1 := Function.update s.next right (s.head (level - 1))
  let next2 := Function.update next1 left right
  { s with next := next2, head := Function.update s.head (level - 1) left }

/-- The tail of `get_next_ptr`: take the head of the list of `level` and flag it as issued. -/
def pop_head (s : Page) (level : Nat) : Int × Page :=
  let p := s.head level
  let head1 := Function.update s.head level (s.next p)
  (p, { s with head := head1, next := Function.update s.next p ISSUED_FLAG })

/-- `get_next_ptr(level)` with a fuel argument for the recursion on `level+1`.
The test `level<0` of the source cannot hold for a natural number. -/
def get_next_ptr_go : Nat → Page → Nat → Int × Page
  | 0, s, _ => (-1, s)
  | fuel + 1, s, level =>
    if level ≥ nlevel then (-1, s)
    else if s.head level = -1 then
      let r := get_next_ptr_go fuel s (level + 1)
      if r.1 = -1 then (-1, r.2)
      else pop_head (split_block r.2 (level + 1) r.1) level
    else pop_head s level

/-- `get_next_ptr(level)`: the recursion stops at `level = nlevel`, so `nlevel + 1` rounds
are enough from every level. -/
def get_next_ptr (s : Page) (level : Nat) : Int × Page :=
  get_next_ptr_go (nlevel + 1) s level

/-- Bound on the number of tests of the loop condition in `remove_from_free_list`:
a list threaded through `next_` without repetition has at most `1<<(nlevel-1)` entries. -/
def list_fuel : Nat := 2 ^ (nlevel - 1) + 1

/-- The `while(current!=-1 && current != idx)` loop of `remove_from_free_list`;
returns `(prev, current)` at loop exit. -/
def remove_loop : Nat → (Int → Int) → Int → Int → Int → Option (Int × Int)
  | 0, _, _, _, _ => none
  | fuel + 1, next, idx, prev, current =>
    if current ≠ -1 ∧ current ≠ idx then remove_loop fuel next idx current (next current)
    else some (prev, current)

/-- `remove_from_free_list(idx, level)`. -/
def remove_from_free_list (s : Page) (idx : Int) (level : Nat) : Option (Bool × Page) :=
  match remove_loop list_fuel s.next idx (-1) (s.head level) with
  | none => none
  | some (prev, current) =>
    if current ≠ idx then some (false, s)
    else if prev = -1 then
      some (true, { s with head := Function.update s.head level (s.next idx) })
    else
      some (true, { s with next := Function.update s.next prev (s.next idx) })

/-- The last two statements of `mark_free`: add `idx` to the free list of `level`. -/
def push_free (s : Page) (idx : Int) (level : Nat) : Page :=
  let next1 := Function.update s.next idx (s.head level)
  { s with next := next1, head := Function.update s.head level idx }

/-- `mark_free(idx, level)` with a fuel argument for the recursion on `level+1`. -/
def mark_free_go : Nat → Page → Int → Nat → Option Page
  | 0, _, _, _ => none
  | fuel + 1, s, idx, level =>
    if level < nlevel - 1 then
      let partner := get_partner idx level
      if s.next partner ≠ ISSUED_FLAG then
        match remove_from_free_list s partner level with
        | none => none
        | some r =>
          if r.1 then mark_free_go fuel r.2 (min idx partner) (level + 1)
          else some (push_free r.2 idx level)
      else some (push_free s idx level)
    else some (push_free s idx level)

/-- `mark_free(idx, level)`: the recursion stops at `level = nlevel-1`. -/
def mark_free (s : Page) (idx : Int) (level : Nat) : Option Page :=
  mark_free_go nlevel s idx level

/-- `Page::allocate(sz)`: the returned pointer and the new state. -/
def Page.allocate (s : Page) (sz : Nat) : Option Nat × Page :=
  if sz > s.size then (none, s)
  else
    let level := sz_to_level s sz
    let r := get_next_ptr s level
    (addr_to_ptr r.2 r.1, r.2)

/-- `Page::deallocate(ptr, sz)`; `none` when a free-list scan does not terminate. -/
def Page.deallocate (s : Page) (ptr sz : Nat) : Option Page :=
  let idx := ptr_to_addr s ptr
  let level := sz_to_level s sz
  mark_free s idx level

/-- `Page::is_owner(ptr)`. -/
def Page.is_owner (s : Page) (ptr : Nat) : Bool :=
  let idx := ptr_to_addr s ptr
  decide (idx ≥ 0 ∧ idx < 2 ^ (nlevel - 1))

/-- Reading of a free list: the block numbers from `head` along `next` up to `-1`. -/
def free_list_go : Nat → (Int → Int) → Int → List Int
  | 0, _, _ => []
  | fuel + 1, next, cur =>
    if cur = -1 then [] else cur :: free_list_go fuel next (next cur)

/-- The free list of `level`, read from `head_[level]` through `next_`. -/
def Page.free_list (s : Page) (level : Nat) : List Int :=
  free_list_go list_fuel s.next (s.head level)

end BuddyAlloc

namespace BuddyAlloc

/-! ## `Table` -/

/-- State of a `Table`: `max_sz_` and the vector `pages_`. -/
structure Table where
  max_sz : Nat
  pages : List Page

/-- Constructor `Table(sz, alloc)`; `mem` and `junk` are what the base allocator hands to the
first page. -/
def Table.new (sz mem : Nat) (junk : Int → Int) : Table :=
  { max_sz := sz, pages := [Page.new sz mem junk] }

/-- The loop `for(auto& page: pages_) { ptr = page.allocate(sz); if(ptr) break; }`:
the pointer after the loop and the pages after the attempts. -/
def try_pages : List Page → Nat → Option Nat × List Page
  | [], _ => (none, [])
  | p :: ps, sz =>
    let r := p.allocate sz
    if r.1.isSome then (r.1, r.2 :: ps)
    else
      let q := try_pages ps sz
      (q.1, r.2 :: q.2)

/-- `Table::allocate(sz)`; `mem` and `junk` are what the base allocator hands to a page that
has to be created. -/
def Table.allocate (t : Table) (sz mem : Nat) (junk : Int → Int) : Option Nat × Table :=
  let r := try_pages t.pages sz
  if r.1.isSome then (r.1, { t with pages := r.2 })
  else
    let max_sz := max ((2 * t.max_sz) % SIZE_MOD) sz
    let page := Page.new max_sz mem junk
    let a := page.allocate sz
    (a.1, { max_sz := max_sz, pages := r.2 ++ [a.2] })

/-- The loop of `Table::deallocate`: the first page that owns the pointer releases it. -/
def dealloc_pages : List Page → Nat → Nat → Option (List Page)
  | [], _, _ => some []
  | p :: ps, ptr, sz =>
    if p.is_owner ptr then (p.deallocate ptr sz).map (fun p1 => p1 :: ps)
    else (dealloc_pages ps ptr sz).map (fun ps1 => p :: ps1)

/-- `Table::deallocate(ptr, sz)`; `none` when a free-list scan does not terminate. -/
def Table.deallocate (t : Table) (ptr sz : Nat) : Option Table :=
  (dealloc_pages t.pages ptr sz).map (fun ps => { t with pages := ps })

end BuddyAlloc
namespace BuddyAlloc

/-! ## Ghost model: blocks, partitions of the page, linked free lists -/

/-- A family of blocks `(p, l)` (block number `p`, level `l`, covering the units
`p .. p + 2^l - 1`) that tiles the 128 units of the page. -/
structure Partition (B : Nat → Nat → Prop) : Prop where
  valid : ∀ p l, B p l → l < 8 ∧ p < 128 ∧ p % 2 ^ l = 0
  disj : ∀ p l q m, B p l → B q m → p < q + 2 ^ m → q < p + 2 ^ l → p = q ∧ l = m
  cover : ∀ u, u < 128 → ∃ p l, B p l ∧ p ≤ u ∧ u < p + 2 ^ l

/-- The list `xs` is threaded through `next` from `h` and ends with `-1`. -/
def Chain (next : Int → Int) : Int → List Nat → Prop
  | h, [] => h = -1
  | h, x :: xs => h = (x : Int) ∧ Chain next (next x) xs

/-- The entry before position `pre.length`, or `d` when `pre` is empty. -/
def lastOr : Int → List Nat → Int
  | d, [] => d
  | _, x :: xs => lastOr (x : Int) xs

/-- Blocks of the ghost state: free (in a list), issued, or in transit inside `mark_free`. -/
def Blk (fl : Nat → List Nat) (iss hole : Nat → Nat → Prop) (p l : Nat) : Prop :=
  p ∈ fl l ∨ iss p l ∨ hole p l

/-- No block is in transit. -/
def noHole : Nat → Nat → Prop := fun _ _ => False

/-- The invariant tying the arrays `head_`/`next_` to the ghost state: `fl l` is the free list
of level `l`, `iss` the set of issued blocks, `hole` the blocks in transit. -/
structure Core (head : Nat → Int) (next : Int → Int) (fl : Nat → List Nat)
    (iss hole : Nat → Nat → Prop) : Prop where
  chain : ∀ l, l < 8 → Chain next (head l) (fl l)
  nodup : ∀ l, (fl l).Nodup
  part : Partition (Blk fl iss hole)
  flag : ∀ p l, iss p l → next (p : Int) = ISSUED_FLAG
  nobuddy : ∀ l, l < 7 → ∀ p, p ∈ fl l → (p ^^^ 2 ^ l) ∉ fl l
  hole_sep : ∀ p l, hole p l → p ∉ fl l ∧ ¬ iss p l

/-- The free lists after `get_next_ptr(l)` took the head `p` of level `k` and split it down to
level `l`. -/
def allocFl (fl : Nat → List Nat) (l k p : Nat) (rest : List Nat) : Nat → List Nat :=
  fun j => if j = k then rest else if l ≤ j ∧ j < k then [p ^^^ 2 ^ j] else fl j

/-- Facts about the sizes stored in a page. -/
structure PageWF (s : Page) : Prop where
  min_pos : 0 < s.min_size
  min_le : s.min_size ≤ 2 ^ 57
  min_align : s.min_size % 32 = 0
  size_eq : s.size = (s.min_size * 128) % 2 ^ 64

/-- The issued blocks of the ghost state are exactly the allocations `(ptr, sz)` that have been
returned by `allocate` and not yet passed to `deallocate`. -/
structure LiveRel (s : Page) (iss : Nat → Nat → Prop) (live : List (Nat × Nat)) : Prop where
  live_iss : ∀ ptr sz, (ptr, sz) ∈ live →
    sz ≤ s.size ∧ ∃ p, ptr = s.base + p * s.min_size ∧ iss p (sz_to_level s sz)
  iss_live : ∀ p l, iss p l → ∃ sz, (s.base + p * s.min_size, sz) ∈ live ∧ sz_to_level s sz = l
  nodup : (live.map Prod.fst).Nodup

/-- The invariant of a page together with its list of live allocations. -/
def PInv (s : Page) (live : List (Nat × Nat)) : Prop :=
  PageWF s ∧ ∃ fl iss, Core s.head s.next fl iss noHole ∧ LiveRel s iss live

/-- States of a page reachable from `s0` by calls of `allocate` (successful or not) and by calls
of `deallocate` that pass back a live pointer with its original size. The list holds the
live allocations `(ptr, sz)`. -/
inductive Reach (s0 : Page) : Page → List (Nat × Nat) → Prop
  | init : Reach s0 s0 []
  | alloc_ok (s : Page) (live : List (Nat × Nat)) (sz ptr : Nat) (s1 : Page) :
      Reach s0 s live → s.allocate sz = (some ptr, s1) → Reach s0 s1 ((ptr, sz) :: live)
  | alloc_fail (s : Page) (live : List (Nat × Nat)) (sz : Nat) (s1 : Page) :
      Reach s0 s live → s.allocate sz = (none, s1) → Reach s0 s1 live
  | dealloc (s : Page) (live : List (Nat × Nat)) (ptr sz : Nat) (s1 : Page) :
      Reach s0 s live → (ptr, sz) ∈ live → s.deallocate ptr sz = some s1 →
      Reach s0 s1 (live.erase (ptr, sz))

/-- Tables reachable from `t0` by `allocate` and `deallocate` calls in which neither
`2*max_sz_` nor the size computation of a new page leaves the range of `size_t`. -/
inductive TReach (t0 : Table) : Table → Prop
  | init : TReach t0 t0
  | alloc (t : Table) (sz mem : Nat) (junk : Int → Int) :
      TReach t0 t → max (2 * t.max_sz) sz < 2 ^ 64 - 3968 →
      TReach t0 (t.allocate sz mem junk).2
  | dealloc (t : Table) (ptr sz : Nat) (t1 : Table) :
      TReach t0 t → t.deallocate ptr sz = some t1 → TReach t0 t1

/-- The value of `size_` that the `Page` constructor computes for a requested size below
`2^64 - 3968`. -/
def csize (r : Nat) : Nat := 32 * ((max 1 (r / 128) - 1) / 32 + 1) * 128

/-- Invariant of a table in the absence of overflow: the buffer sizes never decrease along
`pages_`, and the last page has the size computed from `max_sz_`. -/
def TInv (t : Table) : Prop :=
  List.Chain' (fun a b => a ≤ b) (t.pages.map Page.size) ∧
  (t.pages.map Page.size).getLast? = some (csize t.max_sz) ∧ t.max_sz < 2 ^ 64 - 3968

/-- The free lists after `mark_free(p, l)` merged the block `p` upwards through the levels
`l .. k-1` and put it at the head of the list of level `k`. -/
def freeFl (fl : Nat → List Nat) (l k p : Nat) : Nat → List Nat :=
  fun j => if j = k then p :: fl k else if l ≤ j ∧ j < k then [] else fl j

end BuddyAlloc

namespace Ssids

/-! ## The multifrontal driver: `factor_cpu.cxx` and `cpu/kernels/assemble.hxx`

The element type `T` (the template parameter, `double` in the exported wrapper) is a type
with the arithmetic the source uses and with the value `infinity`; no law of arithmetic is
assumed. Arrays are functions of the `int` index. A node pointer is the index of the node in
the array `nodes`, `NULL` is `none`. The dense kernels of the external library `bub` and the
BLAS calls are parameters (`Kernels`). Memory that the source obtains without initialising it
is a parameter (`Fresh`). -/

/-- `SSIDS_SUCCESS`. -/
def SSIDS_SUCCESS : Int := 0

/-- `SSIDS_ERROR_NOT_POS_DEF`. -/
def SSIDS_ERROR_NOT_POS_DEF : Int := -6

/-- The operations on the element type `T` that the source uses. -/
class Scalar (T : Type) extends Zero T, One T, Add T, Sub T, Mul T, Div T, Neg T where
  infinity : T
  decEq : DecidableEq T

instance scalarDecEq (T : Type) [Scalar T] : DecidableEq T := Scalar.decEq

/-- Fields of `struct cpu_node_data<T>`. `even` is the parity flag that `assemble.hxx` reads;
`contrib = none` is the null pointer. -/
structure cpu_node_data (T : Type) where
  nrow_expected : Int
  ncol_expected : Int
  first_child : Option Nat
  next_child : Option Nat
  rlist : Int → Int
  num_a : Int
  amap : Int → Int
  even : Bool
  ndelay_in : Int
  ndelay_out : Int
  nelim : Int
  lcol : Int → T
  perm : Int → Int
  contrib : Option (Int → T)

/-- Fields of `struct cpu_factor_options`. -/
structure cpu_factor_options (T : Type) where
  small : T
  u : T
  print_level : Int

/-- Fields of `struct cpu_factor_stats`. -/
structure cpu_factor_stats where
  flag : Int

/-- The external dense kernels, as functions of the memory they read.
* `ldlt u small m n perm lcol ldl d_off`: `bub::CpuLDLT(u, small).factor(m, n, perm, lcol, ldl, d)`
  with `d = lcol + d_off`; yields `nelim` and the new contents of `perm` and `lcol`.
* `llt m n lcol ldl`: `bub::CpuLLT().factor(m, n, lcol, ldl)`; yields the flag and the new `lcol`.
* `syrk m n a a_off lda c ldc`: `host_syrk(FILL_MODE_LWR, OP_N, m, n, -1.0, a + a_off, lda,
  1.0, c, ldc)`; yields the new `c`.
* `gemm m n k a a_off lda b ldb c ldc`: `host_gemm(OP_N, OP_T, m, n, k, -1.0, a + a_off, lda,
  b, ldb, 1.0, c, ldc)`; yields the new `c`. -/
structure Kernels (T : Type) where
  ldlt : T → T → Int → Int → (Int → Int) → (Int → T) → Int → Int → Int × (Int → Int) × (Int → T)
  llt : Int → Int → (Int → T) → Int → Int × (Int → T)
  syrk : Int → Int → (Int → T) → Int → Int → (Int → T) → Int → (Int → T)
  gemm : Int → Int → Int → (Int → T) → Int → Int → (Int → T) → Int → (Int → T) → Int → (Int → T)

/-- Contents of the memory blocks that are obtained for one node before they are written:
`lcol` and `perm` from `smalloc`, `contrib` and `ld` from `new T[]`. -/
structure Fresh (T : Type) where
  lcol : Int → T
  perm : Int → Int
  contrib : Int → T
  ld : Int → T

/-- A counting loop `for(int i=lo; i<hi; i++) body`, as a fold over the values of `i`. -/
def forRange {σ : Type} (lo hi : Int) (body : Int → σ → σ) (init : σ) : σ :=
  (List.range (hi - lo).toNat).foldl (fun st (k : Nat) => body (lo + (k : Int)) st) init

/-- The nodes visited by `for(child=first; child!=NULL; child=child->next_child)`;
`none` when the chain does not end within `fuel` nodes. -/
def children_go {T : Type} (nodes : Nat → cpu_node_data T) : Nat → Option Nat → Option (List Nat)
  | _, none => some []
  | 0, some _ => none
  | fuel + 1, some c => (children_go nodes fuel (nodes c).next_child).map (fun cs => c :: cs)

/-- The children of node `ni` in list order. A chain through an array of `nnodes` nodes that
ends has at most `nnodes` entries. -/
def children {T : Type} (nodes : Nat → cpu_node_data T) (nnodes ni : Nat) : Option (List Nat) :=
  children_go nodes nnodes (nodes ni).first_child

/-- The part of a node that assembly writes, together with the running `delay_col`. -/
structure Front (T : Type) where
  lcol : Int → T
  contrib : Option (Int → T)
  perm : Int → Int
  delay_col : Int

section Assemble

variable {T : Type} [Scalar T]

/-- "Add A" of `factor_cpu.cxx` (lines 128-152): `r` is shifted by `ndelay_in` before `k` and
the scaling factors are formed. -/
def add_a_cpu (node : cpu_node_data T) (ndelay_in nrow : Int) (aval : Int → T)
    (scaling : Option (Int → T)) (lcol : Int → T) : Int → T :=
  match scaling with
  | some sc =>
    forRange 0 node.num_a (fun i l =>
      let src := node.amap (2 * i + 0) - 1
      let dest := node.amap (2 * i + 1) - 1
      let c := Int.tdiv dest node.nrow_expected
      let r0 := Int.tmod dest node.nrow_expected
      let r := if r0 ≥ node.ncol_expected then r0 + ndelay_in else r0
      let k := c * nrow + r
      let rscale := sc (node.rlist r - 1)
      let cscale := sc (node.rlist c - 1)
      Function.update l k (rscale * aval src * cscale)) lcol
  | none =>
    forRange 0 node.num_a (fun i l =>
      let src := node.amap (2 * i + 0) - 1
      let dest := node.amap (2 * i + 1) - 1
      let c := Int.tdiv dest node.nrow_expected
      let r0 := Int.tmod dest node.nrow_expected
      let r := if r0 ≥ node.ncol_expected then r0 + ndelay_in else r0
      let k := c * nrow + r
      Function.update l k (aval src)) lcol

/-- "Add A" of `assemble.hxx` (lines 64-88): `k` is shifted by `ndelay_in`, `r` is not. -/
def add_a_hxx (node : cpu_node_data T) (ndelay_in nrow : Int) (aval : Int → T)
    (scaling : Option (Int → T)) (lcol : Int → T) : Int → T :=
  match scaling with
  | some sc =>
    forRange 0 node.num_a (fun i l =>
      let src := node.amap (2 * i + 0) - 1
      let dest := node.amap (2 * i + 1) - 1
      let c := Int.tdiv dest node.nrow_expected
      let r := Int.tmod dest node.nrow_expected
      let k0 := c * nrow + r
      let k := if r ≥ node.ncol_expected then k0 + ndelay_in else k0
      let rscale := sc (node.rlist r - 1)
      let cscale := sc (node.rlist c - 1)
      Function.update l k (rscale * aval src * cscale)) lcol
  | none =>
    forRange 0 node.num_a (fun i l =>
      let src := node.amap (2 * i + 0) - 1
      let dest := node.amap (2 * i + 1) - 1
      let c := Int.tdiv dest node.nrow_expected
      let r := Int.tmod dest node.nrow_expected
      let k0 := c * nrow + r
      let k := if r ≥ node.ncol_expected then k0 + ndelay_in else k0
      Function.update l k (aval src)) lcol

/-- The two loops that build the lookup vector `map`. -/
def build_map (node : cpu_node_data T) (ndelay_in : Int) (map : Int → Int) : Int → Int :=
  let map1 := forRange 0 node.ncol_expected (fun i m => Function.update m (node.rlist i) i) map
  forRange node.ncol_expected node.nrow_expected
    (fun i m => Function.update m (node.rlist i) (i + ndelay_in)) map1

/-- "Handle delays" for one child: the loop over `i < child->ndelay_out` (identical in both
variants). -/
def add_delays (child : cpu_node_data T) (map : Int → Int) (nrow ncol : Int) (f : Front T) :
    Front T :=
  forRange 0 child.ndelay_out (fun i f =>
    let dest := f.delay_col * (nrow + 1)
    let lds := child.nrow_expected + child.ndelay_in
    let src := (child.nelim + i) * (lds + 1)
    let perm1 := Function.update f.perm f.delay_col (child.perm (child.nelim + i))
    let lcol1 := forRange 0 (child.ndelay_out - i)
      (fun j l => Function.update l (dest + j) (child.lcol (src + j))) f.lcol
    let src2 := child.nelim * lds + child.ndelay_in + i * lds
    let lcol2 := forRange child.ncol_expected child.nrow_expected
      (fun j l =>
        let r := map (child.rlist j)
        if r < ncol then Function.update l (r * nrow + f.delay_col) (child.lcol (src2 + j))
        else Function.update l (f.delay_col * nrow + r) (child.lcol (src2 + j))) lcol1
    { f with perm := perm1, lcol := lcol2, delay_col := f.delay_col + 1 }) f

/-- The content of a child's contribution block as the parent reads it. -/
def contrib_mem (child : cpu_node_data T) : Int → T :=
  match child.contrib with
  | some a => a
  | none => fun _ => 0

/-- `dest[k] += v` on the contribution block of the node under assembly. -/
def contrib_add (f : Front T) (k : Int) (v : T) : Front T :=
  { f with contrib := f.contrib.map (fun a => Function.update a k (a k + v)) }

/-- `dest[k] += v` on `lcol` of the node under assembly. -/
def lcol_add (f : Front T) (k : Int) (v : T) : Front T :=
  { f with lcol := Function.update f.lcol k (f.lcol k + v) }

/-- "Handle expected contributions" of `factor_cpu.cxx` (lines 188-214): guarded by
`child->nelim > 0`, the contribution block is addressed relative to `ncol_expected`. -/
def add_contrib_cpu (node child : cpu_node_data T) (map : Int → Int) (nrow : Int)
    (f : Front T) : Front T :=
  if child.nelim > 0 then
    let cm := child.nrow_expected - child.ncol_expected
    forRange 0 cm (fun i f =>
      let c := map (child.rlist (child.ncol_expected + i))
      let src := i * cm
      if c < node.ncol_expected then
        let ldd := nrow
        forRange i cm (fun j f =>
          let r := map (child.rlist (child.ncol_expected + j))
          lcol_add f (c * ldd + r) (contrib_mem child (src + j))) f
      else
        let ldd := node.nrow_expected - node.ncol_expected
        forRange i cm (fun j f =>
          let r := map (child.rlist (child.ncol_expected + j)) - node.ncol_expected
          contrib_add f ((c - node.ncol_expected) * ldd + r) (contrib_mem child (src + j))) f) f
  else f

/-- "Handle expected contributions" of `assemble.hxx` (lines 124-155): guarded by
`child->contrib`, the contribution block is addressed relative to `ncol`. -/
def add_contrib_hxx (node child : cpu_node_data T) (map : Int → Int) (nrow ncol : Int)
    (f : Front T) : Front T :=
  if child.contrib.isSome then
    let cm := child.nrow_expected - child.ncol_expected
    forRange 0 cm (fun i f =>
      let c := map (child.rlist (child.ncol_expected + i))
      let src := i * cm
      if c < node.ncol_expected then
        let ldd := nrow
        forRange i cm (fun j f =>
          let r := map (child.rlist (child.ncol_expected + j))
          lcol_add f (c * ldd + r) (contrib_mem child (src + j))) f
      else
        let ldd := node.nrow_expected - node.ncol_expected
        forRange i cm (fun j f =>
          let r := map (child.rlist (child.ncol_expected + j)) - ncol
          contrib_add f ((c - ncol) * ldd + r) (contrib_mem child (src + j))) f) f
  else f

/-- The value of `ndelay_in` after the first loop over the children. -/
def sum_delays (nodes : Nat → cpu_node_data T) (cs : List Nat) : Int :=
  cs.foldl (fun acc c => acc + (nodes c).ndelay_out) 0

/-- The front before the children are added: zeroed `lcol` of `len` entries, zeroed
contribution block (or null), `perm` set from `rlist` for the expected columns; `delay_col`
holds the value it is initialised with when there are children. -/
def init_front (posdef : Bool) (node : cpu_node_data T) (ndelay_in : Int) (fresh : Fresh T) :
    Front T :=
  let nrow := node.nrow_expected + ndelay_in
  let ncol := node.ncol_expected + ndelay_in
  let len := if posdef then nrow * ncol else (nrow + 2) * ncol
  let contrib_dimn := node.nrow_expected - node.ncol_expected
  { lcol := fun k => if 0 ≤ k ∧ k < len then 0 else fresh.lcol k
    contrib :=
      if contrib_dimn > 0 then
        some (fun k => if 0 ≤ k ∧ k < contrib_dimn * contrib_dimn then 0 else fresh.contrib k)
      else none
    perm := forRange 0 node.ncol_expected (fun i p => Function.update p i (node.rlist i)) fresh.perm
    delay_col := node.ncol_expected }

/-- The body of `assemble_node` of `factor_cpu.cxx` for the children `cs` of the node: the
assembled front and the lookup vector. Each child is a node other than the one under
assembly, so its fields are read from `nodes`. -/
def assemble_front_cpu (posdef : Bool) (nodes : Nat → cpu_node_data T) (ni : Nat)
    (cs : List Nat) (map : Int → Int) (aval : Int → T) (scaling : Option (Int → T))
    (fresh : Fresh T) : Front T × (Int → Int) :=
  let node := nodes ni
  let ndelay_in := sum_delays nodes cs
  let nrow := node.nrow_expected + ndelay_in
  let ncol := node.ncol_expected + ndelay_in
  let f0 := init_front posdef node ndelay_in fresh
  let f1 := { f0 with lcol := add_a_cpu node ndelay_in nrow aval scaling f0.lcol }
  if node.first_child.isSome then
    let map1 := build_map node ndelay_in map
    (cs.foldl (fun f c =>
      add_contrib_cpu node (nodes c) map1 nrow (add_delays (nodes c) map1 nrow ncol f)) f1, map1)
  else (f1, map)

/-- The body of `assemble_node` of `assemble.hxx` for the children `cs` of the node. -/
def assemble_front_hxx (posdef : Bool) (nodes : Nat → cpu_node_data T) (ni : Nat)
    (cs : List Nat) (map : Int → Int) (aval : Int → T) (scaling : Option (Int → T))
    (fresh : Fresh T) : Front T × (Int → Int) :=
  let node := nodes ni
  let ndelay_in := sum_delays nodes cs
  let nrow := node.nrow_expected + ndelay_in
  let ncol := node.ncol_expected + ndelay_in
  let f0 := init_front posdef node ndelay_in fresh
  let f1 := { f0 with lcol := add_a_hxx node ndelay_in nrow aval scaling f0.lcol }
  if node.first_child.isSome then
    let map1 := build_map node ndelay_in map
    (cs.foldl (fun f c =>
      add_contrib_hxx node (nodes c) map1 nrow ncol
        (add_delays (nodes c) map1 nrow ncol f)) f1, map1)
  else (f1, map)

/-- The node after assembly: `ndelay_in`, `lcol`, `perm` and `contrib` are set. -/
def store_front (node : cpu_node_data T) (ndelay_in : Int) (f : Front T) : cpu_node_data T :=
  { node with ndelay_in := ndelay_in, lcol := f.lcol, perm := f.perm, contrib := f.contrib }

/-- `assemble_node` of `factor_cpu.cxx`: the assembled node `ni` and the lookup vector;
`none` when the chain of children does not end. -/
def assemble_node_cpu (posdef : Bool) (nnodes : Nat) (nodes : Nat → cpu_node_data T) (ni : Nat)
    (map : Int → Int) (aval : Int → T) (scaling : Option (Int → T)) (fresh : Fresh T) :
    Option (cpu_node_data T × (Int → Int)) :=
  match children nodes nnodes ni with
  | none => none
  | some cs =>
    let r := assemble_front_cpu posdef nodes ni cs map aval scaling fresh
    some (store_front (nodes ni) (sum_delays nodes cs) r.1, r.2)

/-- `assemble_node` of `assemble.hxx`. -/
def assemble_node_hxx (posdef : Bool) (nnodes : Nat) (nodes : Nat → cpu_node_data T) (ni : Nat)
    (map : Int → Int) (aval : Int → T) (scaling : Option (Int → T)) (fresh : Fresh T) :
    Option (cpu_node_data T × (Int → Int)) :=
  match children nodes nnodes ni with
  | none => none
  | some cs =>
    let r := assemble_front_hxx posdef nodes ni cs map aval scaling fresh
    some (store_front (nodes ni) (sum_delays nodes cs) r.1, r.2)

end Assemble

section Factor

variable {T : Type} [Scalar T]

/-- `factor_node_indef`. -/
def factor_node_indef (K : Kernels T) (options : cpu_factor_options T)
    (node : cpu_node_data T) : cpu_node_data T :=
  let m := node.nrow_expected + node.ndelay_in
  let n := node.ncol_expected + node.ndelay_in
  let r := K.ldlt options.u options.small m n node.perm node.lcol m (m * n)
  { node with nelim := r.1, perm := r.2.1, lcol := r.2.2, ndelay_out := n - r.1 }

/-- `factor_node_posdef`: the node, and the column carried by `NotPosDefError` when it is
thrown. -/
def factor_node_posdef (K : Kernels T) (node : cpu_node_data T) :
    cpu_node_data T × Option Int :=
  let m := node.nrow_expected
  let n := node.ncol_expected
  let r := K.llt m n node.lcol m
  let flag := r.1
  let node1 := { node with lcol := r.2, nelim := if flag ≠ 0 then flag else n }
  if flag ≠ 0 then (node1, some flag)
  else ({ node1 with ndelay_out := 0 }, none)

/-- The loop `for(int j=0; j<n;)` of `calculate_update` that forms `ld`; `lcol` and `d` are
the arrays seen through the offsets `lcol_off` and `d_off`. Every round advances `j`, so `n`
rounds suffice. -/
def calc_ld (node_lcol : Int → T) (lcol_off d_off ldl m n : Int) : Nat → Int → (Int → T) → Int → T
  | 0, _, ld => ld
  | fuel + 1, j, ld =>
    if j < n then
      let lcol := fun x => node_lcol (lcol_off + x)
      let d := fun x => node_lcol (d_off + x)
      if d (2 * j + 1) = 0 then
        if d (2 * j) = 0 then
          calc_ld node_lcol lcol_off d_off ldl m n fuel (j + 1)
            (forRange 0 m (fun i ld => Function.update ld (j * m + i) 0) ld)
        else
          let d11 := 1 / d (2 * j)
          calc_ld node_lcol lcol_off d_off ldl m n fuel (j + 1)
            (forRange 0 m (fun i ld => Function.update ld (j * m + i) (d11 * lcol (j * ldl + i)))
              ld)
      else
        let di11 := d (2 * j)
        let di21 := d (2 * j + 1)
        let di22 := d (2 * j + 3)
        let det := di11 * di22 - di21 * di21
        let d11 := di22 / det
        let d21 := -di21 / det
        let d22 := di11 / det
        calc_ld node_lcol lcol_off d_off ldl m n fuel (j + 2)
          (forRange 0 m (fun i ld =>
            let ld1 := Function.update ld (j * m + i)
              (d11 * lcol (j * ldl + i) + d21 * lcol ((j + 1) * ldl + i))
            Function.update ld1 ((j + 1) * m + i)
              (d21 * lcol (j * ldl + i) + d22 * lcol ((j + 1) * ldl + i))) ld)
    else ld

/-- `calculate_update<posdef>`. -/
def calculate_update (posdef : Bool) (K : Kernels T) (fresh : Fresh T)
    (node : cpu_node_data T) : cpu_node_data T :=
  let m := node.nrow_expected - node.ncol_expected
  let n := node.nelim
  if m = 0 ∨ n = 0 then node
  else if posdef then
    let ldl := node.nrow_expected
    let contrib1 := node.contrib.map (fun c => K.syrk m n node.lcol node.ncol_expected ldl c m)
    { node with contrib := contrib1 }
  else
    let lcol_off := node.ncol_expected + node.ndelay_in
    let ldl := node.nrow_expected + node.ndelay_in
    let d_off := ldl * (node.ncol_expected + node.ndelay_in)
    let ld := calc_ld node.lcol lcol_off d_off ldl m n n.toNat 0 fresh.ld
    let contrib1 := node.contrib.map (fun c => K.gemm m m n node.lcol lcol_off ldl ld m c m)
    { node with contrib := contrib1 }

/-- The main loop of `factor` from node `ni` on, for `k` remaining nodes: the column of a
`NotPosDefError` if one is thrown, the nodes and the lookup vector; `none` when a chain of
children does not end. -/
def factor_loop (posdef : Bool) (K : Kernels T) (options : cpu_factor_options T) (nnodes : Nat)
    (aval : Int → T) (scaling : Option (Int → T)) (fresh : Nat → Fresh T) :
    Nat → Nat → (Nat → cpu_node_data T) → (Int → Int) →
      Option (Option Int × (Nat → cpu_node_data T) × (Int → Int))
  | 0, _, nodes, map => some (none, nodes, map)
  | k + 1, ni, nodes, map =>
    match assemble_node_cpu posdef nnodes nodes ni map aval scaling (fresh ni) with
    | none => none
    | some a =>
      if posdef then
        let r := factor_node_posdef K a.1
        match r.2 with
        | some posn => some (some posn, Function.update nodes ni r.1, a.2)
        | none =>
          factor_loop posdef K options nnodes aval scaling fresh k (ni + 1)
            (Function.update nodes ni (calculate_update posdef K (fresh ni) r.1)) a.2
      else
        factor_loop posdef K options nnodes aval scaling fresh k (ni + 1)
          (Function.update nodes ni
            (calculate_update posdef K (fresh ni) (factor_node_indef K options a.1))) a.2

/-- The rewrite of the infinity sentinels in `d` for one node (second loop of `factor`). -/
def fix_diag (node : cpu_node_data T) : cpu_node_data T :=
  let m := node.nrow_expected + node.ndelay_in
  let n := node.ncol_expected + node.ndelay_in
  let d_off := m * n
  let lcol1 := forRange 0 (2 * node.nelim)
    (fun i l =>
      if l (d_off + i) = Scalar.infinity then Function.update l (d_off + i) (l (d_off + i + 1))
      else l) node.lcol
  { node with lcol := lcol1 }

/-- The second loop of `factor`, over the nodes `0 .. nnodes-1`. -/
def fix_diag_all (nnodes : Nat) (nodes : Nat → cpu_node_data T) : Nat → cpu_node_data T :=
  fun ni => if ni < nnodes then fix_diag (nodes ni) else nodes ni

/-- `factor<posdef, T>`: the column of a `NotPosDefError` that leaves the function, if any,
and the nodes; `fresh_map` is the content of the new `map` array. -/
def factor (posdef : Bool) (K : Kernels T) (options : cpu_factor_options T) (nnodes : Nat)
    (nodes : Nat → cpu_node_data T) (aval : Int → T) (scaling : Option (Int → T))
    (fresh : Nat → Fresh T) (fresh_map : Int → Int) :
    Option (Option Int × (Nat → cpu_node_data T)) :=
  match factor_loop posdef K options nnodes aval scaling fresh nnodes 0 nodes fresh_map with
  | none => none
  | some r =>
    match r.1 with
    | some posn => some (some posn, r.2.1)
    | none => some (none, fix_diag_all nnodes r.2.1)

/-- `spral_ssids_factor_cpu_dbl`: the statistics record and the nodes. `stats->flag` is
initialised with `SSIDS_SUCCESS`; the posdef branch catches `NotPosDefError` and sets the flag,
the indef branch has no handler, so an exception leaving it would leave the wrapper without a
record. The printing under `print_level > 9999` changes nothing. -/
def spral_ssids_factor_cpu_dbl (posdef : Bool) (K : Kernels T) (options : cpu_factor_options T)
    (nnodes : Nat) (nodes : Nat → cpu_node_data T) (aval : Int → T)
    (scaling : Option (Int → T)) (fresh : Nat → Fresh T) (fresh_map : Int → Int) :
    Option (cpu_factor_stats × (Nat → cpu_node_data T)) :=
  let stats : cpu_factor_stats := { flag := SSIDS_SUCCESS }
  if posdef then
    match factor true K options nnodes nodes aval scaling fresh fresh_map with
    | none => none
    | some r =>
      match r.1 with
      | some _ => some ({ stats with flag := SSIDS_ERROR_NOT_POS_DEF }, r.2)
      | none => some (stats, r.2)
  else
    match factor false K options nnodes nodes aval scaling fresh fresh_map with
    | none => none
    | some r =>
      match r.1 with
      | some _ => none
      | none => some (stats, r.2)

end Factor

end Ssids

namespace Ssids

/-! ## An exact element type and small inputs for evaluation -/

/-- Exact stand-in for `double`: a rational number, or the infinity that the source uses as
a sentinel (absorbing in every operation). -/
inductive Dbl where
  | num (q : ℚ)
  | inf
  deriving DecidableEq

/-- Lifting of a binary operation on the rationals to `Dbl`. -/
def Dbl.lift2 (op : ℚ → ℚ → ℚ) : Dbl → Dbl → Dbl
  | .num x, .num y => .num (op x y)
  | _, _ => .inf

instance instScalarDbl : Scalar Dbl where
  zero := .num 0
  one := .num 1
  add := Dbl.lift2 (fun x y => x + y)
  sub := Dbl.lift2 (fun x y => x - y)
  mul := Dbl.lift2 (fun x y => x * y)
  div := Dbl.lift2 (fun x y => x / y)
  neg := fun a => match a with
    | .num x => .num (-x)
    | .inf => .inf
  infinity := .inf
  decEq := inferInstance

/-- A leaf node with one column, one delayed column handed to its parent (`perm[0] = 7`). -/
def example_leaf : cpu_node_data Dbl :=
  { nrow_expected := 2, ncol_expected := 1, first_child := none, next_child := none
    rlist := fun i => i + 7, num_a := 0, amap := fun _ => 1, even := false
    ndelay_in := 0, ndelay_out := 1, nelim := 0
    lcol := fun _ => 0, perm := fun _ => 7, contrib := none }

/-- Two nodes: the leaf `0` and its parent `1` (every other index repeats the leaf). -/
def example_nodes : Nat → cpu_node_data Dbl :=
  fun i =>
    if i = 1 then
      { example_leaf with nrow_expected := 1, first_child := some 0, rlist := fun _ => 8
                          even := true, ndelay_out := 0 }
    else example_leaf

/-- Kernels for evaluation: the LDLT kernel accepts every column, the LLT kernel succeeds,
the BLAS calls leave `c` as it is. -/
def example_kernels : Kernels Dbl :=
  { ldlt := fun _ _ _ n perm lcol _ _ => (n, perm, lcol)
    llt := fun _ _ lcol _ => (0, lcol)
    syrk := fun _ _ _ _ _ c _ => c
    gemm := fun _ _ _ _ _ _ _ _ c _ => c }

/-- Options for evaluation. -/
def example_options : cpu_factor_options Dbl :=
  { small := .num (1 / 100000), u := .num (1 / 100), print_level := 0 }

/-- Fresh memory for evaluation. -/
def example_fresh : Fresh Dbl :=
  { lcol := fun _ => 0, perm := fun _ => 0, contrib := fun _ => 0, ld := fun _ => 0 }

end Ssids

namespace Ssids

/-- What stays of a node when it is assembled, factorized and updated. -/
def SameShape {T : Type} (a b : cpu_node_data T) : Prop :=
  a.first_child = b.first_child ∧ a.next_child = b.next_child ∧
  a.ncol_expected = b.ncol_expected ∧ a.nrow_expected = b.nrow_expected

/-- The counters of a node: what `factor_node` and the update leave of an assembled node. -/
def SameCounts {T : Type} (a b : cpu_node_data T) : Prop :=
  SameShape a b ∧ a.ndelay_in = b.ndelay_in ∧ a.ndelay_out = b.ndelay_out ∧ a.nelim = b.nelim

/-- State of the sweep before node `ni`: the link fields are those of the input `nodes0`, and
the delay counters of every node before `ni` are balanced. -/
def DoneUpTo {T : Type} (posdef : Bool) (nnodes : Nat) (nodes0 cur : Nat → cpu_node_data T)
    (ni : Nat) : Prop :=
  (∀ j, SameShape (cur j) (nodes0 j)) ∧
  ∀ i, i < ni → ∀ cs, children nodes0 nnodes i = some cs →
    (cur i).nelim + (cur i).ndelay_out = (cur i).ncol_expected + (cur i).ndelay_in ∧
    (cur i).ndelay_in = (cs.map (fun c => (cur c).ndelay_out)).sum ∧
    (posdef = true → (cur i).ndelay_out = 0)

end Ssids

namespace Ssids

/-- The delayed columns handed to a parent: over the children in list order, the entries
`child.perm[child.nelim .. child.nelim + child.ndelay_out)`. -/
def delayed_perm {T : Type} (nodes : Nat → cpu_node_data T) : List Nat → List Int
  | [] => []
  | c :: cs =>
    (List.range (nodes c).ndelay_out.toNat).map
        (fun (i : Nat) => (nodes c).perm ((nodes c).nelim + (i : Int)))
      ++ delayed_perm nodes cs

end Ssids

namespace Ssids

/-! ## One round of "Add A", and the analytic value of a front element -/

/-- The index `k` that one round of "Add A" of `factor_cpu.cxx` computes from the 0-based
destination `dest` (lines 133-136, 146-149): `r` is shifted by `ndelay_in`, then
`k = c*nrow + r`. -/
def a_index_cpu {T : Type} (node : cpu_node_data T) (ndelay_in nrow dest : Int) : Int :=
  let c := Int.tdiv dest node.nrow_expected
  let r0 := Int.tmod dest node.nrow_expected
  let r := if r0 ≥ node.ncol_expected then r0 + ndelay_in else r0
  c * nrow + r

/-- The index `k` that one round of "Add A" of `assemble.hxx` computes from the 0-based
destination `dest` (lines 69-72, 82-85): `k = c*nrow + r`, then `k` is shifted. -/
def a_index_hxx {T : Type} (node : cpu_node_data T) (ndelay_in nrow dest : Int) : Int :=
  let c := Int.tdiv dest node.nrow_expected
  let r := Int.tmod dest node.nrow_expected
  let k0 := c * nrow + r
  if r ≥ node.ncol_expected then k0 + ndelay_in else k0

/-- The value that one round of "Add A" of `factor_cpu.cxx` stores for the 0-based pair
`(src, dest)` (lines 137-139, 150): the row scale factor is read at the shifted `r`. -/
def a_value_cpu {T : Type} [Scalar T] (node : cpu_node_data T) (ndelay_in : Int) (aval : Int → T)
    (scaling : Option (Int → T)) (src dest : Int) : T :=
  match scaling with
  | some sc =>
    let c := Int.tdiv dest node.nrow_expected
    let r0 := Int.tmod dest node.nrow_expected
    let r := if r0 ≥ node.ncol_expected then r0 + ndelay_in else r0
    sc (node.rlist r - 1) * aval src * sc (node.rlist c - 1)
  | none => aval src

/-- The value that one round of "Add A" of `assemble.hxx` stores for the 0-based pair
`(src, dest)` (lines 73-75, 86). -/
def a_value_hxx {T : Type} [Scalar T] (node : cpu_node_data T) (aval : Int → T)
    (scaling : Option (Int → T)) (src dest : Int) : T :=
  match scaling with
  | some sc =>
    let c := Int.tdiv dest node.nrow_expected
    let r := Int.tmod dest node.nrow_expected
    sc (node.rlist r - 1) * aval src * sc (node.rlist c - 1)
  | none => aval src

end Ssids

namespace Ssids

/-! ## Small inputs for the assembly theorems -/

/-- Values of `A` for evaluation: `aval[i] = i`. -/
def example_aval : Int → Dbl := fun i => Dbl.num (i : ℚ)

/-- A leaf with two entries of `A` for evaluation: `aval[0]` goes to `lcol[0]`, `aval[1]` to
`lcol[1]`. -/
def example_single : Nat → cpu_node_data Dbl :=
  fun _ => { example_leaf with num_a := 2, amap := fun i => if i < 2 then 1 else 2 }

end Ssids

namespace Ssids

/-- A child with one column that was delayed as a whole (`nelim = 0`, `ndelay_out = 1`):
column variable 1, row variable 4. -/
def example_child13 : cpu_node_data Dbl :=
  { nrow_expected := 2, ncol_expected := 1, first_child := none, next_child := none
    rlist := fun i => if i = 0 then 1 else 4, num_a := 0, amap := fun _ => 1, even := false
    ndelay_in := 0, ndelay_out := 1, nelim := 0
    lcol := fun _ => 0, perm := fun _ => 1, contrib := some (fun _ => 0) }

/-- Its parent before assembly: column variable 2, row variables 3 and 4, and one entry of
`A` with 1-based `(src, dest) = (1, 2)`, the element in row 3 of column 2. -/
def example_parent13 : cpu_node_data Dbl :=
  { nrow_expected := 3, ncol_expected := 1, first_child := some 0, next_child := none
    rlist := fun i => i + 2, num_a := 1, amap := fun i => if i = 0 then 1 else 2, even := true
    ndelay_in := 0, ndelay_out := 0, nelim := 0
    lcol := fun _ => 0, perm := fun _ => 0, contrib := none }

/-- The two nodes: child `0`, parent `1`. -/
def example_nodes13 : Nat → cpu_node_data Dbl :=
  fun i => if i = 1 then example_parent13 else example_child13

/-- Scale factors of the variables 1 to 4: 2, 3, 5, 7. -/
def example_scaling13 : Int → Dbl :=
  fun i => if i = 0 then .num 2 else if i = 1 then .num 3 else if i = 2 then .num 5 else .num 7

end Ssids

namespace Ssids

/-- A child with two columns, one eliminated and one delayed, and one row (variable 4) whose
contribution entry is 5. -/
def example_child15 : cpu_node_data Dbl :=
  { nrow_expected := 3, ncol_expected := 2, first_child := none, next_child := none
    rlist := fun i => if i = 0 then 1 else if i = 1 then 2 else 4
    num_a := 0, amap := fun _ => 1, even := false
    ndelay_in := 0, ndelay_out := 1, nelim := 1
    lcol := fun _ => 0, perm := fun i => i + 1
    contrib := some (fun k => if k = 0 then .num 5 else .num 0) }

/-- Its parent before assembly: column variable 3, row variable 4. -/
def example_parent15 : cpu_node_data Dbl :=
  { nrow_expected := 2, ncol_expected := 1, first_child := some 0, next_child := none
    rlist := fun i => i + 3, num_a := 0, amap := fun _ => 1, even := true
    ndelay_in := 0, ndelay_out := 0, nelim := 0
    lcol := fun _ => 0, perm := fun _ => 0, contrib := none }

/-- The two nodes: child `0`, parent `1`. -/
def example_nodes15 : Nat → cpu_node_data Dbl :=
  fun i => if i = 1 then example_parent15 else example_child15

/-- A child whose only column (variable 1) was delayed as a whole and whose contribution
block for its row (variable 2) holds the value 5 that its own children folded in. -/
def example_child16 : cpu_node_data Dbl :=
  { nrow_expected := 2, ncol_expected := 1, first_child := none, next_child := none
    rlist := fun i => if i = 0 then 1 else 2
    num_a := 0, amap := fun _ => 1, even := false
    ndelay_in := 0, ndelay_out := 1, nelim := 0
    lcol := fun _ => 0, perm := fun _ => 1
    contrib := some (fun k => if k = 0 then .num 5 else .num 0) }

/-- Its parent before assembly: the single column and row is variable 2. -/
def example_parent16 : cpu_node_data Dbl :=
  { nrow_expected := 1, ncol_expected := 1, first_child := some 0, next_child := none
    rlist := fun _ => 2, num_a := 0, amap := fun _ => 1, even := true
    ndelay_in := 0, ndelay_out := 0, nelim := 0
    lcol := fun _ => 0, perm := fun _ => 0, contrib := none }

/-- The two nodes: child `0`, parent `1`. -/
def example_nodes16 : Nat → cpu_node_data Dbl :=
  fun i => if i = 1 then example_parent16 else example_child16

end Ssids

namespace Ssids

end Ssids

namespace Ssids

/-- A single front for the matrix `[[4, 2], [2, -5]]`: two rows, two columns, the three
entries of the lower triangle with 1-based `(src, dest)` pairs `(1,1)`, `(2,2)`, `(3,4)`. -/
def example_spd_node : cpu_node_data Dbl :=
  { nrow_expected := 2, ncol_expected := 2, first_child := none, next_child := none
    rlist := fun i => i + 1, num_a := 3
    amap := fun i => if i < 2 then 1 else if i < 4 then 2 else if i = 4 then 3 else 4
    even := false, ndelay_in := 0, ndelay_out := 0, nelim := 0
    lcol := fun _ => 0, perm := fun _ => 0, contrib := none }

/-- The values 4, 2, -5 of that matrix. -/
def example_spd_aval : Int → Dbl :=
  fun i => if i = 0 then .num 4 else if i = 1 then .num 2 else .num (-5)

/-- Kernels whose LLT factorization reports a non-positive diagonal at column `k`. -/
def example_kernels_fail (k : Int) : Kernels Dbl :=
  { example_kernels with llt := fun _ _ lcol _ => (k, lcol) }

end Ssids

namespace Ssids

/-- A chain of three fronts: the leaf `0` (column variable 1, row variable 3), its parent `1`
(column variable 2, row variable 3) and the root `2` (column variable 3). -/
def example_chain16 : Nat → cpu_node_data Dbl :=
  fun i =>
    if i = 0 then
      { example_leaf with rlist := fun j => if j = 0 then 1 else 3, ndelay_out := 0 }
    else if i = 1 then
      { example_leaf with first_child := some 0, rlist := fun j => if j = 0 then 2 else 3
                          ndelay_out := 0 }
    else
      { example_leaf with nrow_expected := 1, first_child := some 1, rlist := fun _ => 3
                          ndelay_out := 0 }

/-- Kernels for that chain: the LDLT kernel accepts the column of the leaf (the front whose
first variable is 1) and delays every other column; the update of a front that eliminated
a column leaves 5 in the first entry of its contribution block. -/
def example_kernels16 : Kernels Dbl :=
  { example_kernels with
    ldlt := fun _ _ _ n perm lcol _ _ => (if perm 0 = 1 then n else 0, perm, lcol)
    gemm := fun _ _ _ _ _ _ _ _ c _ => fun x => if x = 0 then .num 5 else c x }

end Ssids

namespace Ssids

/-! ## The encoding of the block diagonal that the LDLT kernel leaves in the `D` rows -/

/-- The layout of `D` for `nelim` accepted pivots, `pair k` saying that the columns `k` and
`k+1` are a 2x2 pivot: the pairs lie inside the accepted columns and do not overlap, the
slots `[2k .. 2k+3]` of a pair hold `[d11, d21, infinity, d22]` with `d22` finite, and the
infinity sentinel occurs in `[0, 2*nelim)` only as the mark of a pair. -/
structure DiagEncoding {T : Type} [Scalar T] (d : Int → T) (nelim : Int) (pair : Int → Prop) :
    Prop where
  range : ∀ k, pair k → 0 ≤ k ∧ k + 1 < nelim
  apart : ∀ k, pair k → ¬ pair (k + 1)
  sentinel : ∀ k, pair k → d (2 * k + 2) = Scalar.infinity
  d22 : ∀ k, pair k → d (2 * k + 3) ≠ Scalar.infinity
  only : ∀ i, 0 ≤ i → i < 2 * nelim → d i = Scalar.infinity → ∃ k, pair k ∧ i = 2 * k + 2

/-- Kernels for evaluation whose LDLT factorization accepts every column and leaves the
encoding `[1, 2, infinity, 3]` of one 2x2 pivot in the first four slots of `D`. -/
def example_kernels_pair : Kernels Dbl :=
  { example_kernels with
    ldlt := fun _ _ _ n perm lcol _ d_off =>
      (n, perm, fun x =>
        if x = d_off then .num 1 else if x = d_off + 1 then .num 2
        else if x = d_off + 2 then .inf else if x = d_off + 3 then .num 3 else lcol x) }

end Ssids
namespace Ssids

/-! ## Storage of a front and the accesses of the diagonal post-pass -/

/-- The length `len` of `lcol` that `assemble_node` requests for a node whose `ndelay_in` has
been counted: `nrow*ncol` in posdef mode, `(nrow+2)*ncol` otherwise. -/
def lcol_len {T : Type} (posdef : Bool) (node : cpu_node_data T) : Int :=
  let nrow := node.nrow_expected + node.ndelay_in
  let ncol := node.ncol_expected + node.ndelay_in
  if posdef then nrow * ncol else (nrow + 2) * ncol

/-- The second loop of `factor` for one node with a record of the indices of `lcol` it
touches, in order: round `i` reads `d[i]`, and when that is infinity reads `d[i+1]` and
writes `d[i]`, `d` being `lcol + m*n`. -/
def fix_diag_trace {T : Type} [Scalar T] (node : cpu_node_data T) : (Int → T) × List Int :=
  let m := node.nrow_expected + node.ndelay_in
  let n := node.ncol_expected + node.ndelay_in
  let d_off := m * n
  forRange 0 (2 * node.nelim)
    (fun i (st : (Int → T) × List Int) =>
      if st.1 (d_off + i) = Scalar.infinity then
        (Function.update st.1 (d_off + i) (st.1 (d_off + i + 1)),
          st.2 ++ [d_off + i, d_off + i + 1, d_off + i])
      else (st.1, st.2 ++ [d_off + i])) (node.lcol, [])

/-- The indices of `lcol` that the post-pass reads or writes for one node. -/
def fix_diag_accesses {T : Type} [Scalar T] (node : cpu_node_data T) : List Int :=
  (fix_diag_trace node).2

/-- The values 4, 2, 5 of the lower triangle of `[[4, 2], [2, 5]]`. -/
def example_pd_aval : Int → Dbl :=
  fun i => if i = 0 then .num 4 else if i = 1 then .num 2 else .num 5

/-- Fresh memory in which the entry right behind a buffer of four entries holds infinity. -/
def example_fresh_inf : Fresh Dbl :=
  { example_fresh with lcol := fun k => if k = 4 then .inf else .num 7 }

end Ssids
namespace Ssids

/-! ## The pivots seen by the loop of `calculate_update` -/

/-- The rounds of the loop `for(int j=0; j<n;)` of `calculate_update`, from column `j` on:
`(j, false)` for a round that takes the branch of the 1x1 pivot (`d[2*j+1] == 0.0`, then
`j++`), `(j, true)` for a round that takes the branch of the 2x2 pivot (then `j += 2`). -/
def calc_ld_pivots {T : Type} [Scalar T] (node_lcol : Int → T) (d_off n : Int) :
    Nat → Int → List (Int × Bool)
  | 0, _ => []
  | fuel + 1, j =>
    if j < n then
      if node_lcol (d_off + (2 * j + 1)) = 0 then
        (j, false) :: calc_ld_pivots node_lcol d_off n fuel (j + 1)
      else (j, true) :: calc_ld_pivots node_lcol d_off n fuel (j + 2)
    else []

/-- The assignments to `ld` in one round of that loop, for the column `p.1` and the branch
`p.2`. -/
def calc_ld_round {T : Type} [Scalar T] (node_lcol : Int → T) (lcol_off d_off ldl m : Int)
    (ld : Int → T) (p : Int × Bool) : Int → T :=
  let j := p.1
  let lcol := fun x => node_lcol (lcol_off + x)
  let d := fun x => node_lcol (d_off + x)
  if p.2 then
    let di11 := d (2 * j)
    let di21 := d (2 * j + 1)
    let di22 := d (2 * j + 3)
    let det := di11 * di22 - di21 * di21
    let d11 := di22 / det
    let d21 := -di21 / det
    let d22 := di11 / det
    forRange 0 m (fun i ld =>
      let ld1 := Function.update ld (j * m + i)
        (d11 * lcol (j * ldl + i) + d21 * lcol ((j + 1) * ldl + i))
      Function.update ld1 ((j + 1) * m + i)
        (d21 * lcol (j * ldl + i) + d22 * lcol ((j + 1) * ldl + i))) ld
  else if d (2 * j) = 0 then
    forRange 0 m (fun i ld => Function.update ld (j * m + i) 0) ld
  else
    let d11 := 1 / d (2 * j)
    forRange 0 m (fun i ld => Function.update ld (j * m + i) (d11 * lcol (j * ldl + i))) ld

/-- The rows `D` of a front with three eliminated columns, a 2x2 pivot followed by a 1x1
pivot: `[1, 2, infinity, 3, 4, 0]`. -/
def example_d_pair_single : Int → Dbl :=
  fun i => if i = 0 then .num 1 else if i = 1 then .num 2 else if i = 2 then .inf
    else if i = 3 then .num 3 else if i = 4 then .num 4 else .num 0

/-- A front after `factor_node` with four rows and three eliminated columns whose rows `D`
(from `lcol[12]` on) are `example_d_pair_single`, and with `lcol[k] = k` elsewhere. -/
def example_node_pair_single : cpu_node_data Dbl :=
  { example_leaf with
    nrow_expected := 4, ncol_expected := 3, ndelay_in := 0, ndelay_out := 0, nelim := 3
    lcol := fun x => if x < 12 then Dbl.num (x : ℚ) else example_d_pair_single (x - 12)
    contrib := some (fun _ => 0) }

end Ssids
namespace Ssids

/-! ## The rounds of "Handle delays" and the cells of a delayed column -/

/-- The index of `lcol` that receives the entry of child row `j` for the delayed column placed
at `delay_col`: `r*nrow + delay_col` if `r = map[child.rlist[j]] < ncol`, else
`delay_col*nrow + r`. -/
def delay_row_dest {T : Type} (child : cpu_node_data T) (map : Int → Int)
    (nrow ncol delay_col j : Int) : Int :=
  let r := map (child.rlist j)
  if r < ncol then r * nrow + delay_col else delay_col * nrow + r

/-- One round of the loop over `i < child->ndelay_out` in "Handle delays". -/
def delay_round {T : Type} (child : cpu_node_data T) (map : Int → Int) (nrow ncol : Int)
    (i : Int) (f : Front T) : Front T :=
  let dest := f.delay_col * (nrow + 1)
  let lds := child.nrow_expected + child.ndelay_in
  let src := (child.nelim + i) * (lds + 1)
  let perm1 := Function.update f.perm f.delay_col (child.perm (child.nelim + i))
  let lcol1 := forRange 0 (child.ndelay_out - i)
    (fun j l => Function.update l (dest + j) (child.lcol (src + j))) f.lcol
  let src2 := child.nelim * lds + child.ndelay_in + i * lds
  let lcol2 := forRange child.ncol_expected child.nrow_expected
    (fun j l =>
      let r := map (child.rlist j)
      if r < ncol then Function.update l (r * nrow + f.delay_col) (child.lcol (src2 + j))
      else Function.update l (f.delay_col * nrow + r) (child.lcol (src2 + j))) lcol1
  { f with perm := perm1, lcol := lcol2, delay_col := f.delay_col + 1 }

/-- The linear indices of the cells of a front with `N` rows and `q` expected columns that
belong to the delayed column `e`: the part of column `e` from the diagonal down, and the
entries of row `e` in the expected columns. -/
def DelayCell (N q e x : Int) : Prop :=
  (∃ r, e ≤ r ∧ r < N ∧ x = e * N + r) ∨ (∃ c, 0 ≤ c ∧ c < q ∧ x = c * N + e)

/-- The values of the lookup vector at the non-fully-summed rows of a child lie in the
expected columns or below the delayed columns of the front. -/
def MapsRows {T : Type} (child : cpu_node_data T) (map : Int → Int) (q C N : Int) : Prop :=
  ∀ j, child.ncol_expected ≤ j → j < child.nrow_expected →
    (0 ≤ map (child.rlist j) ∧ map (child.rlist j) < q) ∨
    (C ≤ map (child.rlist j) ∧ map (child.rlist j) < N)

/-- A child with two columns (variables 1 and 2) that were both delayed and one row
(variable 4); `lcol[k] = k`. -/
def example_child22 : cpu_node_data Dbl :=
  { nrow_expected := 3, ncol_expected := 2, first_child := none, next_child := none
    rlist := fun i => if i = 0 then 1 else if i = 1 then 2 else 4
    num_a := 0, amap := fun _ => 1, even := false
    ndelay_in := 0, ndelay_out := 2, nelim := 0
    lcol := fun k => Dbl.num (k : ℚ), perm := fun i => i + 1, contrib := some (fun _ => 0) }

/-- The child `0` of `example_child22` and its parent `1` (column variable 3, row
variable 4). -/
def example_nodes22 : Nat → cpu_node_data Dbl :=
  fun i => if i = 1 then example_parent15 else example_child22

end Ssids

namespace BuddyAlloc

/-! ## Arithmetic of blocks, partitions and linked lists -/

/-- Arithmetic of a block number and its partner, checked over the whole page. -/
theorem xor_facts : ∀ l < 7, ∀ p < 128, p % 2 ^ l = 0 →
    (min p (p ^^^ 2 ^ l)) % 2 ^ (l + 1) = 0 ∧ max p (p ^^^ 2 ^ l) = min p (p ^^^ 2 ^ l) + 2 ^ l
    ∧ (p ^^^ 2 ^ l) ^^^ 2 ^ l = p ∧ (p ^^^ 2 ^ l) < 128 ∧ (p ^^^ 2 ^ l) % 2 ^ l = 0 := by
  decide

/-- A block aligned at level `l+1`: its left half, its right half and its end. -/
theorem half_facts : ∀ l < 7, ∀ p < 128, p % 2 ^ (l + 1) = 0 →
    p % 2 ^ l = 0 ∧ (p + 2 ^ l) % 2 ^ l = 0 ∧ p + 2 ^ (l + 1) ≤ 128 ∧ p ^^^ 2 ^ l = p + 2 ^ l := by
  decide

/-- A block and its partner lie in the same block of every higher level. -/
theorem xor_div : ∀ l < 7, ∀ m < 8, ∀ q < 128, l < m → q % 2 ^ l = 0 →
    (q ^^^ 2 ^ l) / 2 ^ m = q / 2 ^ m := by
  decide

/-- An aligned block ends inside the page. -/
theorem blk_end : ∀ l < 8, ∀ p < 128, p % 2 ^ l = 0 → p + 2 ^ l ≤ 128 := by
  decide

theorem Partition.congr {B B' : Nat → Nat → Prop} (h : ∀ p l, B' p l ↔ B p l)
    (hp : Partition B) : Partition B' := by
  have e : B' = B := by funext p l; exact propext (h p l)
  rw [e]; exact hp

/-- Same block number in one partition means same level. -/
theorem Partition.level_eq {B : Nat → Nat → Prop} (hp : Partition B) {p l m : Nat}
    (h1 : B p l) (h2 : B p m) : l = m := by
  have hl : 0 < 2 ^ l := Nat.two_pow_pos l
  have hm : 0 < 2 ^ m := Nat.two_pow_pos m
  exact (hp.disj p l p m h1 h2 (by omega) (by omega)).2

/-- Splitting the block `(a, l+1)` into its two halves keeps a partition. -/
theorem Partition.split {B : Nat → Nat → Prop} (hp : Partition B) {a l : Nat}
    (ha : B a (l + 1)) :
    Partition (fun q m => (B q m ∧ ¬(q = a ∧ m = l + 1)) ∨ (m = l ∧ (q = a ∨ q = a + 2 ^ l))) := by
  obtain ⟨hl, ha128, hamod⟩ := hp.valid a (l + 1) ha
  have hf := half_facts l (by omega) a ha128 hamod
  have h2 : 2 ^ (l + 1) = 2 * 2 ^ l := by rw [pow_succ]; omega
  have hpos : ∀ k : Nat, 0 < 2 ^ k := fun k => Nat.two_pow_pos k
  refine ⟨?_, ?_, ?_⟩
  · rintro q m (⟨hB, -⟩ | ⟨hm, hq⟩)
    · exact hp.valid q m hB
    · subst hm
      rcases hq with hq | hq
      · subst hq; exact ⟨by omega, ha128, hf.1⟩
      · subst hq; exact ⟨by omega, by omega, hf.2.1⟩
  · rintro p l1 q l2 h1 h2' ho1 ho2
    have hp1 := hpos l1
    have hp2 := hpos l2
    rcases h1 with ⟨hB1, hn1⟩ | ⟨hm1, hq1⟩ <;> rcases h2' with ⟨hB2, hn2⟩ | ⟨hm2, hq2⟩
    · exact hp.disj p l1 q l2 hB1 hB2 ho1 ho2
    · exfalso
      subst hm2
      have := hp.disj p l1 a (l2 + 1) hB1 ha (by rcases hq2 with hq | hq <;> omega)
        (by rcases hq2 with hq | hq <;> omega)
      exact hn1 this
    · exfalso
      subst hm1
      have := hp.disj q l2 a (l1 + 1) hB2 ha (by rcases hq1 with hq | hq <;> omega)
        (by rcases hq1 with hq | hq <;> omega)
      exact hn2 this
    · subst hm1
      subst hm2
      refine ⟨?_, rfl⟩
      rcases hq1 with hq | hq <;> rcases hq2 with hq' | hq' <;> omega
  · intro u hu
    obtain ⟨p, m, hB, h1, h2'⟩ := hp.cover u hu
    by_cases hc : p = a ∧ m = l + 1
    · obtain ⟨hpa, hml⟩ := hc
      subst hpa; subst hml
      by_cases hlt : u < p + 2 ^ l
      · exact ⟨p, l, Or.inr ⟨rfl, Or.inl rfl⟩, h1, hlt⟩
      · exact ⟨p + 2 ^ l, l, Or.inr ⟨rfl, Or.inr rfl⟩, by omega, by omega⟩
    · exact ⟨p, m, Or.inl ⟨hB, hc⟩, h1, h2'⟩

/-- Merging the two halves `(a, l)` and `(a + 2^l, l)` into `(a, l+1)` keeps a partition. -/
theorem Partition.merge {B : Nat → Nat → Prop} (hp : Partition B) {a l : Nat}
    (hl : l < 7) (hal : a % 2 ^ (l + 1) = 0) (h1 : B a l) (h2 : B (a + 2 ^ l) l) :
    Partition (fun q m => (B q m ∧ ¬(m = l ∧ (q = a ∨ q = a + 2 ^ l))) ∨ (q = a ∧ m = l + 1)) := by
  obtain ⟨-, ha128, -⟩ := hp.valid a l h1
  have e2 : 2 ^ (l + 1) = 2 * 2 ^ l := by rw [pow_succ]; omega
  have hpos : ∀ k : Nat, 0 < 2 ^ k := fun k => Nat.two_pow_pos k
  refine ⟨?_, ?_, ?_⟩
  · rintro q m (⟨hB, -⟩ | ⟨hq, hm⟩)
    · exact hp.valid q m hB
    · subst hq; subst hm; exact ⟨by omega, ha128, hal⟩
  · rintro p l1 q l2 hb1 hb2 ho1 ho2
    have hp1 := hpos l1
    have hp2 := hpos l2
    have hp3 := hpos l
    rcases hb1 with ⟨hB1, hn1⟩ | ⟨hq1, hm1⟩ <;> rcases hb2 with ⟨hB2, hn2⟩ | ⟨hq2, hm2⟩
    · exact hp.disj p l1 q l2 hB1 hB2 ho1 ho2
    · exfalso
      subst hq2; subst hm2
      by_cases hlt : p < q + 2 ^ l
      · have := hp.disj p l1 q l hB1 h1 hlt (by omega)
        exact hn1 ⟨this.2, Or.inl this.1⟩
      · have := hp.disj p l1 (q + 2 ^ l) l hB1 h2 (by omega) (by omega)
        exact hn1 ⟨this.2, Or.inr this.1⟩
    · exfalso
      subst hq1; subst hm1
      by_cases hlt : q < p + 2 ^ l
      · have := hp.disj q l2 p l hB2 h1 hlt (by omega)
        exact hn2 ⟨this.2, Or.inl this.1⟩
      · have := hp.disj q l2 (p + 2 ^ l) l hB2 h2 (by omega) (by omega)
        exact hn2 ⟨this.2, Or.inr this.1⟩
    · subst hq1; subst hm1; subst hq2; subst hm2
      exact ⟨rfl, rfl⟩
  · intro u hu
    obtain ⟨p, m, hB, hu1, hu2⟩ := hp.cover u hu
    have hp3 := hpos l
    by_cases hc : m = l ∧ (p = a ∨ p = a + 2 ^ l)
    · obtain ⟨hml, hpa⟩ := hc
      subst hml
      exact ⟨a, m + 1, Or.inr ⟨rfl, rfl⟩, by rcases hpa with hq | hq <;> omega,
        by rcases hpa with hq | hq <;> omega⟩
    · exact ⟨p, m, Or.inl ⟨hB, hc⟩, hu1, hu2⟩

theorem Chain.update {next : Int → Int} {a v : Int} :
    ∀ {xs : List Nat} {h : Int}, Chain next h xs → (∀ x ∈ xs, (x : Int) ≠ a) →
      Chain (Function.update next a v) h xs
  | [], _, hc, _ => hc
  | x :: xs, h, hc, hne => by
    refine ⟨hc.1, ?_⟩
    rw [Function.update_noteq (hne x (List.mem_cons_self x xs))]
    exact Chain.update hc.2 (fun y hy => hne y (List.mem_cons_of_mem x hy))

theorem Chain.head_ne {next : Int → Int} : ∀ {xs : List Nat} {h : Int}, Chain next h xs →
    h ≠ ISSUED_FLAG
  | [], h, hc => by
    have : h = -1 := hc
    rw [this]; decide
  | x :: xs, h, hc => by
    rw [hc.1]; unfold ISSUED_FLAG; omega

/-- No entry of a free list carries the issued flag. -/
theorem Chain.next_ne_flag {next : Int → Int} : ∀ {xs : List Nat} {h : Int}, Chain next h xs →
    ∀ x ∈ xs, next (x : Int) ≠ ISSUED_FLAG
  | [], _, _, x, hx => by cases hx
  | y :: ys, h, hc, x, hx => by
    rcases List.mem_cons.1 hx with rfl | hx'
    · exact Chain.head_ne hc.2
    · exact Chain.next_ne_flag hc.2 x hx'

/-- The reading function returns a threaded list. -/
theorem Chain.read {next : Int → Int} : ∀ {xs : List Nat} {h : Int} (fuel : Nat),
    Chain next h xs → xs.length ≤ fuel → free_list_go fuel next h = List.map (fun (x : Nat) => (x : Int)) xs
  | [], h, fuel, hc, _ => by
    have : h = -1 := hc
    cases fuel <;> simp [free_list_go, this]
  | x :: xs, h, fuel, hc, hlen => by
    cases fuel with
    | zero => simp at hlen
    | succ f =>
      have hx : h = (x : Int) := hc.1
      have hne : (x : Int) ≠ -1 := by omega
      simp only [free_list_go, hx, hne, if_false, List.map_cons]
      rw [Chain.read f hc.2 (by simpa using hlen)]

theorem lastOr_eq_neg_one : ∀ (pre : List Nat) (d : Int), lastOr d pre = -1 ↔ (pre = [] ∧ d = -1)
  | [], d => by simp [lastOr]
  | x :: xs, d => by
    simp only [lastOr, reduceCtorEq, false_and, iff_false]
    intro h
    rcases (lastOr_eq_neg_one xs (x : Int)).1 h with ⟨-, h2⟩
    omega

theorem lastOr_mem : ∀ (pre : List Nat) (x : Nat), ∃ y ∈ x :: pre, lastOr (x : Int) pre = (y : Int)
  | [], x => ⟨x, List.mem_cons_self x [], rfl⟩
  | z :: zs, x => by
    obtain ⟨y, hy, he⟩ := lastOr_mem zs z
    exact ⟨y, List.mem_cons_of_mem x hy, he⟩

/-- The scan of `remove_from_free_list` stops at `q` when it is in the list. -/
theorem remove_loop_found {next : Int → Int} {q : Nat} {post : List Nat} :
    ∀ (pre : List Nat) (fuel : Nat) (prev cur : Int), Chain next cur (pre ++ q :: post) →
      q ∉ pre → pre.length < fuel →
      remove_loop fuel next (q : Int) prev cur = some (lastOr prev pre, (q : Int))
  | [], fuel, prev, cur, hc, _, hlen => by
    cases fuel with
    | zero => simp at hlen
    | succ f =>
      have : cur = (q : Int) := hc.1
      simp [remove_loop, this, lastOr]
  | x :: pre, fuel, prev, cur, hc, hq, hlen => by
    cases fuel with
    | zero => simp at hlen
    | succ f =>
      have hx : cur = (x : Int) := hc.1
      have h1 : (x : Int) ≠ -1 := by omega
      have h2 : (x : Int) ≠ (q : Int) := by
        intro h; apply hq; rw [Int.ofNat_inj.1 h.symm]; exact List.mem_cons_self _ _
      have hc2 : Chain next (next x) (pre ++ q :: post) := hc.2
      simp only [remove_loop, hx, ne_eq, h1, not_false_eq_true, h2, and_self, if_true, lastOr]
      exact remove_loop_found pre f (x : Int) (next x) hc2
        (fun h => hq (List.mem_cons_of_mem x h)) (by simpa using hlen)

/-- The scan of `remove_from_free_list` runs to the end when `q` is not in the list. -/
theorem remove_loop_notfound {next : Int → Int} {q : Nat} :
    ∀ (xs : List Nat) (fuel : Nat) (prev cur : Int), Chain next cur xs →
      q ∉ xs → xs.length < fuel →
      ∃ pv, remove_loop fuel next (q : Int) prev cur = some (pv, -1)
  | [], fuel, prev, cur, hc, _, hlen => by
    cases fuel with
    | zero => simp at hlen
    | succ f =>
      have : cur = -1 := hc
      exact ⟨prev, by simp [remove_loop, this]⟩
  | x :: xs, fuel, prev, cur, hc, hq, hlen => by
    cases fuel with
    | zero => simp at hlen
    | succ f =>
      have hx : cur = (x : Int) := hc.1
      have h1 : (x : Int) ≠ -1 := by omega
      have h2 : (x : Int) ≠ (q : Int) := by
        intro h; apply hq; rw [Int.ofNat_inj.1 h.symm]; exact List.mem_cons_self _ _
      simp only [remove_loop, hx, ne_eq, h1, not_false_eq_true, h2, and_self, if_true]
      exact remove_loop_notfound xs f (x : Int) (next x) hc.2
        (fun h => hq (List.mem_cons_of_mem x h)) (by simpa using hlen)

/-- Unlinking an entry that is not at the head. -/
theorem Chain.unlink {next : Int → Int} {q : Nat} {post : List Nat} :
    ∀ (pre : List Nat) (x : Nat) (h : Int), Chain next h (x :: pre ++ q :: post) →
      (x :: pre ++ q :: post).Nodup →
      Chain (Function.update next (lastOr (x : Int) pre) (next (q : Int))) h (x :: pre ++ post)
  | [], x, h, hc, hnd => by
    simp only [List.cons_append, List.nil_append, lastOr] at *
    refine ⟨hc.1, ?_⟩
    rw [Function.update_same]
    have hc3 : Chain next (next q) post := hc.2.2
    have hx : x ∉ post := fun hm => (List.nodup_cons.1 hnd).1 (List.mem_cons_of_mem q hm)
    exact Chain.update hc3 (fun y hy he => hx (by rw [← Int.ofNat_inj.1 he]; exact hy))
  | z :: pre, x, h, hc, hnd => by
    simp only [List.cons_append, lastOr] at *
    refine ⟨hc.1, ?_⟩
    have hnd' := (List.nodup_cons.1 hnd)
    obtain ⟨y, hy, he⟩ := lastOr_mem pre z
    have hxy : (x : Int) ≠ lastOr (z : Int) pre := by
      rw [he]; intro hxy
      have : x = y := Int.ofNat_inj.1 hxy
      subst this
      apply hnd'.1
      rcases List.mem_cons.1 hy with rfl | hy'
      · exact List.mem_cons_self _ _
      · exact List.mem_cons_of_mem _ (List.mem_append_left _ hy')
    rw [Function.update_noteq hxy]
    exact Chain.unlink pre z (next x) hc.2 hnd'.2

/-- A list of distinct block numbers of the page has at most 128 entries. -/
theorem length_le_of_nodup {xs : List Nat} (hnd : xs.Nodup) (hlt : ∀ x ∈ xs, x < 128) :
    xs.length ≤ 128 := by
  have h1 : xs.toFinset ⊆ Finset.range 128 := by
    intro x hx
    exact Finset.mem_range.2 (hlt x (List.mem_toFinset.1 hx))
  have h2 := Finset.card_le_card h1
  rw [List.toFinset_card_of_nodup hnd, Finset.card_range] at h2
  exact h2

end BuddyAlloc

namespace BuddyAlloc

section CoreLemmas

variable {head : Nat → Int} {next : Int → Int} {fl : Nat → List Nat}
  {iss hole : Nat → Nat → Prop}

theorem Core.free_valid (hc : Core head next fl iss hole) {p l : Nat} (h : p ∈ fl l) :
    l < 8 ∧ p < 128 ∧ p % 2 ^ l = 0 :=
  hc.part.valid p l (Or.inl h)

theorem Core.free_level (hc : Core head next fl iss hole) {p l m : Nat} (h1 : p ∈ fl l)
    (h2 : p ∈ fl m) : l = m :=
  hc.part.level_eq (Or.inl h1) (Or.inl h2)

theorem Core.iss_not_free (hc : Core head next fl iss hole) {p l m : Nat} (h1 : iss p l) :
    p ∉ fl m := by
  intro h2
  have hm := (hc.free_valid h2).1
  exact Chain.next_ne_flag (hc.chain m hm) p h2 (hc.flag p l h1)

/-- A block that starts inside another block of the partition is that block. -/
theorem Core.inside (hc : Core head next fl iss hole) {a k q m : Nat}
    (h1 : Blk fl iss hole a k) (h2 : Blk fl iss hole q m) (hlo : a ≤ q) (hhi : q < a + 2 ^ k) :
    q = a ∧ m = k := by
  have := Nat.two_pow_pos m
  have := hc.part.disj q m a k h2 h1 hhi (by omega)
  exact this

end CoreLemmas

theorem get_partner_cast (p l : Nat) : get_partner (p : Int) l = ((p ^^^ 2 ^ l : Nat) : Int) := by
  unfold get_partner
  have : (2 : Int) ^ l = ((2 ^ l : Nat) : Int) := by push_cast; rfl
  rw [this]; rfl

/-- Taking the head of a non-empty free list: the block becomes issued. -/
theorem Core.pop {s : Page} {fl : Nat → List Nat} {iss : Nat → Nat → Prop}
    (hc : Core s.head s.next fl iss noHole) {l p : Nat} {rest : List Nat} (hl : l < 8)
    (hfl : fl l = p :: rest) :
    (pop_head s l).1 = (p : Int) ∧
    Core (pop_head s l).2.head (pop_head s l).2.next (Function.update fl l rest)
      (fun q m => iss q m ∨ (q = p ∧ m = l)) noHole := by
  have hch := hc.chain l hl
  rw [hfl] at hch
  have hhd : s.head l = (p : Int) := hch.1
  have hnd := hc.nodup l
  rw [hfl] at hnd
  have hpl : p ∈ fl l := by rw [hfl]; exact List.mem_cons_self _ _
  refine ⟨hhd, ?_⟩
  simp only [pop_head, hhd]
  refine ⟨?_, ?_, ?_, ?_, ?_, ?_⟩
  · intro j hj
    by_cases hjl : j = l
    · subst hjl
      rw [Function.update_same, Function.update_same]
      apply Chain.update hch.2
      intro x hx he
      have : x = p := Int.ofNat_inj.1 he
      subst this
      exact (List.nodup_cons.1 hnd).1 hx
    · rw [Function.update_noteq hjl, Function.update_noteq hjl]
      apply Chain.update (hc.chain j hj)
      intro x hx he
      have : x = p := Int.ofNat_inj.1 he
      subst this
      exact hjl (hc.free_level hx hpl)
  · intro j
    by_cases hjl : j = l
    · subst hjl; rw [Function.update_same]; exact (List.nodup_cons.1 hnd).2
    · rw [Function.update_noteq hjl]; exact hc.nodup j
  · apply hc.part.congr
    intro q m
    unfold Blk noHole
    by_cases hml : m = l
    · subst hml
      rw [Function.update_same, hfl, List.mem_cons]
      tauto
    · rw [Function.update_noteq hml]
      tauto
  · rintro q m (hi | ⟨rfl, rfl⟩)
    · have hqp : (q : Int) ≠ (p : Int) := by
        intro he
        have : q = p := Int.ofNat_inj.1 he
        subst this
        exact hc.iss_not_free hi hpl
      rw [Function.update_noteq hqp]
      exact hc.flag q m hi
    · rw [Function.update_same]
  · intro j hj x hx
    by_cases hjl : j = l
    · subst hjl
      rw [Function.update_same] at hx ⊢
      intro hm
      exact hc.nobuddy j hj x (by rw [hfl]; exact List.mem_cons_of_mem _ hx)
        (by rw [hfl]; exact List.mem_cons_of_mem _ hm)
    · rw [Function.update_noteq hjl] at hx ⊢
      exact hc.nobuddy j hj x hx
  · intro q m h; exact h.elim

end BuddyAlloc

namespace BuddyAlloc

/-- Splitting the issued block `(p, l+1)` and taking its left half: the right half becomes the
only free block of level `l`. -/
theorem Core.split_pop {s : Page} {fl : Nat → List Nat} {iss : Nat → Nat → Prop} {p l : Nat}
    (hc : Core s.head s.next fl (fun q m => iss q m ∨ (q = p ∧ m = l + 1)) noHole)
    (hni : ¬ iss p (l + 1)) (hfl : fl l = []) :
    (pop_head (split_block s (l + 1) (p : Int)) l).1 = (p : Int) ∧
    Core (pop_head (split_block s (l + 1) (p : Int)) l).2.head
      (pop_head (split_block s (l + 1) (p : Int)) l).2.next
      (Function.update fl l [p ^^^ 2 ^ l]) (fun q m => iss q m ∨ (q = p ∧ m = l)) noHole := by
  have hB : Blk fl (fun q m => iss q m ∨ (q = p ∧ m = l + 1)) noHole p (l + 1) :=
    Or.inr (Or.inl (Or.inr ⟨rfl, rfl⟩))
  obtain ⟨hl, hp128, hpmod⟩ := hc.part.valid p (l + 1) hB
  have hl7 : l < 7 := by omega
  obtain ⟨hf1, hf2, hf3, hf4⟩ := half_facts l hl7 p hp128 hpmod
  have hxf := xor_facts l hl7 p hp128 hf1
  have h2 : 2 ^ (l + 1) = 2 * 2 ^ l := by rw [pow_succ]; omega
  have hpos : 0 < 2 ^ l := Nat.two_pow_pos l
  have hrp : p ^^^ 2 ^ l ≠ p := by omega
  -- neither half is the number of another block
  have hother : ∀ q m, Blk fl (fun q m => iss q m ∨ (q = p ∧ m = l + 1)) noHole q m →
      (q = p ∨ q = p ^^^ 2 ^ l) → q = p ∧ m = l + 1 := by
    intro q m hq hqp
    exact hc.inside hB hq (by omega) (by omega)
  have hfree : ∀ j x, x ∈ fl j → (x : Int) ≠ (p : Int) ∧ (x : Int) ≠ ((p ^^^ 2 ^ l : Nat) : Int) := by
    intro j x hx
    have hne : ¬ (x = p ∨ x = p ^^^ 2 ^ l) := by
      intro h
      obtain ⟨rfl, rfl⟩ := hother x j (Or.inl hx) h
      exact hc.iss_not_free (Or.inr ⟨rfl, rfl⟩) hx
    constructor <;> intro he <;> exact hne (by have := Int.ofNat_inj.1 he; tauto)
  have hiss : ∀ q m, iss q m → (q : Int) ≠ (p : Int) ∧ (q : Int) ≠ ((p ^^^ 2 ^ l : Nat) : Int) := by
    intro q m hq
    have hne : ¬ (q = p ∨ q = p ^^^ 2 ^ l) := by
      intro h
      obtain ⟨rfl, rfl⟩ := hother q m (Or.inr (Or.inl (Or.inl hq))) h
      exact hni hq
    constructor <;> intro he <;> exact hne (by have := Int.ofNat_inj.1 he; tauto)
  have hhead : s.head l = -1 := by
    have := hc.chain l (by omega)
    rw [hfl] at this
    exact this
  have hrpI : ((p ^^^ 2 ^ l : Nat) : Int) ≠ (p : Int) := fun h => hrp (Int.ofNat_inj.1 h)
  simp only [pop_head, split_block, Nat.add_sub_cancel, get_partner_cast, Function.update_same]
  refine ⟨trivial, ?_, ?_, ?_, ?_, ?_, ?_⟩
  · intro j hj
    by_cases hjl : j = l
    · subst hjl
      rw [Function.update_same, Function.update_same]
      refine ⟨rfl, ?_⟩
      rw [Function.update_noteq hrpI, Function.update_noteq hrpI, Function.update_same, hhead]
      rfl
    · rw [Function.update_noteq hjl, Function.update_noteq hjl, Function.update_noteq hjl]
      apply Chain.update
      · apply Chain.update
        · apply Chain.update (hc.chain j hj)
          exact fun x hx => (hfree j x hx).2
        · exact fun x hx => (hfree j x hx).1
      · exact fun x hx => (hfree j x hx).1
  · intro j
    by_cases hjl : j = l
    · subst hjl; rw [Function.update_same]; exact List.nodup_singleton _
    · rw [Function.update_noteq hjl]; exact hc.nodup j
  · apply (hc.part.split hB).congr
    intro q m
    unfold Blk noHole
    rw [← hf4]
    by_cases hml : m = l
    · subst hml
      rw [Function.update_same, hfl, List.mem_singleton]
      constructor
      · rintro (h | (h | ⟨rfl, -⟩) | h)
        · exact Or.inr ⟨rfl, Or.inr h⟩
        · exact Or.inl ⟨Or.inr (Or.inl (Or.inl h)), fun hh => by omega⟩
        · exact Or.inr ⟨rfl, Or.inl rfl⟩
        · exact h.elim
      · rintro (⟨h | (h | ⟨-, h⟩) | h, -⟩ | ⟨-, rfl | h⟩)
        · cases h
        · exact Or.inr (Or.inl (Or.inl h))
        · omega
        · exact h.elim
        · exact Or.inr (Or.inl (Or.inr ⟨rfl, rfl⟩))
        · exact Or.inl h
    · rw [Function.update_noteq hml]
      constructor
      · rintro (h | (h | ⟨-, h⟩) | h)
        · refine Or.inl ⟨Or.inl h, fun hh => ?_⟩
          exact (hfree m q h).1 (by rw [hh.1])
        · refine Or.inl ⟨Or.inr (Or.inl (Or.inl h)), fun hh => ?_⟩
          exact hni (by rw [← hh.1, ← hh.2]; exact h)
        · exact (hml h).elim
        · exact h.elim
      · rintro (⟨h | (h | h) | h, hn⟩ | ⟨h, -⟩)
        · exact Or.inl h
        · exact Or.inr (Or.inl (Or.inl h))
        · exact (hn h).elim
        · exact h.elim
        · exact (hml h).elim
  · rintro q m (hi | ⟨rfl, rfl⟩)
    · obtain ⟨h1, h2'⟩ := hiss q m hi
      rw [Function.update_noteq h1, Function.update_noteq h1, Function.update_noteq h2']
      exact hc.flag q m (Or.inl hi)
    · rw [Function.update_same]
  · intro j hj x hx
    by_cases hjl : j = l
    · subst hjl
      rw [Function.update_same] at hx ⊢
      rw [List.mem_singleton] at hx ⊢
      subst hx
      rw [hxf.2.2.1]
      exact fun h => hrp h.symm
    · rw [Function.update_noteq hjl] at hx ⊢
      exact hc.nobuddy j hj x hx
  · intro q m h; exact h.elim

end BuddyAlloc

namespace BuddyAlloc

theorem pop_head_fields (s : Page) (l : Nat) :
    (pop_head s l).2.min_size = s.min_size ∧ (pop_head s l).2.size = s.size ∧
    (pop_head s l).2.base = s.base := ⟨rfl, rfl, rfl⟩

theorem get_next_ptr_go_fields : ∀ (fuel : Nat) (s : Page) (l : Nat),
    (get_next_ptr_go fuel s l).2.min_size = s.min_size ∧
    (get_next_ptr_go fuel s l).2.size = s.size ∧ (get_next_ptr_go fuel s l).2.base = s.base
  | 0, s, l => ⟨rfl, rfl, rfl⟩
  | fuel + 1, s, l => by
    have ih := get_next_ptr_go_fields fuel s (l + 1)
    simp only [get_next_ptr_go]
    split_ifs with h1 h2 h3
    · exact ⟨rfl, rfl, rfl⟩
    · exact ih
    · exact ih
    · exact ⟨rfl, rfl, rfl⟩

/-- A failing `get_next_ptr` leaves the page as it was (in every state). -/
theorem get_next_ptr_go_fail : ∀ (fuel : Nat) (s : Page) (l : Nat),
    (get_next_ptr_go fuel s l).1 = -1 → (get_next_ptr_go fuel s l).2 = s
  | 0, s, l, _ => rfl
  | fuel + 1, s, l, h => by
    have ih := get_next_ptr_go_fail fuel s (l + 1)
    simp only [get_next_ptr_go] at h ⊢
    split_ifs at h ⊢ with h1 h2 h3
    · rfl
    · exact ih h3
    · exfalso
      simp only [pop_head, split_block, Nat.add_sub_cancel, Function.update_same] at h
      exact h3 h
    · exfalso
      exact h2 h

/-- With all lists from level `l` upwards empty, `get_next_ptr(l)` fails. -/
theorem get_next_ptr_go_empty : ∀ (fuel : Nat) (s : Page) (l : Nat),
    (∀ j, l ≤ j → j < 8 → s.head j = -1) → (get_next_ptr_go fuel s l).1 = -1
  | 0, s, l, _ => rfl
  | fuel + 1, s, l, h => by
    have ih := get_next_ptr_go_empty fuel s (l + 1) (fun j hj => h j (by omega))
    simp only [get_next_ptr_go]
    split_ifs with h1 h2
    · rfl
    · rfl
    · exact (h2 (h l (le_refl l) (by unfold nlevel at h1; omega))).elim

/-- Block selection and splitting of `get_next_ptr`: with `k` the lowest level from `l` upwards
that has a free block and `p` the head of its list, the call returns `p`, issued at level `l`,
and leaves the right halves on the levels in between. -/
theorem get_next_ptr_go_ok : ∀ (d fuel : Nat) (s : Page) (fl : Nat → List Nat)
    (iss : Nat → Nat → Prop) (l k p : Nat) (rest : List Nat),
    k = l + d → k < 8 → d < fuel → Core s.head s.next fl iss noHole →
    (∀ j, l ≤ j → j < k → fl j = []) → fl k = p :: rest →
    (get_next_ptr_go fuel s l).1 = (p : Int) ∧
    Core (get_next_ptr_go fuel s l).2.head (get_next_ptr_go fuel s l).2.next
      (allocFl fl l k p rest) (fun q m => iss q m ∨ (q = p ∧ m = l)) noHole
  | 0, fuel, s, fl, iss, l, k, p, rest, hk, hk8, hfuel, hc, hemp, hfl => by
    have hkl : k = l := by omega
    subst hkl
    obtain ⟨f, rfl⟩ : ∃ f, fuel = f + 1 := ⟨fuel - 1, by omega⟩
    have hch := hc.chain k hk8
    rw [hfl] at hch
    have hhd : s.head k = (p : Int) := hch.1
    have hne : s.head k ≠ -1 := by rw [hhd]; omega
    have hlev : ¬ k ≥ nlevel := by unfold nlevel; omega
    have hpop := hc.pop hk8 hfl
    have hfl' : allocFl fl k k p rest = Function.update fl k rest := by
      funext j
      unfold allocFl
      by_cases hj : j = k
      · subst hj; simp
      · rw [Function.update_noteq hj]; simp [hj]
    simp only [get_next_ptr_go]
    rw [if_neg hlev, if_neg hne, hfl']
    exact hpop
  | d + 1, fuel, s, fl, iss, l, k, p, rest, hk, hk8, hfuel, hc, hemp, hfl => by
    obtain ⟨f, rfl⟩ : ∃ f, fuel = f + 1 := ⟨fuel - 1, by omega⟩
    have hl8 : l < 8 := by omega
    have hlev : ¬ l ≥ nlevel := by unfold nlevel; omega
    have hfll : fl l = [] := hemp l (le_refl l) (by omega)
    have hhd : s.head l = -1 := by
      have := hc.chain l hl8
      rw [hfll] at this
      exact this
    have ih := get_next_ptr_go_ok d f s fl iss (l + 1) k p rest (by omega) hk8 (by omega) hc
      (fun j hj1 hj2 => hemp j (by omega) hj2) hfl
    obtain ⟨ih1, ih2⟩ := ih
    have hab : (get_next_ptr_go f s (l + 1)).1 ≠ -1 := by rw [ih1]; omega
    have hpk : p ∈ fl k := by rw [hfl]; exact List.mem_cons_self _ _
    have hni : ¬ iss p (l + 1) := fun h => hc.iss_not_free h hpk
    have hfl1 : allocFl fl (l + 1) k p rest l = [] := by
      unfold allocFl
      rw [if_neg (by omega), if_neg (by omega)]
      exact hfll
    have hsp := Core.split_pop ih2 hni hfl1
    have hfl' : Function.update (allocFl fl (l + 1) k p rest) l [p ^^^ 2 ^ l]
        = allocFl fl l k p rest := by
      funext j
      unfold allocFl
      by_cases hj : j = l
      · subst hj
        rw [Function.update_same, if_neg (by omega), if_pos (by omega)]
      · rw [Function.update_noteq hj]
        by_cases hjk : j = k
        · simp [hjk]
        · simp only [hjk, if_false]
          by_cases h1 : l + 1 ≤ j ∧ j < k
          · rw [if_pos h1, if_pos (by omega)]
          · rw [if_neg h1, if_neg (by omega)]
    simp only [get_next_ptr_go]
    rw [if_neg hlev, if_pos hhd, if_neg hab]
    rw [← ih1] at hsp
    rw [hfl'] at hsp
    obtain ⟨h1, h2⟩ := hsp
    exact ⟨h1.trans ih1, h2⟩

end BuddyAlloc

namespace BuddyAlloc

/-- An aligned block is aligned at every lower level. -/
theorem align_down : ∀ k < 8, ∀ l < k, ∀ p < 128, p % 2 ^ k = 0 → p % 2 ^ (l + 1) = 0 := by
  decide

theorem Core.congr_iss {head : Nat → Int} {next : Int → Int} {fl : Nat → List Nat}
    {iss iss' hole : Nat → Nat → Prop} (h : ∀ q m, iss' q m ↔ iss q m)
    (hc : Core head next fl iss hole) : Core head next fl iss' hole := by
  have e : iss' = iss := by funext q m; exact propext (h q m)
  rw [e]; exact hc

theorem Core.congr_fl {head : Nat → Int} {next : Int → Int} {fl fl' : Nat → List Nat}
    {iss hole : Nat → Nat → Prop} (h : ∀ j, fl' j = fl j)
    (hc : Core head next fl iss hole) : Core head next fl' iss hole := by
  have e : fl' = fl := funext h
  rw [e]; exact hc

/-- An issued block that `deallocate` is about to release is taken out of the issued set. -/
theorem Core.to_hole {head : Nat → Int} {next : Int → Int} {fl : Nat → List Nat}
    {iss : Nat → Nat → Prop} {p l : Nat} (hc : Core head next fl iss noHole) (hi : iss p l) :
    Core head next fl (fun q m => iss q m ∧ ¬(q = p ∧ m = l)) (fun a m => a = p ∧ m = l) := by
  refine ⟨hc.chain, hc.nodup, ?_, ?_, hc.nobuddy, ?_⟩
  · apply hc.part.congr
    intro q m
    unfold Blk noHole
    constructor
    · rintro (h | ⟨h, -⟩ | ⟨rfl, rfl⟩)
      · exact Or.inl h
      · exact Or.inr (Or.inl h)
      · exact Or.inr (Or.inl hi)
    · rintro (h | h | h)
      · exact Or.inl h
      · by_cases hq : q = p ∧ m = l
        · exact Or.inr (Or.inr hq)
        · exact Or.inr (Or.inl ⟨h, hq⟩)
      · exact h.elim
  · intro q m h
    exact hc.flag q m h.1
  · rintro q m ⟨rfl, rfl⟩
    exact ⟨hc.iss_not_free hi, fun h => h.2 ⟨rfl, rfl⟩⟩

/-- The last step of `mark_free`: the block in transit is put at the head of its list. -/
theorem Core.push {s : Page} {fl : Nat → List Nat} {iss : Nat → Nat → Prop} {p l : Nat}
    (hc : Core s.head s.next fl iss (fun a m => a = p ∧ m = l))
    (hb : l < 7 → (p ^^^ 2 ^ l) ∉ fl l) :
    Core (push_free s (p : Int) l).head (push_free s (p : Int) l).next
      (Function.update fl l (p :: fl l)) iss noHole := by
  have hB : Blk fl iss (fun a m => a = p ∧ m = l) p l := Or.inr (Or.inr ⟨rfl, rfl⟩)
  obtain ⟨hl, hp128, hpmod⟩ := hc.part.valid p l hB
  have hpfl : p ∉ fl l := (hc.hole_sep p l ⟨rfl, rfl⟩).1
  have hpfree : ∀ j x, x ∈ fl j → (x : Int) ≠ (p : Int) := by
    intro j x hx he
    have : x = p := Int.ofNat_inj.1 he
    subst this
    have := hc.part.level_eq (Or.inl hx) hB
    subst this
    exact hpfl hx
  simp only [push_free]
  refine ⟨?_, ?_, ?_, ?_, ?_, ?_⟩
  · intro j hj
    by_cases hjl : j = l
    · subst hjl
      rw [Function.update_same, Function.update_same]
      refine ⟨rfl, ?_⟩
      rw [Function.update_same]
      exact Chain.update (hc.chain j hj) (hpfree j)
    · rw [Function.update_noteq hjl, Function.update_noteq hjl]
      exact Chain.update (hc.chain j hj) (hpfree j)
  · intro j
    by_cases hjl : j = l
    · subst hjl; rw [Function.update_same]; exact List.nodup_cons.2 ⟨hpfl, hc.nodup j⟩
    · rw [Function.update_noteq hjl]; exact hc.nodup j
  · apply hc.part.congr
    intro q m
    unfold Blk noHole
    by_cases hml : m = l
    · subst hml
      rw [Function.update_same, List.mem_cons]
      tauto
    · rw [Function.update_noteq hml]
      tauto
  · intro q m hi
    have hqp : (q : Int) ≠ (p : Int) := by
      intro he
      have : q = p := Int.ofNat_inj.1 he
      subst this
      have := hc.part.level_eq (Or.inr (Or.inl hi)) hB
      subst this
      exact (hc.hole_sep q m ⟨rfl, rfl⟩).2 hi
    rw [Function.update_noteq hqp]
    exact hc.flag q m hi
  · intro j hj x hx
    by_cases hjl : j = l
    · subst hjl
      rw [Function.update_same] at hx ⊢
      have hxp := xor_facts j hj p hp128 hpmod
      rcases List.mem_cons.1 hx with rfl | hx'
      · intro hm
        rcases List.mem_cons.1 hm with he | hm'
        · omega
        · exact hb hj hm'
      · obtain ⟨-, hx128, hxmod⟩ := hc.free_valid hx'
        have hxx := xor_facts j hj x hx128 hxmod
        intro hm
        rcases List.mem_cons.1 hm with he | hm'
        · apply hb hj
          rw [← he, hxx.2.2.1]
          exact hx'
        · exact hc.nobuddy j hj x hx' hm'
    · rw [Function.update_noteq hjl] at hx ⊢
      exact hc.nobuddy j hj x hx
  · intro q m h; exact h.elim

end BuddyAlloc

namespace BuddyAlloc

/-- Unlinking a block that is in the free list of its level: the scan terminates, returns
`true`, and the block is in transit afterwards. -/
theorem Core.remove {s : Page} {fl : Nat → List Nat} {iss hole : Nat → Nat → Prop} {q l : Nat}
    (hc : Core s.head s.next fl iss hole) (hq : q ∈ fl l) :
    ∃ s', remove_from_free_list s (q : Int) l = some (true, s') ∧
      s'.min_size = s.min_size ∧ s'.size = s.size ∧ s'.base = s.base ∧
      Core s'.head s'.next (Function.update fl l ((fl l).erase q)) iss
        (fun a m => hole a m ∨ (a = q ∧ m = l)) := by
  obtain ⟨hl, hq128, hqmod⟩ := hc.free_valid hq
  obtain ⟨pre, post, hsplit⟩ := List.append_of_mem hq
  have hnd := hc.nodup l
  have hqpre : q ∉ pre := by
    intro h
    rw [hsplit] at hnd
    have := (List.nodup_append.1 hnd).2.2
    exact this h (List.mem_cons_self _ _) 
  have hlen : (fl l).length ≤ 128 :=
    length_le_of_nodup hnd (fun x hx => (hc.free_valid hx).2.1)
  have hprelen : pre.length < list_fuel := by
    have : pre.length ≤ (fl l).length := by rw [hsplit]; simp
    unfold list_fuel nlevel; omega
  have hch := hc.chain l hl
  have hloop := @remove_loop_found s.next q post pre list_fuel (-1)
    (s.head l) (by rw [← hsplit]; exact hch) hqpre hprelen
  have herase : (fl l).erase q = pre ++ post := by
    rw [hsplit, List.erase_append_right _ hqpre, List.erase_cons_head]
  -- the parts of the invariant that do not depend on where `q` sat in the list
  have hrest : ∀ (hd : Nat → Int) (nx : Int → Int),
      (∀ j, j < 8 → Chain nx (hd j) (Function.update fl l ((fl l).erase q) j)) →
      (∀ a m, iss a m → nx (a : Int) = ISSUED_FLAG) →
      Core hd nx (Function.update fl l ((fl l).erase q)) iss
        (fun a m => hole a m ∨ (a = q ∧ m = l)) := by
    intro hd nx h1 h2
    refine ⟨h1, ?_, ?_, h2, ?_, ?_⟩
    · intro j
      by_cases hjl : j = l
      · subst hjl; rw [Function.update_same]; exact hnd.erase q
      · rw [Function.update_noteq hjl]; exact hc.nodup j
    · apply hc.part.congr
      intro a m
      unfold Blk
      by_cases hml : m = l
      · subst hml
        rw [Function.update_same]
        constructor
        · rintro (h | h | h | ⟨rfl, -⟩)
          · exact Or.inl (List.mem_of_mem_erase h)
          · exact Or.inr (Or.inl h)
          · exact Or.inr (Or.inr h)
          · exact Or.inl hq
        · rintro (h | h | h)
          · by_cases haq : a = q
            · exact Or.inr (Or.inr (Or.inr ⟨haq, rfl⟩))
            · exact Or.inl ((List.mem_erase_of_ne haq).2 h)
          · exact Or.inr (Or.inl h)
          · exact Or.inr (Or.inr (Or.inl h))
      · rw [Function.update_noteq hml]
        tauto
    · intro j hj x hx
      by_cases hjl : j = l
      · subst hjl
        rw [Function.update_same] at hx ⊢
        exact fun hm => hc.nobuddy j hj x (List.mem_of_mem_erase hx) (List.mem_of_mem_erase hm)
      · rw [Function.update_noteq hjl] at hx ⊢
        exact hc.nobuddy j hj x hx
    · rintro a m (h | ⟨rfl, rfl⟩)
      · refine ⟨?_, (hc.hole_sep a m h).2⟩
        by_cases hml : m = l
        · subst hml
          rw [Function.update_same]
          exact fun hm => (hc.hole_sep a m h).1 (List.mem_of_mem_erase hm)
        · rw [Function.update_noteq hml]
          exact (hc.hole_sep a m h).1
      · rw [Function.update_same]
        refine ⟨?_, fun hi => hc.iss_not_free hi hq⟩
        exact fun hm => (List.Nodup.mem_erase_iff hnd).1 hm |>.1 rfl
  unfold remove_from_free_list
  rw [hloop]
  simp only [ne_eq, not_true_eq_false, if_false]
  cases pre with
  | nil =>
    simp only [lastOr, if_true]
    refine ⟨_, rfl, rfl, rfl, rfl, ?_⟩
    apply hrest
    · intro j hj
      dsimp only
      by_cases hjl : j = l
      · subst hjl
        rw [Function.update_same, Function.update_same, herase]
        rw [hsplit] at hch
        exact hch.2
      · rw [Function.update_noteq hjl, Function.update_noteq hjl]
        exact hc.chain j hj
    · exact hc.flag
  | cons x pre' =>
    have hne : lastOr (-1) (x :: pre') ≠ -1 := by
      intro h
      have := (lastOr_eq_neg_one (x :: pre') (-1)).1 h
      simp at this
    rw [if_neg hne]
    refine ⟨_, rfl, rfl, rfl, rfl, ?_⟩
    obtain ⟨y, hy, hlast⟩ := lastOr_mem pre' x
    have hyfl : y ∈ fl l := by
      rw [hsplit]; exact List.mem_append_left _ hy
    apply hrest
    · intro j hj
      dsimp only
      by_cases hjl : j = l
      · subst hjl
        rw [Function.update_same, herase]
        rw [hsplit] at hch hnd
        exact Chain.unlink pre' x (s.head j) hch hnd
      · rw [Function.update_noteq hjl]
        apply Chain.update (hc.chain j hj)
        intro z hz he
        simp only [lastOr] at he
        rw [hlast] at he
        have : z = y := Int.ofNat_inj.1 he
        subst this
        exact hjl (hc.free_level hz hyfl)
    · intro a m hi
      have : (a : Int) ≠ lastOr (-1) (x :: pre') := by
        simp only [lastOr]
        rw [hlast]
        intro he
        have : a = y := Int.ofNat_inj.1 he
        subst this
        exact hc.iss_not_free hi hyfl
      dsimp only
      rw [Function.update_noteq this]
      exact hc.flag a m hi

/-- Scanning for a block that is not in the list of the level: the scan terminates and
returns `false`. -/
theorem Core.remove_absent {s : Page} {fl : Nat → List Nat} {iss hole : Nat → Nat → Prop}
    {q l : Nat} (hc : Core s.head s.next fl iss hole) (hl : l < 8) (hq : q ∉ fl l) :
    remove_from_free_list s (q : Int) l = some (false, s) := by
  have hnd := hc.nodup l
  have hlen : (fl l).length ≤ 128 :=
    length_le_of_nodup hnd (fun x hx => (hc.free_valid hx).2.1)
  obtain ⟨pv, hpv⟩ := @remove_loop_notfound s.next q (fl l) list_fuel (-1)
    (s.head l) (hc.chain l hl) hq (by unfold list_fuel nlevel; omega)
  unfold remove_from_free_list
  rw [hpv]
  have : (-1 : Int) ≠ (q : Int) := by omega
  simp only [ne_eq, this, not_false_eq_true, if_true]

/-- Two partners in transit are one block of the next level in transit. -/
theorem Core.merge_hole {head : Nat → Int} {next : Int → Int} {fl : Nat → List Nat}
    {iss : Nat → Nat → Prop} {p l : Nat} (hl : l < 7)
    (hc : Core head next fl iss (fun a m => (a = p ∧ m = l) ∨ (a = p ^^^ 2 ^ l ∧ m = l))) :
    Core head next fl iss (fun a m => a = min p (p ^^^ 2 ^ l) ∧ m = l + 1) := by
  have hBp : Blk fl iss (fun a m => (a = p ∧ m = l) ∨ (a = p ^^^ 2 ^ l ∧ m = l)) p l :=
    Or.inr (Or.inr (Or.inl ⟨rfl, rfl⟩))
  have hBq : Blk fl iss (fun a m => (a = p ∧ m = l) ∨ (a = p ^^^ 2 ^ l ∧ m = l))
      (p ^^^ 2 ^ l) l := Or.inr (Or.inr (Or.inr ⟨rfl, rfl⟩))
  obtain ⟨-, hp128, hpmod⟩ := hc.part.valid p l hBp
  obtain ⟨hx1, hx2, hx3, hx4, hx5⟩ := xor_facts l hl p hp128 hpmod
  have hpos : 0 < 2 ^ l := Nat.two_pow_pos l
  -- the two blocks in transit are the two halves of the merged block
  have hset : ∀ a, (a = p ∨ a = p ^^^ 2 ^ l) ↔
      (a = min p (p ^^^ 2 ^ l) ∨ a = min p (p ^^^ 2 ^ l) + 2 ^ l) := by
    intro a; omega
  have hBa : Blk fl iss (fun a m => (a = p ∧ m = l) ∨ (a = p ^^^ 2 ^ l ∧ m = l))
      (min p (p ^^^ 2 ^ l)) l := by
    rcases Nat.le_total p (p ^^^ 2 ^ l) with h | h
    · rw [Nat.min_eq_left h]; exact hBp
    · rw [Nat.min_eq_right h]; exact hBq
  have hBb : Blk fl iss (fun a m => (a = p ∧ m = l) ∨ (a = p ^^^ 2 ^ l ∧ m = l))
      (min p (p ^^^ 2 ^ l) + 2 ^ l) l := by
    rw [← hx2]
    rcases Nat.le_total p (p ^^^ 2 ^ l) with h | h
    · rw [Nat.max_eq_right h]; exact hBq
    · rw [Nat.max_eq_left h]; exact hBp
  have hholeOld : ∀ a m, ((a = p ∧ m = l) ∨ (a = p ^^^ 2 ^ l ∧ m = l)) ↔
      (m = l ∧ (a = min p (p ^^^ 2 ^ l) ∨ a = min p (p ^^^ 2 ^ l) + 2 ^ l)) := by
    intro a m
    rw [← hset a]
    tauto
  refine ⟨hc.chain, hc.nodup, ?_, hc.flag, hc.nobuddy, ?_⟩
  · apply (hc.part.merge hl hx1 hBa hBb).congr
    intro a m
    unfold Blk
    constructor
    · rintro (h | h | h)
      · refine Or.inl ⟨Or.inl h, fun hh => ?_⟩
        have := (hholeOld a m).2 hh
        obtain ⟨rfl, -⟩ := hh
        exact (hc.hole_sep a m this).1 h
      · refine Or.inl ⟨Or.inr (Or.inl h), fun hh => ?_⟩
        have := (hholeOld a m).2 hh
        exact (hc.hole_sep a m this).2 h
      · exact Or.inr h
    · rintro (⟨h | h | h, hn⟩ | h)
      · exact Or.inl h
      · exact Or.inr (Or.inl h)
      · exact (hn ((hholeOld a m).1 h)).elim
      · exact Or.inr (Or.inr h)
  · rintro a m ⟨rfl, rfl⟩
    constructor
    · intro h
      have := hc.part.level_eq (Or.inl h) hBa
      omega
    · intro h
      have := hc.part.level_eq (Or.inr (Or.inl h)) hBa
      omega

end BuddyAlloc

namespace BuddyAlloc

theorem push_free_fields (s : Page) (idx : Int) (l : Nat) :
    (push_free s idx l).min_size = s.min_size ∧ (push_free s idx l).size = s.size ∧
    (push_free s idx l).base = s.base := ⟨rfl, rfl, rfl⟩

/-- `mark_free` without a merge: the partner is not free at this level (or there is none). -/
theorem mark_free_go_push {s : Page} {fl : Nat → List Nat} {iss : Nat → Nat → Prop} {p l : Nat}
    (fuel : Nat) (hc : Core s.head s.next fl iss (fun a m => a = p ∧ m = l))
    (hb : l < 7 → (p ^^^ 2 ^ l) ∉ fl l) :
    mark_free_go (fuel + 1) s (p : Int) l = some (push_free s (p : Int) l) := by
  have hl8 : l < 8 := (hc.part.valid p l (Or.inr (Or.inr ⟨rfl, rfl⟩))).1
  simp only [mark_free_go]
  by_cases hl : l < nlevel - 1
  · rw [if_pos hl]
    have hl7 : l < 7 := by unfold nlevel at hl; omega
    rw [get_partner_cast]
    by_cases hflag : s.next ((p ^^^ 2 ^ l : Nat) : Int) ≠ ISSUED_FLAG
    · rw [if_pos hflag, hc.remove_absent hl8 (hb hl7)]
      simp
    · rw [if_neg hflag]
  · rw [if_neg hl]

/-- `mark_free` with a merge: the partner is unlinked and the merged block is released one
level up. -/
theorem mark_free_go_merge {s : Page} {fl : Nat → List Nat} {iss : Nat → Nat → Prop} {p l : Nat}
    (fuel : Nat) (hc : Core s.head s.next fl iss (fun a m => a = p ∧ m = l)) (hl : l < 7)
    (hq : (p ^^^ 2 ^ l) ∈ fl l) :
    ∃ s1, mark_free_go (fuel + 1) s (p : Int) l
        = mark_free_go fuel s1 ((min p (p ^^^ 2 ^ l) : Nat) : Int) (l + 1) ∧
      s1.min_size = s.min_size ∧ s1.size = s.size ∧ s1.base = s.base ∧
      Core s1.head s1.next (Function.update fl l ((fl l).erase (p ^^^ 2 ^ l))) iss
        (fun a m => a = min p (p ^^^ 2 ^ l) ∧ m = l + 1) := by
  have hflag : s.next ((p ^^^ 2 ^ l : Nat) : Int) ≠ ISSUED_FLAG :=
    Chain.next_ne_flag (hc.chain l (by omega)) _ hq
  obtain ⟨s1, hrem, hf1, hf2, hf3, hc1⟩ := hc.remove hq
  refine ⟨s1, ?_, hf1, hf2, hf3, Core.merge_hole hl hc1⟩
  have hlev : l < nlevel - 1 := by unfold nlevel; omega
  simp only [mark_free_go]
  rw [if_pos hlev, get_partner_cast, if_pos hflag, hrem]
  simp only [if_true]
  rw [Nat.cast_min]

/-- `mark_free` terminates and re-establishes the invariant. -/
theorem mark_free_go_inv : ∀ (d fuel : Nat) (s : Page) (fl : Nat → List Nat)
    (iss : Nat → Nat → Prop) (p l : Nat), l + d = 7 → d < fuel →
    Core s.head s.next fl iss (fun a m => a = p ∧ m = l) →
    ∃ s' fl', mark_free_go fuel s (p : Int) l = some s' ∧
      s'.min_size = s.min_size ∧ s'.size = s.size ∧ s'.base = s.base ∧
      Core s'.head s'.next fl' iss noHole
  | 0, fuel, s, fl, iss, p, l, hd, hfuel, hc => by
    obtain ⟨f, rfl⟩ : ∃ f, fuel = f + 1 := ⟨fuel - 1, by omega⟩
    have hb : l < 7 → (p ^^^ 2 ^ l) ∉ fl l := fun h => by omega
    exact ⟨_, _, mark_free_go_push f hc hb, rfl, rfl, rfl, hc.push hb⟩
  | d + 1, fuel, s, fl, iss, p, l, hd, hfuel, hc => by
    obtain ⟨f, rfl⟩ : ∃ f, fuel = f + 1 := ⟨fuel - 1, by omega⟩
    by_cases hq : (p ^^^ 2 ^ l) ∈ fl l
    · obtain ⟨s1, he, hf1, hf2, hf3, hc1⟩ := mark_free_go_merge f hc (by omega) hq
      obtain ⟨s', fl', he', hg1, hg2, hg3, hc'⟩ :=
        mark_free_go_inv d f s1 _ iss _ (l + 1) (by omega) (by omega) hc1
      exact ⟨s', fl', he.trans he', hg1.trans hf1, hg2.trans hf2, hg3.trans hf3, hc'⟩
    · have hb : l < 7 → (p ^^^ 2 ^ l) ∉ fl l := fun _ => hq
      exact ⟨_, _, mark_free_go_push f hc hb, rfl, rfl, rfl, hc.push hb⟩

/-- Releasing a block whose right-hand partners on the levels `l .. k-1` are the only free
blocks there: everything merges back into the block of level `k`. -/
theorem mark_free_go_undo : ∀ (d fuel : Nat) (s : Page) (fl : Nat → List Nat)
    (iss : Nat → Nat → Prop) (p l k : Nat), k = l + d → d < fuel →
    Core s.head s.next fl iss (fun a m => a = p ∧ m = l) → p % 2 ^ k = 0 → k < 8 →
    (∀ j, l ≤ j → j < k → fl j = [p ^^^ 2 ^ j]) → (k < 7 → (p ^^^ 2 ^ k) ∉ fl k) →
    ∃ s', mark_free_go fuel s (p : Int) l = some s' ∧
      s'.min_size = s.min_size ∧ s'.size = s.size ∧ s'.base = s.base ∧
      Core s'.head s'.next (freeFl fl l k p) iss noHole
  | 0, fuel, s, fl, iss, p, l, k, hk, hfuel, hc, hpk, hk8, hmid, htop => by
    obtain ⟨f, rfl⟩ : ∃ f, fuel = f + 1 := ⟨fuel - 1, by omega⟩
    have hkl : k = l := by omega
    subst hkl
    refine ⟨_, mark_free_go_push f hc htop, rfl, rfl, rfl, ?_⟩
    apply (hc.push htop).congr_fl
    intro j
    unfold freeFl
    by_cases hj : j = k
    · subst hj; simp
    · rw [Function.update_noteq hj]; simp [hj]
  | d + 1, fuel, s, fl, iss, p, l, k, hk, hfuel, hc, hpk, hk8, hmid, htop => by
    obtain ⟨f, rfl⟩ : ∃ f, fuel = f + 1 := ⟨fuel - 1, by omega⟩
    have hp128 : p < 128 := (hc.part.valid p l (Or.inr (Or.inr ⟨rfl, rfl⟩))).2.1
    have hl7 : l < 7 := by omega
    have hfl : fl l = [p ^^^ 2 ^ l] := hmid l (le_refl l) (by omega)
    have hq : (p ^^^ 2 ^ l) ∈ fl l := by rw [hfl]; exact List.mem_singleton_self _
    have hal := align_down k hk8 l (by omega) p hp128 hpk
    have hhalf := half_facts l hl7 p hp128 hal
    have hmin : min p (p ^^^ 2 ^ l) = p := by omega
    obtain ⟨s1, he, hf1, hf2, hf3, hc1⟩ := mark_free_go_merge f hc hl7 hq
    rw [hmin] at he hc1
    have hmid1 : ∀ j, l + 1 ≤ j → j < k →
        Function.update fl l ((fl l).erase (p ^^^ 2 ^ l)) j = [p ^^^ 2 ^ j] := by
      intro j h1 h2
      rw [Function.update_noteq (by omega)]
      exact hmid j (by omega) h2
    have htop1 : k < 7 → (p ^^^ 2 ^ k) ∉ Function.update fl l ((fl l).erase (p ^^^ 2 ^ l)) k := by
      intro h
      rw [Function.update_noteq (by omega)]
      exact htop h
    obtain ⟨s', he', hg1, hg2, hg3, hc'⟩ :=
      mark_free_go_undo d f s1 _ iss p (l + 1) k (by omega) (by omega) hc1 hpk hk8 hmid1 htop1
    refine ⟨s', he.trans he', hg1.trans hf1, hg2.trans hf2, hg3.trans hf3, ?_⟩
    apply hc'.congr_fl
    intro j
    unfold freeFl
    by_cases hjk : j = k
    · subst hjk
      rw [if_pos rfl, if_pos rfl, Function.update_noteq (by omega)]
    · rw [if_neg hjk, if_neg hjk]
      by_cases hjl : j = l
      · subst hjl
        rw [if_pos (by omega), if_neg (by omega), Function.update_same, hfl]
        simp
      · rw [Function.update_noteq hjl]
        by_cases h1 : l ≤ j ∧ j < k
        · rw [if_pos h1, if_pos (by omega)]
        · rw [if_neg h1, if_neg (by omega)]

end BuddyAlloc

namespace BuddyAlloc

/-- The loop of `sz_to_level` on the quotients that occur for requests up to the page size. -/
theorem level_facts : ∀ v : Nat, v < 129 →
    sz_to_level_loop 32 (v : Int) 0 ≤ 8 ∧ v < 2 ^ (sz_to_level_loop 32 (v : Int) 0) ∧
    (0 < sz_to_level_loop 32 (v : Int) 0 → 2 ^ (sz_to_level_loop 32 (v : Int) 0 - 1) ≤ v) ∧
    (sz_to_level_loop 32 (v : Int) 0 = 8 ↔ v = 128) := by
  decide

theorem toInt32_small (v : Nat) (h : v < 2 ^ 31) : toInt32 v = (v : Int) := by
  unfold toInt32
  have h1 : v % 2 ^ 32 = v := Nat.mod_eq_of_lt (by omega)
  simp only [h1, h, if_true]

theorem toSizeT_cast (v : Nat) (h : v < 2 ^ 64) : toSizeT (v : Int) = v := by
  unfold toSizeT
  omega

/-- The constructor yields sizes as described by `PageWF`, for every `size_t` argument. -/
theorem Page.new_wf (size mem : Nat) (junk : Int → Int) (h : size < 2 ^ 64) :
    PageWF (Page.new size mem junk) := by
  refine ⟨?_, ?_, ?_, ?_⟩ <;> simp only [Page.new, nlevel, align, SIZE_MOD] <;> omega

/-- The level computed for a request that is not larger than the page. -/
theorem level_spec {s : Page} (hwf : PageWF s) {sz : Nat} (hsz : sz ≤ s.size) :
    sz_to_level s sz ≤ 8 ∧ sz < 2 ^ (sz_to_level s sz) * s.min_size ∧
    (0 < sz_to_level s sz → 2 ^ (sz_to_level s sz - 1) * s.min_size ≤ sz) ∧
    (sz_to_level s sz = 8 ↔ sz / s.min_size = 128) := by
  have hle : sz ≤ s.min_size * 128 := by
    have := hwf.size_eq
    have : s.size ≤ s.min_size * 128 := by rw [this]; exact Nat.mod_le _ _
    omega
  have hv : sz / s.min_size ≤ 128 := Nat.div_le_of_le_mul hle
  have hcast : toInt32 (sz / s.min_size) = ((sz / s.min_size : Nat) : Int) :=
    toInt32_small _ (by omega)
  obtain ⟨h1, h2, h3, h4⟩ := level_facts (sz / s.min_size) (by omega)
  unfold sz_to_level
  simp only [hcast]
  refine ⟨h1, ?_, ?_, h4⟩
  · exact (Nat.div_lt_iff_lt_mul hwf.min_pos).1 h2
  · intro h
    exact (Nat.le_div_iff_mul_le hwf.min_pos).1 (h3 h)

theorem addr_to_ptr_cast {s : Page} (hwf : PageWF s) {p : Nat} (hp : p < 128) :
    addr_to_ptr s (p : Int) = some (s.base + p * s.min_size) := by
  have h1 : (p : Int) ≠ -1 := by omega
  have h2 : p * s.min_size < 2 ^ 64 := by
    have := hwf.min_le
    calc p * s.min_size ≤ 127 * 2 ^ 57 := Nat.mul_le_mul (by omega) this
      _ < 2 ^ 64 := by norm_num
  unfold addr_to_ptr
  rw [if_neg h1, toSizeT_cast p (by omega)]
  unfold SIZE_MOD
  rw [Nat.mod_eq_of_lt h2]

theorem ptr_to_addr_cast {s : Page} (hwf : PageWF s) {p : Nat} (hp : p < 128) :
    ptr_to_addr s (s.base + p * s.min_size) = (p : Int) := by
  have h2 : p * s.min_size < 2 ^ 64 := by
    have := hwf.min_le
    calc p * s.min_size ≤ 127 * 2 ^ 57 := Nat.mul_le_mul (by omega) this
      _ < 2 ^ 64 := by norm_num
  unfold ptr_to_addr
  have h3 : ((s.base + p * s.min_size : Nat) : Int) - (s.base : Int) = ((p * s.min_size : Nat) : Int) := by
    push_cast; ring
  rw [h3, toSizeT_cast _ h2, Nat.mul_div_cancel _ hwf.min_pos]
  exact toInt32_small p (by omega)

/-- The fresh page: one free block `(0, 7)`. -/
theorem Page.new_core (size mem : Nat) (junk : Int → Int) :
    Core (Page.new size mem junk).head (Page.new size mem junk).next
      (fun l => if l = 7 then [0] else []) (fun _ _ => False) noHole := by
  simp only [Page.new, nlevel]
  refine ⟨?_, ?_, ⟨?_, ?_, ?_⟩, ?_, ?_, ?_⟩
  · intro l hl
    by_cases h7 : l = 7
    · subst h7
      refine ⟨rfl, ?_⟩
      show Function.update junk 0 (-1) ((0 : Nat) : Int) = -1
      exact Function.update_same _ _ _
    · simp [h7, Chain]
  · intro l
    by_cases h7 : l = 7 <;> simp [h7]
  · intro p l h
    unfold Blk noHole at h
    by_cases h7 : l = 7
    · subst h7
      simp at h
      subst h
      decide
    · simp [h7] at h
  · intro p l q m h1 h2 _ _
    unfold Blk noHole at h1 h2
    by_cases h7 : l = 7 <;> by_cases h7' : m = 7 <;> simp [h7, h7'] at h1 h2
    omega
  · intro u hu
    refine ⟨0, 7, Or.inl (by simp), by omega, by norm_num; omega⟩
  · intro p l h; exact h.elim
  · intro l hl p hp
    have : l ≠ 7 := by omega
    simp [this] at hp
  · intro p l h; exact h.elim

/-- The lowest non-empty level from `l` upwards, if there is one. -/
theorem first_nonempty (fl : Nat → List Nat) (l : Nat) :
    (∃ k, l ≤ k ∧ k < 8 ∧ fl k ≠ [] ∧ ∀ j, l ≤ j → j < k → fl j = []) ∨
    (∀ j, l ≤ j → j < 8 → fl j = []) := by
  classical
  by_cases h : ∃ k, l ≤ k ∧ k < 8 ∧ fl k ≠ []
  · left
    obtain ⟨h1, h2, h3⟩ := Nat.find_spec h
    refine ⟨Nat.find h, h1, h2, h3, fun j hj1 hj2 => ?_⟩
    by_contra hne
    exact Nat.find_min h hj2 ⟨hj1, by omega, hne⟩
  · right
    intro j h1 h2
    by_contra hne
    exact h ⟨j, h1, h2, hne⟩

end BuddyAlloc

namespace BuddyAlloc

theorem sz_to_level_congr {s s1 : Page} (h : s1.min_size = s.min_size) (sz : Nat) :
    sz_to_level s1 sz = sz_to_level s sz := by
  unfold sz_to_level; rw [h]

/-- A failing `allocate` leaves the page as it was (in every state). -/
theorem allocate_none {s s1 : Page} {sz : Nat} (h : s.allocate sz = (none, s1)) : s1 = s := by
  unfold Page.allocate at h
  by_cases hsz : sz > s.size
  · rw [if_pos hsz] at h
    exact (Prod.mk.inj h).2.symm
  · rw [if_neg hsz] at h
    obtain ⟨h1, h2⟩ := Prod.mk.inj h
    have hidx : (get_next_ptr s (sz_to_level s sz)).1 = -1 := by
      by_contra hne
      unfold addr_to_ptr at h1
      rw [if_neg hne] at h1
      cases h1
    rw [← h2]
    exact get_next_ptr_go_fail _ _ _ hidx

/-- A successful `allocate`: the block comes from the lowest non-empty level `k` at or above
the level of the request, and the ghost state changes as described by `allocFl`. -/
theorem allocate_some {s s1 : Page} {fl : Nat → List Nat} {iss : Nat → Nat → Prop}
    (hwf : PageWF s) (hc : Core s.head s.next fl iss noHole) {sz ptr : Nat}
    (ha : s.allocate sz = (some ptr, s1)) :
    ∃ p k rest, sz ≤ s.size ∧ sz_to_level s sz ≤ k ∧ k < 8 ∧ fl k = p :: rest ∧
      (∀ j, sz_to_level s sz ≤ j → j < k → fl j = []) ∧ p < 128 ∧
      ptr = s.base + p * s.min_size ∧
      s1.min_size = s.min_size ∧ s1.size = s.size ∧ s1.base = s.base ∧
      Core s1.head s1.next (allocFl fl (sz_to_level s sz) k p rest)
        (fun q m => iss q m ∨ (q = p ∧ m = sz_to_level s sz)) noHole := by
  unfold Page.allocate at ha
  by_cases hsz : sz > s.size
  · rw [if_pos hsz] at ha
    cases (Prod.mk.inj ha).1
  rw [if_neg hsz] at ha
  obtain ⟨h1, h2⟩ := Prod.mk.inj ha
  have hidx : (get_next_ptr s (sz_to_level s sz)).1 ≠ -1 := by
    intro he
    unfold addr_to_ptr at h1
    rw [if_pos he] at h1
    cases h1
  unfold get_next_ptr at hidx h1 h2
  rcases first_nonempty fl (sz_to_level s sz) with ⟨k, hk1, hk2, hk3, hk4⟩ | hemp
  · obtain ⟨p, rest, hfl⟩ : ∃ p rest, fl k = p :: rest := by
      cases hfk : fl k with
      | nil => exact (hk3 hfk).elim
      | cons p rest => exact ⟨p, rest, rfl⟩
    obtain ⟨hr1, hr2⟩ := get_next_ptr_go_ok (k - sz_to_level s sz) (nlevel + 1) s fl iss
      (sz_to_level s sz) k p rest (by omega) hk2 (by unfold nlevel; omega) hc hk4 hfl
    obtain ⟨hf1, hf2, hf3⟩ := get_next_ptr_go_fields (nlevel + 1) s (sz_to_level s sz)
    have hp128 : p < 128 := (hc.free_valid (by rw [hfl]; exact List.mem_cons_self _ _)).2.1
    have hwf1 : PageWF (get_next_ptr_go (nlevel + 1) s (sz_to_level s sz)).2 :=
      ⟨by rw [hf1]; exact hwf.min_pos, by rw [hf1]; exact hwf.min_le,
        by rw [hf1]; exact hwf.min_align, by rw [hf1, hf2]; exact hwf.size_eq⟩
    rw [hr1, addr_to_ptr_cast hwf1 hp128, hf3, hf1] at h1
    refine ⟨p, k, rest, by omega, hk1, hk2, hfl, hk4, hp128, (Option.some.inj h1).symm, ?_, ?_, ?_, ?_⟩
    · rw [← h2]; exact hf1
    · rw [← h2]; exact hf2
    · rw [← h2]; exact hf3
    · rw [← h2]; exact hr2
  · exfalso
    apply hidx
    apply get_next_ptr_go_empty
    intro j hj1 hj2
    have := hc.chain j hj2
    rw [hemp j hj1 hj2] at this
    exact this

/-- A matching `deallocate` terminates and re-establishes the invariant with the block taken
out of the issued set. -/
theorem deallocate_some {s : Page} {fl : Nat → List Nat} {iss : Nat → Nat → Prop}
    (hwf : PageWF s) (hc : Core s.head s.next fl iss noHole) {sz p : Nat}
    (hi : iss p (sz_to_level s sz)) :
    ∃ s1 fl1, s.deallocate (s.base + p * s.min_size) sz = some s1 ∧
      s1.min_size = s.min_size ∧ s1.size = s.size ∧ s1.base = s.base ∧
      Core s1.head s1.next fl1 (fun q m => iss q m ∧ ¬(q = p ∧ m = sz_to_level s sz)) noHole := by
  obtain ⟨hl8, hp128, -⟩ := hc.part.valid p _ (Or.inr (Or.inl hi))
  have hh := hc.to_hole hi
  obtain ⟨s1, fl1, he, h1, h2, h3, hc1⟩ := mark_free_go_inv (7 - sz_to_level s sz) nlevel s fl _ p
    (sz_to_level s sz) (by omega) (by unfold nlevel; omega) hh
  refine ⟨s1, fl1, ?_, h1, h2, h3, hc1⟩
  unfold Page.deallocate mark_free
  rw [ptr_to_addr_cast hwf hp128]
  exact he

theorem PageWF.of_fields {s s1 : Page} (hwf : PageWF s) (h1 : s1.min_size = s.min_size)
    (h2 : s1.size = s.size) : PageWF s1 :=
  ⟨by rw [h1]; exact hwf.min_pos, by rw [h1]; exact hwf.min_le,
    by rw [h1]; exact hwf.min_align, by rw [h1, h2]; exact hwf.size_eq⟩

/-- Two live entries with the same pointer are the same entry. -/
theorem live_fst_inj {live : List (Nat × Nat)} (hnd : (live.map Prod.fst).Nodup)
    {ptr sz sz' : Nat} (h1 : (ptr, sz) ∈ live) (h2 : (ptr, sz') ∈ live) : sz = sz' := by
  have := List.inj_on_of_nodup_map hnd h1 h2 rfl
  exact (Prod.mk.inj this).2

theorem PInv.alloc_ok {s s1 : Page} {live : List (Nat × Nat)} {sz ptr : Nat}
    (hinv : PInv s live) (ha : s.allocate sz = (some ptr, s1)) : PInv s1 ((ptr, sz) :: live) := by
  obtain ⟨hwf, fl, iss, hc, hlr⟩ := hinv
  obtain ⟨p, k, rest, hsz, hk1, hk2, hfl, hemp, hp128, hptr, hf1, hf2, hf3, hc1⟩ :=
    allocate_some hwf hc ha
  have hpk : p ∈ fl k := by rw [hfl]; exact List.mem_cons_self _ _
  refine ⟨hwf.of_fields hf1 hf2, _, _, hc1, ?_, ?_, ?_⟩
  · intro ptr' sz' hm
    rw [hf2, hf1, hf3, sz_to_level_congr hf1]
    rcases List.mem_cons.1 hm with he | hm'
    · obtain ⟨rfl, rfl⟩ := Prod.mk.inj he
      exact ⟨hsz, p, hptr, Or.inr ⟨rfl, rfl⟩⟩
    · obtain ⟨h1, q, h2, h3⟩ := hlr.live_iss ptr' sz' hm'
      exact ⟨h1, q, h2, Or.inl h3⟩
  · intro q m hq
    rw [hf1, hf3]
    rcases hq with hq | ⟨rfl, rfl⟩
    · obtain ⟨sz', h1, h2⟩ := hlr.iss_live q m hq
      exact ⟨sz', List.mem_cons_of_mem _ h1, by rw [sz_to_level_congr hf1]; exact h2⟩
    · exact ⟨sz, by rw [← hptr]; exact List.mem_cons_self _ _, sz_to_level_congr hf1 sz⟩
  · rw [List.map_cons, List.nodup_cons]
    refine ⟨?_, hlr.nodup⟩
    intro hm
    obtain ⟨⟨ptr', sz'⟩, hm', he⟩ := List.mem_map.1 hm
    simp only at he
    subst he
    obtain ⟨-, q, h2, h3⟩ := hlr.live_iss ptr' sz' hm'
    have hqp : q = p := by
      have : q * s.min_size = p * s.min_size := by omega
      exact Nat.eq_of_mul_eq_mul_right hwf.min_pos this
    subst hqp
    exact hc.iss_not_free h3 hpk

theorem PInv.dealloc {s : Page} {live : List (Nat × Nat)} {sz ptr : Nat}
    (hinv : PInv s live) (hm : (ptr, sz) ∈ live) :
    ∃ s1, s.deallocate ptr sz = some s1 ∧ PInv s1 (live.erase (ptr, sz)) := by
  obtain ⟨hwf, fl, iss, hc, hlr⟩ := hinv
  obtain ⟨hsz, p, hptr, hi⟩ := hlr.live_iss ptr sz hm
  obtain ⟨s1, fl1, he, hf1, hf2, hf3, hc1⟩ := deallocate_some hwf hc hi
  have hndl : live.Nodup := List.Nodup.of_map _ hlr.nodup
  refine ⟨s1, by rw [hptr]; exact he, hwf.of_fields hf1 hf2, fl1, _, hc1, ?_, ?_, ?_⟩
  · intro ptr' sz' hm'
    rw [hf2, hf1, hf3, sz_to_level_congr hf1]
    obtain ⟨hne, hml⟩ := (List.Nodup.mem_erase_iff hndl).1 hm'
    obtain ⟨h1, q, h2, h3⟩ := hlr.live_iss ptr' sz' hml
    refine ⟨h1, q, h2, h3, ?_⟩
    rintro ⟨rfl, -⟩
    have hpp : ptr' = ptr := by rw [h2, hptr]
    subst hpp
    have := live_fst_inj hlr.nodup hml hm
    subst this
    exact hne rfl
  · rintro q m ⟨hq, hne⟩
    rw [hf1, hf3]
    obtain ⟨sz', h1, h2⟩ := hlr.iss_live q m hq
    refine ⟨sz', ?_, by rw [sz_to_level_congr hf1]; exact h2⟩
    apply (List.mem_erase_of_ne _).2 h1
    intro he
    obtain ⟨he1, he2⟩ := Prod.mk.inj he
    subst he2
    apply hne
    refine ⟨?_, h2.symm⟩
    have : q * s.min_size = p * s.min_size := by omega
    exact Nat.eq_of_mul_eq_mul_right hwf.min_pos this
  · exact hlr.nodup.sublist ((List.erase_sublist _ _).map _)

theorem Page.new_inv (size mem : Nat) (junk : Int → Int) (h : size < 2 ^ 64) :
    PInv (Page.new size mem junk) [] := by
  refine ⟨Page.new_wf size mem junk h, _, _, Page.new_core size mem junk, ?_, ?_, ?_⟩
  · intro ptr sz hm; cases hm
  · intro p l hp; exact hp.elim
  · exact List.nodup_nil

/-- Every reachable state satisfies the invariant. -/
theorem Reach.inv {s0 s : Page} {live : List (Nat × Nat)} (hr : Reach s0 s live)
    (h0 : PInv s0 []) : PInv s live := by
  induction hr with
  | init => exact h0
  | alloc_ok s live sz ptr s1 _ ha ih => exact ih.alloc_ok ha
  | alloc_fail s live sz s1 _ ha ih => rw [allocate_none ha]; exact ih
  | dealloc s live ptr sz s1 _ hm hd ih =>
    obtain ⟨s2, h2, hinv⟩ := ih.dealloc hm
    rw [h2] at hd
    cases hd
    exact hinv

end BuddyAlloc

namespace BuddyAlloc

/-- In a state that satisfies the invariant the reading function returns the ghost list. -/
theorem Core.free_list_eq {s : Page} {fl : Nat → List Nat} {iss hole : Nat → Nat → Prop}
    (hc : Core s.head s.next fl iss hole) {l : Nat} (hl : l < 8) :
    s.free_list l = List.map (fun (x : Nat) => (x : Int)) (fl l) := by
  unfold Page.free_list
  apply Chain.read _ (hc.chain l hl)
  have := length_le_of_nodup (hc.nodup l) (fun x hx => (hc.free_valid hx).2.1)
  unfold list_fuel nlevel
  omega

/-- C1. In every state reachable from a freshly constructed page by `allocate` calls and
matching `deallocate` calls, a successful `allocate(sz)` followed by `deallocate(ptr, sz)` on
the returned pointer terminates and leaves the free list of every level `0..7`, read from
`head_[level]` through `next_`, exactly as it was before the `allocate`. -/
theorem allocate_then_deallocate_restores_free_lists (size mem : Nat) (junk : Int → Int)
    (hsize : size < 2 ^ 64) (s : Page) (live : List (Nat × Nat))
    (hr : Reach (Page.new size mem junk) s live) (sz ptr : Nat) (s1 : Page)
    (ha : s.allocate sz = (some ptr, s1)) :
    ∃ s2, s1.deallocate ptr sz = some s2 ∧
      ∀ level, level < nlevel → s2.free_list level = s.free_list level := by
  obtain ⟨hwf, fl, iss, hc, hlr⟩ := hr.inv (Page.new_inv size mem junk hsize)
  obtain ⟨p, k, rest, hsz, hk1, hk2, hfl, hemp, hp128, hptr, hf1, hf2, hf3, hc1⟩ :=
    allocate_some hwf hc ha
  have hpk : p ∈ fl k := by rw [hfl]; exact List.mem_cons_self _ _
  have hwf1 : PageWF s1 := hwf.of_fields hf1 hf2
  have hh := hc1.to_hole (Or.inr ⟨rfl, rfl⟩)
  have hmid : ∀ j, sz_to_level s sz ≤ j → j < k →
      allocFl fl (sz_to_level s sz) k p rest j = [p ^^^ 2 ^ j] := by
    intro j h1 h2
    unfold allocFl
    rw [if_neg (by omega), if_pos ⟨h1, h2⟩]
  have htop : k < 7 → (p ^^^ 2 ^ k) ∉ allocFl fl (sz_to_level s sz) k p rest k := by
    intro h7 hm
    unfold allocFl at hm
    rw [if_pos rfl] at hm
    exact hc.nobuddy k h7 p hpk (by rw [hfl]; exact List.mem_cons_of_mem _ hm)
  obtain ⟨s2, he, -, -, -, hc2⟩ := mark_free_go_undo (k - sz_to_level s sz) nlevel s1 _ _ p
    (sz_to_level s sz) k (by omega) (by unfold nlevel; omega) hh (hc.free_valid hpk).2.2 hk2
    hmid htop
  refine ⟨s2, ?_, ?_⟩
  · unfold Page.deallocate mark_free
    rw [hptr, ← hf3, ← hf1, ptr_to_addr_cast hwf1 hp128, sz_to_level_congr hf1]
    exact he
  · intro level hlev
    have hl8 : level < 8 := hlev
    rw [hc2.free_list_eq hl8, hc.free_list_eq hl8]
    congr 1
    unfold freeFl allocFl
    by_cases h1 : level = k
    · subst h1
      rw [if_pos rfl, if_pos rfl, hfl]
    · rw [if_neg h1]
      by_cases h2 : sz_to_level s sz ≤ level ∧ level < k
      · rw [if_pos h2, hemp level h2.1 h2.2]
      · rw [if_neg h2, if_neg h1, if_neg h2]

/-- Instance of C1 on a fresh page of 4096 bytes. -/
theorem allocate_then_deallocate_restores_free_lists_witness :
    ∃ s2, ((Page.new 4096 1024 (fun _ => 0)).allocate 31).2.deallocate 1024 31 = some s2 ∧
      ∀ level, level < nlevel →
        s2.free_list level = (Page.new 4096 1024 (fun _ => 0)).free_list level :=
  allocate_then_deallocate_restores_free_lists 4096 1024 (fun _ => 0) (by norm_num)
    (Page.new 4096 1024 (fun _ => 0)) [] Reach.init 31 1024 _
    (Prod.ext (by decide) rfl)

end BuddyAlloc

namespace BuddyAlloc

/-- The block of a live allocation holds the request and ends inside the page. -/
theorem live_block {s : Page} {fl : Nat → List Nat} {iss : Nat → Nat → Prop}
    {live : List (Nat × Nat)} (hwf : PageWF s) (hc : Core s.head s.next fl iss noHole)
    (hlr : LiveRel s iss live) {ptr sz : Nat} (hm : (ptr, sz) ∈ live) :
    ∃ p, ptr = s.base + p * s.min_size ∧ iss p (sz_to_level s sz) ∧
      sz < 2 ^ (sz_to_level s sz) * s.min_size ∧ p + 2 ^ (sz_to_level s sz) ≤ 128 := by
  obtain ⟨hsz, p, hptr, hi⟩ := hlr.live_iss ptr sz hm
  obtain ⟨hl8, hp128, hpmod⟩ := hc.part.valid p _ (Or.inr (Or.inl hi))
  exact ⟨p, hptr, hi, (level_spec hwf hsz).2.1, blk_end _ hl8 p hp128 hpmod⟩

/-- C2. In every state reachable from a fresh page by `allocate` and matching `deallocate`
calls, any two live allocations occupy disjoint byte ranges `[ptr, ptr+sz)`, and every byte of
a live allocation lies inside `[base_, base_ + size_)`. -/
theorem live_allocations_disjoint_and_inside (size mem : Nat) (junk : Int → Int)
    (hsize : size < 2 ^ 64) (s : Page) (live : List (Nat × Nat))
    (hr : Reach (Page.new size mem junk) s live) :
    live.Pairwise (fun a b => a.1 + a.2 ≤ b.1 ∨ b.1 + b.2 ≤ a.1) ∧
    ∀ a ∈ live, s.base ≤ a.1 ∧ (∀ x, a.1 ≤ x → x < a.1 + a.2 → x < s.base + s.size) ∧
      (s.size ≠ 0 → a.1 + a.2 ≤ s.base + s.size) := by
  obtain ⟨hwf, fl, iss, hc, hlr⟩ := hr.inv (Page.new_inv size mem junk hsize)
  constructor
  · have hne : live.Pairwise (fun a b => a.1 ≠ b.1) := (List.pairwise_map).1 hlr.nodup
    refine hne.imp_of_mem ?_
    rintro ⟨pa, sa⟩ ⟨pb, sb⟩ ha hb hab
    simp only at hab ⊢
    obtain ⟨p, hp, hip, hsp, -⟩ := live_block hwf hc hlr ha
    obtain ⟨q, hq, hiq, hsq, -⟩ := live_block hwf hc hlr hb
    have hpq : p ≠ q := by
      intro h; apply hab; rw [hp, hq, h]
    have hd := hc.part.disj p _ q _ (Or.inr (Or.inl hip)) (Or.inr (Or.inl hiq))
    by_cases h1 : p + 2 ^ (sz_to_level s sa) ≤ q
    · left
      have := Nat.mul_le_mul_right s.min_size h1
      rw [Nat.add_mul] at this
      omega
    · by_cases h2 : q + 2 ^ (sz_to_level s sb) ≤ p
      · right
        have := Nat.mul_le_mul_right s.min_size h2
        rw [Nat.add_mul] at this
        omega
      · exact (hpq (hd (by omega) (by omega)).1).elim
  · rintro ⟨pa, sa⟩ ha
    simp only
    obtain ⟨p, hp, hip, hsp, hend⟩ := live_block hwf hc hlr ha
    obtain ⟨hsz, -⟩ := hlr.live_iss pa sa ha
    have hmul := Nat.mul_le_mul_right s.min_size hend
    rw [Nat.add_mul] at hmul
    have hsize' := hwf.size_eq
    have hmin := hwf.min_le
    have hsz0 : s.size ≠ 0 → pa + sa ≤ s.base + s.size := by
      intro h0
      have : s.size = s.min_size * 128 := by omega
      omega
    refine ⟨by omega, ?_, hsz0⟩
    intro x hx1 hx2
    by_cases h0 : s.size = 0
    · omega
    · have := hsz0 h0
      omega

/-- Instance of C2: two live allocations on a page of 4096 bytes. -/
theorem live_allocations_disjoint_and_inside_witness :
    [(1088, 40), (1024, 31)].Pairwise (fun a b => a.1 + a.2 ≤ b.1 ∨ b.1 + b.2 ≤ a.1) ∧
    ∀ a ∈ [(1088, 40), (1024, 31)],
      (((Page.new 4096 1024 (fun _ => 0)).allocate 31).2.allocate 40).2.base ≤ a.1 ∧
      (∀ x, a.1 ≤ x → x < a.1 + a.2 →
        x < (((Page.new 4096 1024 (fun _ => 0)).allocate 31).2.allocate 40).2.base
          + (((Page.new 4096 1024 (fun _ => 0)).allocate 31).2.allocate 40).2.size) ∧
      ((((Page.new 4096 1024 (fun _ => 0)).allocate 31).2.allocate 40).2.size ≠ 0 →
        a.1 + a.2 ≤ (((Page.new 4096 1024 (fun _ => 0)).allocate 31).2.allocate 40).2.base
          + (((Page.new 4096 1024 (fun _ => 0)).allocate 31).2.allocate 40).2.size) :=
  live_allocations_disjoint_and_inside 4096 1024 (fun _ => 0) (by norm_num) _ _
    (Reach.alloc_ok _ _ 40 1088 _
      (Reach.alloc_ok _ _ 31 1024 _ Reach.init (Prod.ext (by decide) rfl))
      (Prod.ext (by decide) rfl))

/-- Blocks of one level whose numbers are closer than the block size are equal. -/
theorem aligned_eq {K a b : Nat} (ha : a % K = 0) (hb : b % K = 0) (h1 : a ≤ b)
    (h2 : b < a + K) : a = b := by
  have h3 : (b - a) % K = 0 := Nat.sub_mod_eq_zero_of_mod_eq (by rw [ha, hb])
  have h4 : (b - a) % K = b - a := Nat.mod_eq_of_lt (by omega)
  omega

/-- A unit lies in the aligned block starting at `a` exactly when the quotients agree. -/
theorem in_block_of_div {K a x : Nat} (hK : 0 < K) (ha : a % K = 0) (h : x / K = a / K) :
    a ≤ x ∧ x < a + K := by
  have h1 : a / K * K = a := Nat.div_mul_cancel (Nat.dvd_of_mod_eq_zero ha)
  have h2 := Nat.div_add_mod x K
  have h3 := Nat.mod_lt x hK
  have h5 : K * (x / K) = a := by rw [h, Nat.mul_comm]; exact h1
  omega

theorem div_of_in_block {K a x : Nat} (ha : a % K = 0) (h1 : a ≤ x) (h2 : x < a + K) :
    x / K = a / K := by
  have h3 : a / K * K = a := Nat.div_mul_cancel (Nat.dvd_of_mod_eq_zero ha)
  apply Nat.div_eq_of_lt_le
  · rw [h3]; exact h1
  · rw [Nat.add_mul, h3]; omega

/-- A partition without two free partners and without any other block is the single block
of the top level. -/
theorem Partition.all_free_top {B : Nat → Nat → Prop} (hp : Partition B)
    (hnb : ∀ l, l < 7 → ∀ p, B p l → ¬ B (p ^^^ 2 ^ l) l) : B 0 7 := by
  classical
  have hex : ∃ l, ∃ p, B p l := by
    obtain ⟨p, l, h, -, -⟩ := hp.cover 0 (by norm_num)
    exact ⟨l, p, h⟩
  obtain ⟨p, hB⟩ := Nat.find_spec hex
  have hmin : ∀ m q, B q m → Nat.find hex ≤ m := fun m q h => Nat.find_min' hex ⟨q, h⟩
  obtain ⟨hl8, hp128, hpmod⟩ := hp.valid p _ hB
  by_cases h7 : Nat.find hex = 7
  · rw [h7] at hB hpmod
    have : p = 0 := by omega
    rw [this] at hB
    exact hB
  · exfalso
    have hl7 : Nat.find hex < 7 := by omega
    obtain ⟨-, -, -, hq128, hqmod⟩ := xor_facts _ hl7 p hp128 hpmod
    obtain ⟨q', m, hB', hlo, hhi⟩ := hp.cover _ hq128
    obtain ⟨hm8, hq'128, hq'mod⟩ := hp.valid q' m hB'
    have hml := hmin m q' hB'
    by_cases hme : m = Nat.find hex
    · rw [hme] at hB' hhi hq'mod
      have := aligned_eq hq'mod hqmod hlo hhi
      rw [this] at hB'
      exact hnb _ hl7 p hB hB'
    · have hlt : Nat.find hex < m := by omega
      have hdiv := xor_div _ hl7 m hm8 p hp128 hlt hpmod
      have h1 := div_of_in_block hq'mod hlo hhi
      have h2 := in_block_of_div (Nat.two_pow_pos m) hq'mod (hdiv.symm.trans h1)
      have hpos := Nat.two_pow_pos (Nat.find hex)
      have := hp.disj q' m p _ hB' hB (by omega) (by omega)
      omega

/-- C3. In every state reachable from a fresh page by `allocate` and matching `deallocate`
calls, the test `head_[7] != 0` of the destructor (under which it throws "outstanding
allocations on cleanup") holds if and only if some allocation is still live. -/
theorem destructor_check_exact (size mem : Nat) (junk : Int → Int)
    (hsize : size < 2 ^ 64) (s : Page) (live : List (Nat × Nat))
    (hr : Reach (Page.new size mem junk) s live) :
    s.destructor_throws = true ↔ live ≠ [] := by
  obtain ⟨hwf, fl, iss, hc, hlr⟩ := hr.inv (Page.new_inv size mem junk hsize)
  have h7 := hc.chain 7 (by norm_num)
  have hthrow : s.destructor_throws = true ↔ s.head 7 ≠ 0 := by
    unfold Page.destructor_throws nlevel
    simp
  rw [hthrow]
  constructor
  · intro hne hnil
    apply hne
    have hiss : ∀ p l, ¬ iss p l := by
      intro p l hi
      obtain ⟨sz, hm, -⟩ := hlr.iss_live p l hi
      rw [hnil] at hm
      cases hm
    have hpart : Partition (fun p l => p ∈ fl l) := by
      apply hc.part.congr
      intro p l
      unfold Blk noHole
      constructor
      · exact fun h => Or.inl h
      · rintro (h | h | h)
        · exact h
        · exact (hiss p l h).elim
        · exact h.elim
    have h0 : 0 ∈ fl 7 := hpart.all_free_top (fun l hl p hpl => hc.nobuddy l hl p hpl)
    cases hfl : fl 7 with
    | nil => rw [hfl] at h0; cases h0
    | cons x rest =>
      rw [hfl] at h7
      have hx : x ∈ fl 7 := by rw [hfl]; exact List.mem_cons_self _ _
      obtain ⟨-, hx128, hxmod⟩ := hc.free_valid hx
      have : x = 0 := by omega
      rw [h7.1, this]
      rfl
  · intro hne h0
    obtain ⟨⟨ptr, sz⟩, hm⟩ := List.exists_mem_of_ne_nil live hne
    obtain ⟨-, p, -, hi⟩ := hlr.live_iss ptr sz hm
    cases hfl : fl 7 with
    | nil =>
      rw [hfl] at h7
      have : s.head 7 = -1 := h7
      omega
    | cons x rest =>
      rw [hfl] at h7
      have hx : x ∈ fl 7 := by rw [hfl]; exact List.mem_cons_self _ _
      have hx0 : x = 0 := by
        have := h7.1
        omega
      rw [hx0] at hx
      obtain ⟨-, hp128, -⟩ := hc.part.valid p _ (Or.inr (Or.inl hi))
      have hpos := Nat.two_pow_pos (sz_to_level s sz)
      have := hc.part.disj p _ 0 7 (Or.inr (Or.inl hi)) (Or.inl hx) (by omega) (by omega)
      rw [this.1, this.2] at hi
      exact hc.iss_not_free hi hx

/-- Instance of C3: after one allocation on a page of 4096 bytes the destructor would throw. -/
theorem destructor_check_exact_witness :
    ((Page.new 4096 1024 (fun _ => 0)).allocate 31).2.destructor_throws = true
      ↔ [((1024 : Nat), (31 : Nat))] ≠ [] :=
  destructor_check_exact 4096 1024 (fun _ => 0) (by norm_num) _ _
    (Reach.alloc_ok _ _ 31 1024 _ Reach.init (Prod.ext (by decide) rfl))

end BuddyAlloc

namespace BuddyAlloc

/-! ## Sizes are never changed by page operations -/

theorem remove_from_free_list_fields {s : Page} {idx : Int} {l : Nat} {r : Bool × Page}
    (h : remove_from_free_list s idx l = some r) :
    r.2.min_size = s.min_size ∧ r.2.size = s.size ∧ r.2.base = s.base := by
  unfold remove_from_free_list at h
  split at h
  · cases h
  · split_ifs at h <;> cases h <;> exact ⟨rfl, rfl, rfl⟩

theorem mark_free_go_fields : ∀ (fuel : Nat) (s : Page) (idx : Int) (l : Nat) (s1 : Page),
    mark_free_go fuel s idx l = some s1 →
    s1.min_size = s.min_size ∧ s1.size = s.size ∧ s1.base = s.base
  | 0, s, idx, l, s1, h => by cases h
  | fuel + 1, s, idx, l, s1, h => by
    simp only [mark_free_go] at h
    split_ifs at h with h1 h2
    · split at h
      · cases h
      · rename_i r hr
        obtain ⟨f1, f2, f3⟩ := remove_from_free_list_fields hr
        split_ifs at h with h3
        · obtain ⟨g1, g2, g3⟩ := mark_free_go_fields fuel _ _ _ _ h
          exact ⟨g1.trans f1, g2.trans f2, g3.trans f3⟩
        · cases h
          exact ⟨f1, f2, f3⟩
    · cases h; exact ⟨rfl, rfl, rfl⟩
    · cases h; exact ⟨rfl, rfl, rfl⟩

theorem allocate_fields (s : Page) (sz : Nat) :
    (s.allocate sz).2.min_size = s.min_size ∧ (s.allocate sz).2.size = s.size ∧
    (s.allocate sz).2.base = s.base := by
  unfold Page.allocate
  split_ifs
  · exact ⟨rfl, rfl, rfl⟩
  · exact get_next_ptr_go_fields _ _ _

theorem deallocate_fields {s s1 : Page} {ptr sz : Nat} (h : s.deallocate ptr sz = some s1) :
    s1.min_size = s.min_size ∧ s1.size = s.size ∧ s1.base = s.base :=
  mark_free_go_fields _ _ _ _ _ h

/-- Sizes and base of a reachable page are those of the constructed page. -/
theorem Reach.fields {s0 s : Page} {live : List (Nat × Nat)} (hr : Reach s0 s live) :
    s.min_size = s0.min_size ∧ s.size = s0.size ∧ s.base = s0.base := by
  induction hr with
  | init => exact ⟨rfl, rfl, rfl⟩
  | alloc_ok s live sz ptr s1 _ ha ih =>
    have := allocate_fields s sz
    rw [ha] at this
    exact ⟨this.1.trans ih.1, this.2.1.trans ih.2.1, this.2.2.trans ih.2.2⟩
  | alloc_fail s live sz s1 _ ha ih =>
    have := allocate_fields s sz
    rw [ha] at this
    exact ⟨this.1.trans ih.1, this.2.1.trans ih.2.1, this.2.2.trans ih.2.2⟩
  | dealloc s live ptr sz s1 _ _ hd ih =>
    have := deallocate_fields hd
    exact ⟨this.1.trans ih.1, this.2.1.trans ih.2.1, this.2.2.trans ih.2.2⟩

/-! ## C4: the level of a request -/

/-- C4 as stated fails: on a page with `min_size_ = 32` a request of 32 bytes is served at
level 1, although level 0 already satisfies `2^0 * min_size_ >= 32`. -/
theorem sz_to_level_smallest_ge_counterexample :
    (32 : Nat) ≤ (Page.new 4096 1024 (fun _ => 0)).size ∧
    ¬ (∀ l, 2 ^ l * (Page.new 4096 1024 (fun _ => 0)).min_size ≥ 32 →
        sz_to_level (Page.new 4096 1024 (fun _ => 0)) 32 ≤ l) := by
  refine ⟨by decide, fun h => ?_⟩
  have := h 0 (by decide)
  revert this
  decide

/-- C4, amended. For every page state reachable from a constructed page and every request size
`sz` smaller than the page size, `sz_to_level(sz)` is at most 7 and is the smallest level `l`
with `2^l * min_size_ > sz` (strictly larger, as the source comment "next power of 2 higher
than val" says). -/
theorem sz_to_level_smallest_gt (size mem : Nat) (junk : Int → Int) (hsize : size < 2 ^ 64)
    (s : Page) (live : List (Nat × Nat)) (hr : Reach (Page.new size mem junk) s live)
    (sz : Nat) (hsz : sz < s.size) :
    sz_to_level s sz ≤ 7 ∧ sz < 2 ^ (sz_to_level s sz) * s.min_size ∧
    ∀ l, sz < 2 ^ l * s.min_size → sz_to_level s sz ≤ l := by
  obtain ⟨hwf, -⟩ := hr.inv (Page.new_inv size mem junk hsize)
  obtain ⟨h1, h2, h3, h4⟩ := level_spec hwf (le_of_lt hsz)
  refine ⟨?_, h2, fun l hl => ?_⟩
  · by_contra h
    have h8 : sz_to_level s sz = 8 := by omega
    have hq := h4.1 h8
    have hs := hwf.size_eq
    have h5 : s.size ≤ s.min_size * 128 := by rw [hs]; exact Nat.mod_le _ _
    have h6 := (Nat.le_div_iff_mul_le hwf.min_pos).1 (le_of_eq hq.symm)
    omega
  · by_contra hlt
    have hpos : 0 < sz_to_level s sz := by omega
    have h7 := h3 hpos
    have h8 : 2 ^ l ≤ 2 ^ (sz_to_level s sz - 1) :=
      Nat.pow_le_pow_right (by norm_num) (by omega)
    have h9 := Nat.mul_le_mul_right s.min_size h8
    omega

/-- Instance of the amended C4: a request of 32 bytes on a page with `min_size_ = 32`. -/
theorem sz_to_level_smallest_gt_witness :
    sz_to_level (Page.new 4096 1024 (fun _ => 0)) 32 ≤ 7 ∧
    32 < 2 ^ (sz_to_level (Page.new 4096 1024 (fun _ => 0)) 32)
        * (Page.new 4096 1024 (fun _ => 0)).min_size ∧
    ∀ l, 32 < 2 ^ l * (Page.new 4096 1024 (fun _ => 0)).min_size →
      sz_to_level (Page.new 4096 1024 (fun _ => 0)) 32 ≤ l :=
  sz_to_level_smallest_gt 4096 1024 (fun _ => 0) (by norm_num) _ [] Reach.init 32 (by decide)

/-! ## C5: allocation from a fresh page -/

/-- C5, failing input: on a fresh page of `size_ = 4096` bytes, `allocate(4096)` passes the
test `sz > size_`, computes level 8 and returns null. -/
theorem fresh_page_allocate_full_size_is_null :
    (Page.new 4096 1024 (fun _ => 0)).size = 4096 ∧
    ((Page.new 4096 1024 (fun _ => 0)).allocate 4096).1 = none := by
  decide

/-- On every fresh page whose size computation does not overflow, a request of exactly
`size_` bytes is refused. -/
theorem fresh_page_allocate_size_none (size mem : Nat) (junk : Int → Int)
    (hsize : size < 2 ^ 64 - 3968) :
    ((Page.new size mem junk).allocate (Page.new size mem junk).size).1 = none := by
  have hwf := Page.new_wf size mem junk (by omega)
  have hmin : (Page.new size mem junk).min_size < 2 ^ 57 := by
    simp only [Page.new, nlevel, align, SIZE_MOD]; omega
  have hsz : (Page.new size mem junk).size = (Page.new size mem junk).min_size * 128 := by
    have := hwf.size_eq; omega
  have hlev : sz_to_level (Page.new size mem junk) (Page.new size mem junk).size = 8 := by
    apply (level_spec hwf (le_refl _)).2.2.2.2
    rw [hsz]
    exact Nat.mul_div_cancel_left 128 hwf.min_pos
  unfold Page.allocate
  rw [if_neg (by omega), hlev]
  rfl

/-- On every fresh page a request smaller than `size_` is served, and a request larger than
`size_` is refused. -/
theorem fresh_page_allocate_other_sizes (size mem : Nat) (junk : Int → Int)
    (hsize : size < 2 ^ 64) (sz : Nat) :
    (sz < (Page.new size mem junk).size → ((Page.new size mem junk).allocate sz).1.isSome) ∧
    ((Page.new size mem junk).size < sz → ((Page.new size mem junk).allocate sz).1 = none) := by
  have hwf := Page.new_wf size mem junk hsize
  have hc := Page.new_core size mem junk
  constructor
  · intro hlt
    obtain ⟨h1, h2, h3, h4⟩ := level_spec hwf (le_of_lt hlt)
    have hl8 : sz_to_level (Page.new size mem junk) sz < 8 := by
      by_contra h
      have h8 : sz_to_level (Page.new size mem junk) sz = 8 := by omega
      have := h4.1 h8
      have hs := hwf.size_eq
      have h5 : (Page.new size mem junk).size ≤ (Page.new size mem junk).min_size * 128 := by
        rw [hs]; exact Nat.mod_le _ _
      have h6 := (Nat.le_div_iff_mul_le hwf.min_pos).1 (le_of_eq this.symm)
      omega
    obtain ⟨hr1, -⟩ := get_next_ptr_go_ok (7 - sz_to_level (Page.new size mem junk) sz)
      (nlevel + 1) (Page.new size mem junk) _ _ (sz_to_level (Page.new size mem junk) sz) 7 0 []
      (by omega) (by norm_num) (by unfold nlevel; omega) hc
      (fun j h1 h2 => by simp; omega) (by simp)
    unfold Page.allocate
    rw [if_neg (by omega)]
    unfold get_next_ptr addr_to_ptr
    simp only [hr1]
    simp
  · intro hgt
    unfold Page.allocate
    rw [if_pos hgt]

end BuddyAlloc

namespace BuddyAlloc

/-! ## C6, C7: the table of pages -/

/-- C6, failing inputs: on `Table(1)` the call `allocate(4096)` finds no room in the first page
(`size_ = 4096`, level 8), creates a page for the requested size `max(2*1, 4096) = 4096`
whose `size_` is 4096 again, and returns the null pointer that this page's `allocate(4096)`
yields. For `allocate(4223)` the new page even has `size_ = 4096 < 4223`. -/
theorem table_allocate_returns_null :
    ((Table.new 1 1024 (fun _ => 0)).allocate 4096 8192 (fun _ => 0)).1 = none ∧
    ((Table.new 1 1024 (fun _ => 0)).allocate 4096 8192 (fun _ => 0)).2.pages.map Page.size
      = [4096, 4096] ∧
    ((Table.new 1 1024 (fun _ => 0)).allocate 4223 8192 (fun _ => 0)).1 = none ∧
    ((Table.new 1 1024 (fun _ => 0)).allocate 4223 8192 (fun _ => 0)).2.pages.map Page.size
      = [4096, 4096] := by
  decide

/-- C7 as stated fails: on `Table(1)`, after `allocate(2048)` has taken the whole first page,
`allocate(1)` adds a second page of the same `size_ = 4096`. -/
theorem table_page_sizes_double_counterexample :
    (((Table.new 1 1024 (fun _ => 0)).allocate 2048 8192 (fun _ => 0)).2.allocate 1 8192
        (fun _ => 0)).2.pages.map Page.size = [4096, 4096] ∧
    ¬ List.Chain' (fun a b => 2 * a ≤ b)
      ((((Table.new 1 1024 (fun _ => 0)).allocate 2048 8192 (fun _ => 0)).2.allocate 1 8192
        (fun _ => 0)).2.pages.map Page.size) := by
  have h : (((Table.new 1 1024 (fun _ => 0)).allocate 2048 8192 (fun _ => 0)).2.allocate 1 8192
        (fun _ => 0)).2.pages.map Page.size = [4096, 4096] := by decide
  rw [h]
  exact ⟨rfl, by simp⟩

theorem Page.new_size (r mem : Nat) (junk : Int → Int) (h : r < 2 ^ 64 - 3968) :
    (Page.new r mem junk).size = csize r := by
  simp only [Page.new, nlevel, align, SIZE_MOD, csize]
  omega

theorem csize_mono {a b : Nat} (h : a ≤ b) : csize a ≤ csize b := by
  unfold csize
  omega

theorem try_pages_sizes : ∀ (ps : List Page) (sz : Nat),
    (try_pages ps sz).2.map Page.size = ps.map Page.size
  | [], _ => rfl
  | p :: ps, sz => by
    simp only [try_pages]
    split_ifs
    · simp only [List.map_cons, (allocate_fields p sz).2.1]
    · simp only [List.map_cons, (allocate_fields p sz).2.1, try_pages_sizes ps sz]

theorem dealloc_pages_sizes : ∀ (ps : List Page) (ptr sz : Nat) (ps1 : List Page),
    dealloc_pages ps ptr sz = some ps1 → ps1.map Page.size = ps.map Page.size
  | [], _, _, ps1, h => by
    cases h; rfl
  | p :: ps, ptr, sz, ps1, h => by
    simp only [dealloc_pages] at h
    split_ifs at h
    · obtain ⟨p1, hp1, rfl⟩ := Option.map_eq_some'.1 h
      simp only [List.map_cons, (deallocate_fields hp1).2.1]
    · obtain ⟨ps2, hps2, rfl⟩ := Option.map_eq_some'.1 h
      simp only [List.map_cons, dealloc_pages_sizes ps ptr sz ps2 hps2]

/-- One call of `Table::allocate` without overflow keeps the table invariant. -/
theorem TInv.allocate_step {t : Table} (hinv : TInv t) (sz mem : Nat) (junk : Int → Int)
    (hb : max (2 * t.max_sz) sz < 2 ^ 64 - 3968) : TInv (t.allocate sz mem junk).2 := by
  obtain ⟨h1, h2, h3⟩ := hinv
  simp only [Table.allocate]
  split_ifs with hs
  · refine ⟨?_, ?_, h3⟩
    · simp only [try_pages_sizes]; exact h1
    · simp only [try_pages_sizes]; exact h2
  · have hmod : (2 * t.max_sz) % SIZE_MOD = 2 * t.max_sz := by
      unfold SIZE_MOD; omega
    have hnew : ((Page.new (max (2 * t.max_sz) sz) mem junk).allocate sz).2.size
        = csize (max (2 * t.max_sz) sz) := by
      rw [(allocate_fields _ sz).2.1, Page.new_size _ mem junk hb]
    simp only [hmod]
    refine ⟨?_, ?_, hb⟩
    · dsimp only
      rw [List.map_append, try_pages_sizes, List.map_cons, List.map_nil, hnew]
      apply List.Chain'.append h1 (List.chain'_singleton _)
      intro x hx y hy
      rw [h2] at hx
      simp at hx hy
      subst hx; subst hy
      exact csize_mono (by omega)
    · dsimp only
      rw [List.map_append, try_pages_sizes, List.map_cons, List.map_nil, hnew]
      simp

theorem TInv.deallocate_step {t t1 : Table} (hinv : TInv t) {ptr sz : Nat}
    (h : t.deallocate ptr sz = some t1) : TInv t1 := by
  unfold Table.deallocate at h
  obtain ⟨ps, hps, rfl⟩ := Option.map_eq_some'.1 h
  have := dealloc_pages_sizes _ _ _ _ hps
  unfold TInv
  simp only [this]
  exact hinv

theorem Table.new_table_inv (sz mem : Nat) (junk : Int → Int) (h : sz < 2 ^ 64 - 3968) :
    TInv (Table.new sz mem junk) := by
  unfold TInv Table.new
  simp only [List.map_cons, List.map_nil, Page.new_size sz mem junk h]
  exact ⟨List.chain'_singleton _, rfl, h⟩

theorem TReach.table_inv {t0 t : Table} (hr : TReach t0 t) (h0 : TInv t0) : TInv t := by
  induction hr with
  | init => exact h0
  | alloc t sz mem junk _ hb ih => exact ih.allocate_step sz mem junk hb
  | dealloc t ptr sz t1 _ hd ih => exact ih.deallocate_step hd

/-- C7, amended. For every table reachable from `Table(sz0)` without `size_t` overflow, the
buffer sizes `size_` never decrease along `pages_`; and whenever `Table::allocate` adds a page,
the size requested for it (the new `max_sz_`) is at least double the previous `max_sz_` and at
least `sz`, and the new page is the last one, with the `size_` the constructor computes from
that request. -/
theorem table_page_sizes_monotone_requests_double (sz0 mem0 : Nat) (junk0 : Int → Int)
    (h0 : sz0 < 2 ^ 64 - 3968) (t : Table) (hr : TReach (Table.new sz0 mem0 junk0) t) :
    List.Chain' (fun a b => a ≤ b) (t.pages.map Page.size) ∧
    ∀ (sz mem : Nat) (junk : Int → Int), max (2 * t.max_sz) sz < 2 ^ 64 - 3968 →
      ((t.allocate sz mem junk).2.pages.length = t.pages.length ∧
        (t.allocate sz mem junk).2.max_sz = t.max_sz) ∨
      ((t.allocate sz mem junk).2.pages.length = t.pages.length + 1 ∧
        2 * t.max_sz ≤ (t.allocate sz mem junk).2.max_sz ∧
        sz ≤ (t.allocate sz mem junk).2.max_sz ∧
        ((t.allocate sz mem junk).2.pages.map Page.size).getLast?
          = some (csize (t.allocate sz mem junk).2.max_sz)) := by
  have hinv := hr.table_inv (Table.new_table_inv sz0 mem0 junk0 h0)
  refine ⟨hinv.1, fun sz mem junk hb => ?_⟩
  have hnext := hinv.allocate_step sz mem junk hb
  have hlen : ∀ ps : List Page, (try_pages ps sz).2.length = ps.length := by
    intro ps
    have := congrArg List.length (try_pages_sizes ps sz)
    simpa using this
  simp only [Table.allocate] at hnext ⊢
  split_ifs at hnext ⊢ with hs
  · left
    exact ⟨hlen _, rfl⟩
  · right
    have hmod : (2 * t.max_sz) % SIZE_MOD = 2 * t.max_sz := by
      unfold SIZE_MOD; omega
    refine ⟨?_, ?_, ?_, hnext.2.1⟩
    · simp [hlen]
    · simp only [hmod]; omega
    · simp only [hmod]; omega

/-- Instance of the amended C7 on `Table(1)` after `allocate(2048)`. -/
theorem table_page_sizes_monotone_requests_double_witness :
    List.Chain' (fun a b => a ≤ b)
      (((Table.new 1 1024 (fun _ => 0)).allocate 2048 8192 (fun _ => 0)).2.pages.map Page.size) ∧
    ∀ (sz mem : Nat) (junk : Int → Int),
      max (2 * ((Table.new 1 1024 (fun _ => 0)).allocate 2048 8192 (fun _ => 0)).2.max_sz) sz
        < 2 ^ 64 - 3968 →
      ((((Table.new 1 1024 (fun _ => 0)).allocate 2048 8192 (fun _ => 0)).2.allocate sz mem
          junk).2.pages.length
          = ((Table.new 1 1024 (fun _ => 0)).allocate 2048 8192 (fun _ => 0)).2.pages.length ∧
        (((Table.new 1 1024 (fun _ => 0)).allocate 2048 8192 (fun _ => 0)).2.allocate sz mem
          junk).2.max_sz
          = ((Table.new 1 1024 (fun _ => 0)).allocate 2048 8192 (fun _ => 0)).2.max_sz) ∨
      ((((Table.new 1 1024 (fun _ => 0)).allocate 2048 8192 (fun _ => 0)).2.allocate sz mem
          junk).2.pages.length
          = ((Table.new 1 1024 (fun _ => 0)).allocate 2048 8192 (fun _ => 0)).2.pages.length + 1 ∧
        2 * ((Table.new 1 1024 (fun _ => 0)).allocate 2048 8192 (fun _ => 0)).2.max_sz
          ≤ (((Table.new 1 1024 (fun _ => 0)).allocate 2048 8192 (fun _ => 0)).2.allocate sz mem
              junk).2.max_sz ∧
        sz ≤ (((Table.new 1 1024 (fun _ => 0)).allocate 2048 8192 (fun _ => 0)).2.allocate sz mem
              junk).2.max_sz ∧
        ((((Table.new 1 1024 (fun _ => 0)).allocate 2048 8192 (fun _ => 0)).2.allocate sz mem
            junk).2.pages.map Page.size).getLast?
          = some (csize (((Table.new 1 1024 (fun _ => 0)).allocate 2048 8192
              (fun _ => 0)).2.allocate sz mem junk).2.max_sz)) :=
  table_page_sizes_monotone_requests_double 1 1024 (fun _ => 0) (by norm_num) _
    (TReach.alloc _ 2048 8192 (fun _ => 0) TReach.init (by decide))

end BuddyAlloc

namespace BuddyAlloc

/-! ## C8: sizes and alignment -/

/-- Wrap of `size_` for the largest requests: for `size = 2^64 - 1` the constructor computes
`min_size_ = 2^57`, and `size_ = min_size_ << 7` wraps to 0 in a 64-bit `size_t`. -/
theorem page_size_times_128_counterexample :
    (Page.new (2 ^ 64 - 1) 1024 (fun _ => 0)).min_size = 2 ^ 57 ∧
    (Page.new (2 ^ 64 - 1) 1024 (fun _ => 0)).size
      ≠ (Page.new (2 ^ 64 - 1) 1024 (fun _ => 0)).min_size * 128 := by
  decide

/-- Sizes and offsets of a page: for every requested page size (a 64-bit `size_t`) the
constructor yields a `min_size_` that is a positive multiple of 32; `size_ = min_size_ * 128`
holds for requests below `2^64 - 3968`; and every non-null pointer returned by
`Page::allocate` in a reachable state is `base_ + idx * min_size_` with `idx < 128`, so that
its offset from `base_` is a multiple of 32. Nothing is said here about `base_` itself. -/
theorem page_min_size_and_pointer_alignment (size mem : Nat) (junk : Int → Int)
    (hsize : size < 2 ^ 64) :
    0 < (Page.new size mem junk).min_size ∧ (Page.new size mem junk).min_size % 32 = 0 ∧
    (size < 2 ^ 64 - 3968 →
      (Page.new size mem junk).size = (Page.new size mem junk).min_size * 128) ∧
    ∀ (s : Page) (live : List (Nat × Nat)), Reach (Page.new size mem junk) s live →
      ∀ (sz ptr : Nat) (s1 : Page), s.allocate sz = (some ptr, s1) →
        ∃ idx, idx < 128 ∧
          ptr = (Page.new size mem junk).base + idx * (Page.new size mem junk).min_size ∧
          (ptr - (Page.new size mem junk).base) % 32 = 0 := by
  have hwf0 := Page.new_wf size mem junk hsize
  refine ⟨hwf0.min_pos, hwf0.min_align, ?_, ?_⟩
  · intro h
    simp only [Page.new, nlevel, align, SIZE_MOD]
    omega
  · intro s live hr sz ptr s1 ha
    obtain ⟨hwf, fl, iss, hc, hlr⟩ := hr.inv (Page.new_inv size mem junk hsize)
    obtain ⟨p, k, rest, -, -, -, -, -, hp128, hptr, -⟩ := allocate_some hwf hc ha
    obtain ⟨hf1, -, hf3⟩ := hr.fields
    refine ⟨p, hp128, by rw [hptr, hf1, hf3], ?_⟩
    rw [hptr, hf3, Nat.add_sub_cancel_left]
    have := hwf.min_align
    exact Nat.mod_eq_zero_of_dvd (Dvd.dvd.mul_left (Nat.dvd_of_mod_eq_zero this) p)

/-- Instance of the preceding theorem: a page of 4096 bytes. -/
theorem page_min_size_and_pointer_alignment_witness :
    0 < (Page.new 4096 1024 (fun _ => 0)).min_size ∧
    (Page.new 4096 1024 (fun _ => 0)).min_size % 32 = 0 ∧
    ((4096 : Nat) < 2 ^ 64 - 3968 →
      (Page.new 4096 1024 (fun _ => 0)).size = (Page.new 4096 1024 (fun _ => 0)).min_size * 128) ∧
    ∀ (s : Page) (live : List (Nat × Nat)), Reach (Page.new 4096 1024 (fun _ => 0)) s live →
      ∀ (sz ptr : Nat) (s1 : Page), s.allocate sz = (some ptr, s1) →
        ∃ idx, idx < 128 ∧
          ptr = (Page.new 4096 1024 (fun _ => 0)).base
            + idx * (Page.new 4096 1024 (fun _ => 0)).min_size ∧
          (ptr - (Page.new 4096 1024 (fun _ => 0)).base) % 32 = 0 :=
  page_min_size_and_pointer_alignment 4096 1024 (fun _ => 0) (by norm_num)

/-- When the requested size does not exceed `size_`, `std::align` succeeds and `base_` is a
multiple of 32. -/
theorem Page.new_base_aligned (size mem : Nat) (junk : Int → Int)
    (h : size ≤ (Page.new size mem junk).size) : (Page.new size mem junk).base % 32 = 0 := by
  simp only [Page.new, std_align, nlevel, align, SIZE_MOD] at h ⊢
  split_ifs with hc
  · omega
  · omega

/-- C8. The pointers of a page are not always aligned to 32 bytes: the constructor passes the
requested `size` to `std::align` instead of `size_` and does not look at the result. For
`Page(4223)` on a buffer at address 1000, `min_size_` is 32 and `size_` is 4096, the buffer
has `space = 4128` bytes, which is less than 4223, so `std::align` fails and leaves the
pointer as it is: `base_ = 1000`, which is 8 modulo 32, although the aligned address 1024
leaves room for the 4096 bytes of the page. `allocate(1)` then returns 1000. -/
theorem page_base_left_unaligned :
    (Page.new 4223 1000 (fun _ => 0)).min_size = 32 ∧
    (Page.new 4223 1000 (fun _ => 0)).size = 4096 ∧
    std_align align 4223 1000 (4096 + align) = 1000 ∧
    std_align align 4096 1000 (4096 + align) = 1024 ∧
    1024 + 4096 ≤ 1000 + (4096 + align) ∧
    (Page.new 4223 1000 (fun _ => 0)).base = 1000 ∧
    (Page.new 4223 1000 (fun _ => 0)).base % 32 = 8 ∧
    ((Page.new 4223 1000 (fun _ => 0)).allocate 1).1 = some 1000 ∧
    (1000 : Nat) % 32 ≠ 0 := by
  decide

end BuddyAlloc

namespace Ssids

theorem children_go_congr {T : Type} {nodes nodes1 : Nat → cpu_node_data T}
    (h : ∀ j, (nodes1 j).next_child = (nodes j).next_child) :
    ∀ (fuel : Nat) (c : Option Nat), children_go nodes1 fuel c = children_go nodes fuel c
  | _, none => by cases ‹Nat› <;> rfl
  | 0, some _ => rfl
  | fuel + 1, some c => by
    simp only [children_go, h c, children_go_congr h fuel]

/-- The children of a node depend on the link fields only. -/
theorem children_congr {T : Type} {nodes nodes1 : Nat → cpu_node_data T}
    (h1 : ∀ j, (nodes1 j).first_child = (nodes j).first_child)
    (h2 : ∀ j, (nodes1 j).next_child = (nodes j).next_child) (nnodes ni : Nat) :
    children nodes1 nnodes ni = children nodes nnodes ni := by
  unfold children
  rw [h1 ni, children_go_congr h2]

theorem foldl_add_eq_sum (f : Nat → Int) : ∀ (cs : List Nat) (a : Int),
    cs.foldl (fun acc c => acc + f c) a = a + (cs.map f).sum
  | [], a => by simp
  | c :: cs, a => by
    simp only [List.foldl_cons, List.map_cons, List.sum_cons]
    rw [foldl_add_eq_sum f cs]
    ring

theorem sum_delays_eq {T : Type} (nodes : Nat → cpu_node_data T) (cs : List Nat) :
    sum_delays nodes cs = (cs.map (fun c => (nodes c).ndelay_out)).sum := by
  unfold sum_delays
  rw [foldl_add_eq_sum (fun c => (nodes c).ndelay_out)]
  simp

theorem SameShape.trans {T : Type} {a b c : cpu_node_data T} (h1 : SameShape a b)
    (h2 : SameShape b c) : SameShape a c :=
  ⟨h1.1.trans h2.1, h1.2.1.trans h2.2.1, h1.2.2.1.trans h2.2.2.1, h1.2.2.2.trans h2.2.2.2⟩

theorem store_front_shape {T : Type} (node : cpu_node_data T) (d : Int) (f : Front T) :
    SameShape (store_front node d f) node ∧ (store_front node d f).ndelay_in = d :=
  ⟨⟨rfl, rfl, rfl, rfl⟩, rfl⟩

theorem factor_node_indef_counts {T : Type} (K : Kernels T) (options : cpu_factor_options T)
    (node : cpu_node_data T) :
    SameShape (factor_node_indef K options node) node ∧
    (factor_node_indef K options node).ndelay_in = node.ndelay_in ∧
    (factor_node_indef K options node).nelim + (factor_node_indef K options node).ndelay_out
      = node.ncol_expected + node.ndelay_in := by
  refine ⟨⟨rfl, rfl, rfl, rfl⟩, rfl, ?_⟩
  simp only [factor_node_indef]
  ring

theorem factor_node_posdef_counts {T : Type} (K : Kernels T) (node : cpu_node_data T) :
    SameShape (factor_node_posdef K node).1 node ∧
    (factor_node_posdef K node).1.ndelay_in = node.ndelay_in ∧
    ((factor_node_posdef K node).2 = none →
      (factor_node_posdef K node).1.nelim = node.ncol_expected ∧
      (factor_node_posdef K node).1.ndelay_out = 0) ∧
    ((K.llt node.nrow_expected node.ncol_expected node.lcol node.nrow_expected).1 = 0 →
      (factor_node_posdef K node).2 = none) := by
  unfold factor_node_posdef
  dsimp only
  split_ifs with h
  · exact ⟨⟨rfl, rfl, rfl, rfl⟩, rfl, fun h1 => (by cases h1), fun h1 => (h h1).elim⟩
  · refine ⟨⟨rfl, rfl, rfl, rfl⟩, rfl, fun _ => ⟨?_, rfl⟩, fun _ => rfl⟩
    dsimp only

theorem calculate_update_counts {T : Type} [Scalar T] (posdef : Bool) (K : Kernels T) (fresh : Fresh T)
    (node : cpu_node_data T) : SameCounts (calculate_update posdef K fresh node) node := by
  simp only [calculate_update]
  split_ifs <;> exact ⟨⟨rfl, rfl, rfl, rfl⟩, rfl, rfl, rfl⟩

theorem fix_diag_counts {T : Type} [Scalar T] (node : cpu_node_data T) : SameCounts (fix_diag node) node :=
  ⟨⟨rfl, rfl, rfl, rfl⟩, rfl, rfl, rfl⟩

theorem fix_diag_all_counts {T : Type} [Scalar T] (nnodes : Nat) (nodes : Nat → cpu_node_data T) (i : Nat) :
    SameCounts (fix_diag_all nnodes nodes i) (nodes i) := by
  unfold fix_diag_all
  split_ifs
  · exact fix_diag_counts _
  · exact ⟨⟨rfl, rfl, rfl, rfl⟩, rfl, rfl, rfl⟩

/-- One round of the main loop re-establishes the state of the sweep for the next node. -/
theorem DoneUpTo.step {T : Type} {posdef : Bool} {nnodes : Nat} {nodes0 cur : Nat → cpu_node_data T}
    {ni : Nat} (hinv : DoneUpTo posdef nnodes nodes0 cur ni)
    (hch : ∀ i, i < nnodes → ∃ cs, children nodes0 nnodes i = some cs ∧ ∀ c ∈ cs, c < i)
    (hni : ni < nnodes) {cs : List Nat} (hcs : children nodes0 nnodes ni = some cs)
    (node : cpu_node_data T) (hshape : SameShape node (cur ni))
    (hin : node.ndelay_in = sum_delays cur cs)
    (hbal : node.nelim + node.ndelay_out = node.ncol_expected + node.ndelay_in)
    (hpd : posdef = true → node.ndelay_out = 0) :
    DoneUpTo posdef nnodes nodes0 (Function.update cur ni node) (ni + 1) := by
  obtain ⟨hs, hd⟩ := hinv
  obtain ⟨cs', hcs', hlt⟩ := hch ni hni
  rw [hcs] at hcs'
  cases hcs'
  constructor
  · intro j
    by_cases hj : j = ni
    · subst hj; rw [Function.update_same]; exact hshape.trans (hs j)
    · rw [Function.update_noteq hj]; exact hs j
  · intro i hi ds hds
    have hmap : ∀ (es : List Nat), (∀ c ∈ es, c < ni) →
        es.map (fun c => (Function.update cur ni node c).ndelay_out)
          = es.map (fun c => (cur c).ndelay_out) := by
      intro es hes
      apply List.map_congr_left
      intro c hc
      rw [Function.update_noteq (by have := hes c hc; omega)]
    by_cases hi' : i = ni
    · subst hi'
      rw [hcs] at hds
      cases hds
      rw [Function.update_same, hmap cs hlt]
      exact ⟨hbal, by rw [hin, sum_delays_eq], hpd⟩
    · have hilt : i < ni := by omega
      obtain ⟨es, hes, heslt⟩ := hch i (by omega)
      rw [hds] at hes
      cases hes
      rw [Function.update_noteq hi', hmap ds (fun c hc => by have := heslt c hc; omega)]
      exact hd i hilt ds hds

end Ssids

namespace Ssids

theorem SameCounts.balance {T : Type} {a b : cpu_node_data T} (h : SameCounts a b)
    (hb : b.nelim + b.ndelay_out = b.ncol_expected + b.ndelay_in) :
    a.nelim + a.ndelay_out = a.ncol_expected + a.ndelay_in := by
  obtain ⟨⟨-, -, h3, -⟩, h4, h5, h6⟩ := h
  rw [h3, h4, h5, h6]; exact hb

/-- The main loop of `factor` terminates when every chain of children ends among earlier
nodes, and keeps the delay counters balanced. -/
theorem factor_loop_spec {T : Type} [Scalar T] (posdef : Bool) (K : Kernels T)
    (options : cpu_factor_options T) (nnodes : Nat) (nodes0 : Nat → cpu_node_data T)
    (aval : Int → T) (scaling : Option (Int → T)) (fresh : Nat → Fresh T)
    (hch : ∀ i, i < nnodes → ∃ cs, children nodes0 nnodes i = some cs ∧ ∀ c ∈ cs, c < i) :
    ∀ (k ni : Nat) (cur : Nat → cpu_node_data T) (map : Int → Int), ni + k = nnodes →
      DoneUpTo posdef nnodes nodes0 cur ni →
      ∃ st cur1 map1,
        factor_loop posdef K options nnodes aval scaling fresh k ni cur map
          = some (st, cur1, map1) ∧
        (posdef = false → st = none) ∧
        ((∀ m n lcol ldl, (K.llt m n lcol ldl).1 = 0) → st = none) ∧
        (st = none → DoneUpTo posdef nnodes nodes0 cur1 nnodes)
  | 0, ni, cur, map, hk, hinv => by
    have : ni = nnodes := by omega
    subst this
    exact ⟨none, cur, map, rfl, fun _ => rfl, fun _ => rfl, fun _ => hinv⟩
  | k + 1, ni, cur, map, hk, hinv => by
    have hni : ni < nnodes := by omega
    obtain ⟨cs, hcs, hlt⟩ := hch ni hni
    have hcur : children cur nnodes ni = some cs := by
      rw [children_congr (fun j => (hinv.1 j).1) (fun j => (hinv.1 j).2.1)]
      exact hcs
    have hasm : assemble_node_cpu posdef nnodes cur ni map aval scaling (fresh ni)
        = some (store_front (cur ni) (sum_delays cur cs)
            (assemble_front_cpu posdef cur ni cs map aval scaling (fresh ni)).1,
          (assemble_front_cpu posdef cur ni cs map aval scaling (fresh ni)).2) := by
      unfold assemble_node_cpu
      rw [hcur]
    obtain ⟨hsf1, hsf2⟩ := store_front_shape (cur ni) (sum_delays cur cs)
      (assemble_front_cpu posdef cur ni cs map aval scaling (fresh ni)).1
    cases posdef with
    | false =>
      obtain ⟨hf1, hf2, hf3⟩ := factor_node_indef_counts K options
        (store_front (cur ni) (sum_delays cur cs)
          (assemble_front_cpu false cur ni cs map aval scaling (fresh ni)).1)
      have hcu := calculate_update_counts false K (fresh ni) (factor_node_indef K options
        (store_front (cur ni) (sum_delays cur cs)
          (assemble_front_cpu false cur ni cs map aval scaling (fresh ni)).1))
      have hstep := hinv.step hch hni hcs (calculate_update false K (fresh ni)
          (factor_node_indef K options (store_front (cur ni) (sum_delays cur cs)
            (assemble_front_cpu false cur ni cs map aval scaling (fresh ni)).1)))
        ((hcu.1.trans hf1).trans hsf1)
        (by rw [hcu.2.1, hf2, hsf2])
        (hcu.balance (by rw [hf3, hf1.2.2.1, hf2]))
        (fun h => (by cases h))
      obtain ⟨st, cur1, map1, he, h1, h2, h3⟩ := factor_loop_spec false K options nnodes nodes0
        aval scaling fresh hch k (ni + 1) _
        (assemble_front_cpu false cur ni cs map aval scaling (fresh ni)).2 (by omega) hstep
      refine ⟨st, cur1, map1, ?_, h1, h2, h3⟩
      simp only [factor_loop, hasm, Bool.false_eq_true, if_false]
      exact he
    | true =>
      obtain ⟨hp1, hp2, hp3, hp4⟩ := factor_node_posdef_counts K
        (store_front (cur ni) (sum_delays cur cs)
          (assemble_front_cpu true cur ni cs map aval scaling (fresh ni)).1)
      cases hex : (factor_node_posdef K (store_front (cur ni) (sum_delays cur cs)
          (assemble_front_cpu true cur ni cs map aval scaling (fresh ni)).1)).2 with
      | some posn =>
        refine ⟨some posn, Function.update cur ni (factor_node_posdef K
            (store_front (cur ni) (sum_delays cur cs)
              (assemble_front_cpu true cur ni cs map aval scaling (fresh ni)).1)).1,
          (assemble_front_cpu true cur ni cs map aval scaling (fresh ni)).2, ?_,
          fun h => (by cases h), fun hllt => ?_, fun h => (by cases h)⟩
        · simp only [factor_loop, hasm, if_true, hex]
        · have := hp4 (hllt _ _ _ _)
          rw [hex] at this
          cases this
      | none =>
        obtain ⟨hn1, hn2⟩ := hp3 hex
        have hcu := calculate_update_counts true K (fresh ni) (factor_node_posdef K
          (store_front (cur ni) (sum_delays cur cs)
            (assemble_front_cpu true cur ni cs map aval scaling (fresh ni)).1)).1
        have hzero : sum_delays cur cs = 0 := by
          rw [sum_delays_eq]
          apply List.sum_eq_zero
          intro x hx
          obtain ⟨c, hc, rfl⟩ := List.mem_map.1 hx
          obtain ⟨ds, hds, -⟩ := hch c (by have := hlt c hc; omega)
          exact (hinv.2 c (hlt c hc) ds hds).2.2 rfl
        have hstep := hinv.step hch hni hcs (calculate_update true K (fresh ni)
            (factor_node_posdef K (store_front (cur ni) (sum_delays cur cs)
              (assemble_front_cpu true cur ni cs map aval scaling (fresh ni)).1)).1)
          ((hcu.1.trans hp1).trans hsf1)
          (by rw [hcu.2.1, hp2, hsf2])
          (hcu.balance (by rw [hn1, hn2, hp1.2.2.1, hp2, hsf2, hzero]))
          (fun _ => by rw [hcu.2.2.1, hn2])
        obtain ⟨st, cur1, map1, he, h1, h2, h3⟩ := factor_loop_spec true K options nnodes nodes0
          aval scaling fresh hch k (ni + 1) _
          (assemble_front_cpu true cur ni cs map aval scaling (fresh ni)).2 (by omega) hstep
        refine ⟨st, cur1, map1, ?_, h1, h2, h3⟩
        simp only [factor_loop, hasm, if_true, hex]
        exact he

/-- C9. Delay conservation over the whole sweep: for every node array in which the chain of
children of each node ends and consists of earlier nodes, `factor` terminates; in indef mode
(for every LDLT kernel) and in posdef mode when every LLT kernel call returns 0 it completes
without exception; and whenever it completes, every node satisfies
`nelim + ndelay_out = ncol_expected + ndelay_in`, where `ndelay_in` is the sum of the
`ndelay_out` of its children. -/
theorem factor_delay_conservation {T : Type} [Scalar T] (posdef : Bool) (K : Kernels T)
    (options : cpu_factor_options T) (nnodes : Nat) (nodes : Nat → cpu_node_data T)
    (aval : Int → T) (scaling : Option (Int → T)) (fresh : Nat → Fresh T)
    (fresh_map : Int → Int)
    (hch : ∀ i, i < nnodes → ∃ cs, children nodes nnodes i = some cs ∧ ∀ c ∈ cs, c < i) :
    ∃ st nodes1,
      factor posdef K options nnodes nodes aval scaling fresh fresh_map = some (st, nodes1) ∧
      (posdef = false → st = none) ∧
      ((∀ m n lcol ldl, (K.llt m n lcol ldl).1 = 0) → st = none) ∧
      (st = none → ∀ i, i < nnodes → ∀ cs, children nodes nnodes i = some cs →
        (nodes1 i).nelim + (nodes1 i).ndelay_out
          = (nodes1 i).ncol_expected + (nodes1 i).ndelay_in ∧
        (nodes1 i).ndelay_in = (cs.map (fun c => (nodes1 c).ndelay_out)).sum) := by
  have h0 : DoneUpTo posdef nnodes nodes nodes 0 :=
    ⟨fun j => ⟨rfl, rfl, rfl, rfl⟩, fun i hi => by omega⟩
  obtain ⟨st, cur1, map1, he, h1, h2, h3⟩ := factor_loop_spec posdef K options nnodes nodes aval
    scaling fresh hch nnodes 0 nodes fresh_map (by omega) h0
  cases st with
  | some posn =>
    refine ⟨some posn, cur1, ?_, h1, h2, fun h => (by cases h)⟩
    unfold factor
    rw [he]
  | none =>
    refine ⟨none, fix_diag_all nnodes cur1, ?_, fun _ => rfl, fun _ => rfl, fun _ => ?_⟩
    · unfold factor
      rw [he]
    · intro i hi cs hcs
      obtain ⟨hb, hs, -⟩ := (h3 rfl).2 i hi cs hcs
      have hc := fix_diag_all_counts nnodes cur1
      refine ⟨(hc i).balance hb, ?_⟩
      rw [(hc i).2.1, hs]
      congr 1
      apply List.map_congr_left
      intro c _
      exact ((hc c).2.2.1).symm

end Ssids

namespace Ssids

/-! ## Counting loops -/

theorem forRange_empty {σ : Type} (lo hi : Int) (body : Int → σ → σ) (init : σ) (h : hi ≤ lo) :
    forRange lo hi body init = init := by
  unfold forRange
  have : (hi - lo).toNat = 0 := by omega
  rw [this]
  rfl

theorem forRange_succ {σ : Type} (lo hi : Int) (body : Int → σ → σ) (init : σ) (h : lo ≤ hi) :
    forRange lo (hi + 1) body init = body hi (forRange lo hi body init) := by
  unfold forRange
  have h1 : (hi + 1 - lo).toNat = (hi - lo).toNat + 1 := by omega
  rw [h1, List.range_succ, List.foldl_append]
  simp only [List.foldl_cons, List.foldl_nil]
  have h2 : lo + (((hi - lo).toNat : Nat) : Int) = hi := by omega
  rw [h2]

/-- Loop invariant rule for a counting loop. -/
theorem forRange_induction {σ : Type} (lo hi : Int) (body : Int → σ → σ) (init : σ)
    (P : Int → σ → Prop) (hlo : lo ≤ hi) (h0 : P lo init)
    (hstep : ∀ i st, lo ≤ i → i < hi → P i st → P (i + 1) (body i st)) :
    P hi (forRange lo hi body init) := by
  have key : ∀ n : Nat, lo + (n : Int) ≤ hi → P (lo + n) (forRange lo (lo + n) body init) := by
    intro n
    induction n with
    | zero =>
      intro _
      rw [forRange_empty lo _ body init (by simp)]
      simpa using h0
    | succ n ih =>
      intro hn
      have hle : lo + (n : Int) ≤ hi := by push_cast at hn; omega
      have e : lo + ((n + 1 : Nat) : Int) = lo + (n : Int) + 1 := by push_cast; ring
      rw [e, forRange_succ lo _ body init (by omega)]
      exact hstep _ _ (by omega) (by push_cast at hn; omega) (ih hle)
  have := key (hi - lo).toNat (by omega)
  have e : lo + (((hi - lo).toNat : Nat) : Int) = hi := by omega
  rw [e] at this
  exact this

/-- A property kept by every round is kept by the loop. -/
theorem forRange_invariant {σ : Type} (lo hi : Int) (body : Int → σ → σ) (init : σ)
    (Q : σ → Prop) (h0 : Q init) (hstep : ∀ i st, lo ≤ i → i < hi → Q st → Q (body i st)) :
    Q (forRange lo hi body init) := by
  by_cases h : lo ≤ hi
  · exact forRange_induction lo hi body init (fun _ st => Q st) h h0 hstep
  · rw [forRange_empty lo hi body init (by omega)]
    exact h0

end Ssids

namespace Ssids

theorem init_front_perm {T : Type} [Scalar T] (posdef : Bool) (node : cpu_node_data T) (d : Int) (fresh : Fresh T) :
    (init_front posdef node d fresh).delay_col = node.ncol_expected ∧
    ∀ x, 0 ≤ x → x < node.ncol_expected →
      (init_front posdef node d fresh).perm x = node.rlist x := by
  refine ⟨rfl, ?_⟩
  simp only [init_front]
  by_cases h : 0 ≤ node.ncol_expected
  · exact forRange_induction 0 node.ncol_expected _ fresh.perm
      (fun i p => ∀ x, 0 ≤ x → x < i → p x = node.rlist x) h
      (fun x h1 h2 => by omega)
      (fun i p _ _ ih x h1 h2 => by
        by_cases hx : x = i
        · subst hx; rw [Function.update_same]
        · rw [Function.update_noteq hx]; exact ih x h1 (by omega))
  · intro x h1 h2
    omega

/-- "Handle delays" for one child appends its delayed columns to `perm` from `delay_col` on. -/
theorem add_delays_perm {T : Type} (child : cpu_node_data T) (map : Int → Int) (nrow ncol : Int)
    (f : Front T) (hd : 0 ≤ child.ndelay_out) :
    (add_delays child map nrow ncol f).delay_col = f.delay_col + child.ndelay_out ∧
    (∀ x, x < f.delay_col → (add_delays child map nrow ncol f).perm x = f.perm x) ∧
    (∀ j, 0 ≤ j → j < child.ndelay_out →
      (add_delays child map nrow ncol f).perm (f.delay_col + j)
        = child.perm (child.nelim + j)) := by
  unfold add_delays
  refine forRange_induction 0 child.ndelay_out _ f
    (fun i g => g.delay_col = f.delay_col + i ∧ (∀ x, x < f.delay_col → g.perm x = f.perm x) ∧
      (∀ j, 0 ≤ j → j < i → g.perm (f.delay_col + j) = child.perm (child.nelim + j)))
    hd ⟨by simp, fun _ _ => rfl, fun j h1 h2 => by omega⟩ ?_
  rintro i g hi1 hi2 ⟨h1, h2, h3⟩
  refine ⟨?_, ?_, ?_⟩
  · show g.delay_col + 1 = f.delay_col + (i + 1)
    omega
  · intro x hx
    show Function.update g.perm g.delay_col _ x = f.perm x
    rw [Function.update_noteq (by omega)]
    exact h2 x hx
  · intro j hj1 hj2
    show Function.update g.perm g.delay_col _ (f.delay_col + j) = _
    by_cases hji : j = i
    · subst hji
      rw [h1, Function.update_same]
    · rw [Function.update_noteq (by omega)]
      exact h3 j hj1 (by omega)

/-- The contribution fold of `assemble.hxx` does not touch `perm` or `delay_col`. -/
theorem add_contrib_hxx_perm {T : Type} [Scalar T] (node child : cpu_node_data T) (map : Int → Int) (nrow ncol : Int)
    (f : Front T) :
    (add_contrib_hxx node child map nrow ncol f).perm = f.perm ∧
    (add_contrib_hxx node child map nrow ncol f).delay_col = f.delay_col := by
  unfold add_contrib_hxx
  split_ifs
  · refine forRange_invariant _ _ _ f (fun g => g.perm = f.perm ∧ g.delay_col = f.delay_col)
      ⟨rfl, rfl⟩ ?_
    intro i g _ _ hg
    dsimp only
    split_ifs
    · exact forRange_invariant _ _ _ g (fun g' => g'.perm = f.perm ∧ g'.delay_col = f.delay_col)
        hg (fun j g' _ _ hg' => hg')
    · exact forRange_invariant _ _ _ g (fun g' => g'.perm = f.perm ∧ g'.delay_col = f.delay_col)
        hg (fun j g' _ _ hg' => hg')
  · exact ⟨rfl, rfl⟩

/-- The contribution fold of `factor_cpu.cxx` does not touch `perm` or `delay_col`. -/
theorem add_contrib_cpu_perm {T : Type} [Scalar T] (node child : cpu_node_data T) (map : Int → Int) (nrow : Int)
    (f : Front T) :
    (add_contrib_cpu node child map nrow f).perm = f.perm ∧
    (add_contrib_cpu node child map nrow f).delay_col = f.delay_col := by
  unfold add_contrib_cpu
  split_ifs
  · refine forRange_invariant _ _ _ f (fun g => g.perm = f.perm ∧ g.delay_col = f.delay_col)
      ⟨rfl, rfl⟩ ?_
    intro i g _ _ hg
    dsimp only
    split_ifs
    · exact forRange_invariant _ _ _ g (fun g' => g'.perm = f.perm ∧ g'.delay_col = f.delay_col)
        hg (fun j g' _ _ hg' => hg')
    · exact forRange_invariant _ _ _ g (fun g' => g'.perm = f.perm ∧ g'.delay_col = f.delay_col)
        hg (fun j g' _ _ hg' => hg')
  · exact ⟨rfl, rfl⟩

theorem sum_delays_nonneg {T : Type} (nodes : Nat → cpu_node_data T) (cs : List Nat)
    (hd : ∀ c ∈ cs, 0 ≤ (nodes c).ndelay_out) : 0 ≤ sum_delays nodes cs := by
  rw [sum_delays_eq]
  apply List.sum_nonneg
  intro x hx
  obtain ⟨c, hc, rfl⟩ := List.mem_map.1 hx
  exact hd c hc

theorem sum_delays_cons {T : Type} (nodes : Nat → cpu_node_data T) (c : Nat) (cs : List Nat) :
    sum_delays nodes (c :: cs) = (nodes c).ndelay_out + sum_delays nodes cs := by
  simp only [sum_delays_eq, List.map_cons, List.sum_cons]

/-- The loop over the children: `perm` receives the delayed columns of the children in list
order, and `delay_col` advances by their number. `step` is the body for one child, of which
only the effect on `perm` and `delay_col` matters. -/
theorem fold_children_perm {T : Type} (nodes : Nat → cpu_node_data T)
    (step : Front T → Nat → Front T)
    (hstep : ∀ f c, 0 ≤ (nodes c).ndelay_out →
      (step f c).delay_col = f.delay_col + (nodes c).ndelay_out ∧
      (∀ x, x < f.delay_col → (step f c).perm x = f.perm x) ∧
      (∀ j, 0 ≤ j → j < (nodes c).ndelay_out →
        (step f c).perm (f.delay_col + j) = (nodes c).perm ((nodes c).nelim + j))) :
    ∀ (cs : List Nat) (f : Front T), (∀ c ∈ cs, 0 ≤ (nodes c).ndelay_out) →
      (cs.foldl step f).delay_col = f.delay_col + sum_delays nodes cs ∧
      (∀ x, x < f.delay_col → (cs.foldl step f).perm x = f.perm x) ∧
      (List.range (sum_delays nodes cs).toNat).map
          (fun (k : Nat) => (cs.foldl step f).perm (f.delay_col + (k : Int)))
        = delayed_perm nodes cs
  | [], f, _ => by
    refine ⟨by simp [sum_delays], fun _ _ => rfl, ?_⟩
    simp [sum_delays, delayed_perm]
  | c :: cs, f, hd => by
    have hc : 0 ≤ (nodes c).ndelay_out := hd c (List.mem_cons_self _ _)
    have hcs : ∀ c' ∈ cs, 0 ≤ (nodes c').ndelay_out :=
      fun c' h => hd c' (List.mem_cons_of_mem _ h)
    obtain ⟨s1, s2, s3⟩ := hstep f c hc
    obtain ⟨i1, i2, i3⟩ := fold_children_perm nodes step hstep cs (step f c) hcs
    have hnn := sum_delays_nonneg nodes cs hcs
    rw [List.foldl_cons, sum_delays_cons]
    refine ⟨by rw [i1, s1]; ring, fun x hx => ?_, ?_⟩
    · rw [i2 x (by omega)]
      exact s2 x hx
    · have hsplit : ((nodes c).ndelay_out + sum_delays nodes cs).toNat
          = (nodes c).ndelay_out.toNat + (sum_delays nodes cs).toNat := by omega
      rw [hsplit, List.range_add, List.map_append, List.map_map]
      rw [delayed_perm]
      congr 1
      · apply List.map_congr_left
        intro k hk
        have hk' := List.mem_range.1 hk
        rw [i2 _ (by omega)]
        exact s3 k (by omega) (by omega)
      · rw [← i3]
        apply List.map_congr_left
        intro k _
        simp only [Function.comp]
        congr 1
        rw [s1]
        push_cast
        omega

end Ssids

namespace Ssids

/-- Instance of C9: a leaf and its parent, indef mode. -/
theorem factor_delay_conservation_witness :
    ∃ st nodes1,
      factor false example_kernels example_options 2 example_nodes (fun _ => 0) none
        (fun _ => example_fresh) (fun _ => 0) = some (st, nodes1) ∧
      (false = false → st = none) ∧
      ((∀ m n lcol ldl, (example_kernels.llt m n lcol ldl).1 = 0) → st = none) ∧
      (st = none → ∀ i, i < 2 → ∀ cs, children example_nodes 2 i = some cs →
        (nodes1 i).nelim + (nodes1 i).ndelay_out
          = (nodes1 i).ncol_expected + (nodes1 i).ndelay_in ∧
        (nodes1 i).ndelay_in = (cs.map (fun c => (nodes1 c).ndelay_out)).sum) :=
  factor_delay_conservation false example_kernels example_options 2 example_nodes (fun _ => 0)
    none (fun _ => example_fresh) (fun _ => 0)
    (fun i hi => by
      interval_cases i
      · exact ⟨[], rfl, by simp⟩
      · exact ⟨[0], rfl, by simp⟩)

/-- C10. After `assemble_node` (of `assemble.hxx`) on a node whose chain of children ends and
whose children have non-negative `ndelay_out`, all `ncol = ncol_expected + ndelay_in` entries
of `perm` are set: `perm[i] = rlist[i]` for `i < ncol_expected`, and `perm[ncol_expected ..]`
is the concatenation, over the children in list order, of
`child.perm[child.nelim .. child.nelim + child.ndelay_out)`; the running `delay_col` ends
equal to `ncol`. -/
theorem assemble_node_perm {T : Type} [Scalar T] (posdef : Bool) (nnodes : Nat)
    (nodes : Nat → cpu_node_data T) (ni : Nat) (map : Int → Int) (aval : Int → T)
    (scaling : Option (Int → T)) (fresh : Fresh T) (cs : List Nat)
    (hcs : children nodes nnodes ni = some cs)
    (hd : ∀ c ∈ cs, 0 ≤ (nodes c).ndelay_out) :
    ∃ node1 map1,
      assemble_node_hxx posdef nnodes nodes ni map aval scaling fresh = some (node1, map1) ∧
      node1.ndelay_in = sum_delays nodes cs ∧
      (∀ i, 0 ≤ i → i < (nodes ni).ncol_expected → node1.perm i = (nodes ni).rlist i) ∧
      (List.range node1.ndelay_in.toNat).map
          (fun (k : Nat) => node1.perm ((nodes ni).ncol_expected + (k : Int)))
        = delayed_perm nodes cs ∧
      (assemble_front_hxx posdef nodes ni cs map aval scaling fresh).1.delay_col
        = (nodes ni).ncol_expected + node1.ndelay_in := by
  refine ⟨_, _, by unfold assemble_node_hxx; rw [hcs], rfl, ?_⟩
  show (∀ i, 0 ≤ i → i < (nodes ni).ncol_expected →
      (assemble_front_hxx posdef nodes ni cs map aval scaling fresh).1.perm i
        = (nodes ni).rlist i) ∧
    (List.range (sum_delays nodes cs).toNat).map
        (fun (k : Nat) => (assemble_front_hxx posdef nodes ni cs map aval scaling fresh).1.perm
          ((nodes ni).ncol_expected + (k : Int)))
      = delayed_perm nodes cs ∧
    (assemble_front_hxx posdef nodes ni cs map aval scaling fresh).1.delay_col
      = (nodes ni).ncol_expected + sum_delays nodes cs
  obtain ⟨hi1, hi2⟩ := init_front_perm posdef (nodes ni) (sum_delays nodes cs) fresh
  -- the front after "Add A" and the body of the loop over the children
  obtain ⟨f1, hf1⟩ : ∃ f1 : Front T, f1 =
      { init_front posdef (nodes ni) (sum_delays nodes cs) fresh with
        lcol := add_a_hxx (nodes ni) (sum_delays nodes cs)
          ((nodes ni).nrow_expected + sum_delays nodes cs) aval scaling
          (init_front posdef (nodes ni) (sum_delays nodes cs) fresh).lcol } := ⟨_, rfl⟩
  obtain ⟨step, hstepdef⟩ : ∃ step : Front T → Nat → Front T, step =
      fun f c => add_contrib_hxx (nodes ni) (nodes c)
        (build_map (nodes ni) (sum_delays nodes cs) map)
        ((nodes ni).nrow_expected + sum_delays nodes cs)
        ((nodes ni).ncol_expected + sum_delays nodes cs)
        (add_delays (nodes c) (build_map (nodes ni) (sum_delays nodes cs) map)
          ((nodes ni).nrow_expected + sum_delays nodes cs)
          ((nodes ni).ncol_expected + sum_delays nodes cs) f) := ⟨_, rfl⟩
  have hf1d : f1.delay_col = (nodes ni).ncol_expected := by rw [hf1]; exact hi1
  have hf1p : f1.perm = (init_front posdef (nodes ni) (sum_delays nodes cs) fresh).perm := by
    rw [hf1]
  have hfront : (assemble_front_hxx posdef nodes ni cs map aval scaling fresh).1
      = cs.foldl step f1 := by
    rw [hf1, hstepdef]
    simp only [assemble_front_hxx]
    split_ifs with hfc
    · rfl
    · have hnone : (nodes ni).first_child = none := by
        cases h : (nodes ni).first_child with
        | none => rfl
        | some c => rw [h] at hfc; simp at hfc
      have hgo : children_go nodes nnodes none = some [] := by cases nnodes <;> rfl
      have : cs = [] := by
        unfold children at hcs
        rw [hnone, hgo] at hcs
        exact (Option.some.inj hcs).symm
      subst this
      rfl
  obtain ⟨g1, g2, g3⟩ := fold_children_perm nodes step
    (fun f c hc => by
      obtain ⟨a1, a2, a3⟩ := add_delays_perm (nodes c)
        (build_map (nodes ni) (sum_delays nodes cs) map)
        ((nodes ni).nrow_expected + sum_delays nodes cs)
        ((nodes ni).ncol_expected + sum_delays nodes cs) f hc
      obtain ⟨b1, b2⟩ := add_contrib_hxx_perm (nodes ni) (nodes c)
        (build_map (nodes ni) (sum_delays nodes cs) map)
        ((nodes ni).nrow_expected + sum_delays nodes cs)
        ((nodes ni).ncol_expected + sum_delays nodes cs)
        (add_delays (nodes c) (build_map (nodes ni) (sum_delays nodes cs) map)
          ((nodes ni).nrow_expected + sum_delays nodes cs)
          ((nodes ni).ncol_expected + sum_delays nodes cs) f)
      rw [hstepdef]
      dsimp only
      rw [b1, b2]
      exact ⟨a1, a2, a3⟩)
    cs f1 hd
  rw [hfront]
  rw [hf1d] at g1 g2 g3
  refine ⟨fun i h1 h2 => ?_, g3, g1⟩
  rw [g2 i h2, hf1p]
  exact hi2 i h1 h2

/-- Instance of C10: the parent of `example_nodes` receives the delayed column of the leaf. -/
theorem assemble_node_perm_witness :
    ∃ node1 map1,
      assemble_node_hxx false 2 example_nodes 1 (fun _ => 0) (fun _ => 0) none example_fresh
        = some (node1, map1) ∧
      node1.ndelay_in = sum_delays example_nodes [0] ∧
      (∀ i, 0 ≤ i → i < (example_nodes 1).ncol_expected →
        node1.perm i = (example_nodes 1).rlist i) ∧
      (List.range node1.ndelay_in.toNat).map
          (fun (k : Nat) => node1.perm ((example_nodes 1).ncol_expected + (k : Int)))
        = delayed_perm example_nodes [0] ∧
      (assemble_front_hxx false example_nodes 1 [0] (fun _ => 0) (fun _ => 0) none
          example_fresh).1.delay_col
        = (example_nodes 1).ncol_expected + node1.ndelay_in :=
  assemble_node_perm false 2 example_nodes 1 (fun _ => 0) (fun _ => 0) none example_fresh [0]
    rfl (by decide)

end Ssids
namespace Ssids

theorem add_a_cpu_eq {T : Type} [Scalar T] (node : cpu_node_data T) (ndelay_in nrow : Int)
    (aval : Int → T) (scaling : Option (Int → T)) (lcol : Int → T) :
    add_a_cpu node ndelay_in nrow aval scaling lcol
      = forRange 0 node.num_a (fun i l =>
          Function.update l (a_index_cpu node ndelay_in nrow (node.amap (2 * i + 1) - 1))
            (a_value_cpu node ndelay_in aval scaling (node.amap (2 * i + 0) - 1)
              (node.amap (2 * i + 1) - 1))) lcol := by
  cases scaling <;> rfl

theorem add_a_hxx_eq {T : Type} [Scalar T] (node : cpu_node_data T) (ndelay_in nrow : Int)
    (aval : Int → T) (scaling : Option (Int → T)) (lcol : Int → T) :
    add_a_hxx node ndelay_in nrow aval scaling lcol
      = forRange 0 node.num_a (fun i l =>
          Function.update l (a_index_hxx node ndelay_in nrow (node.amap (2 * i + 1) - 1))
            (a_value_hxx node aval scaling (node.amap (2 * i + 0) - 1)
              (node.amap (2 * i + 1) - 1))) lcol := by
  cases scaling <;> rfl

/-- A loop of stores `l[key i] = val i`: every position holds its initial value or the value
of the last round that stored there. -/
theorem forRange_update_cases {α : Type} (lo hi : Int) (key : Int → Int) (val : Int → α)
    (init : Int → α) (x : Int) :
    (forRange lo hi (fun i l => Function.update l (key i) (val i)) init x = init x ∧
        ∀ i, lo ≤ i → i < hi → key i ≠ x) ∨
    ∃ i, lo ≤ i ∧ i < hi ∧ key i = x ∧
      forRange lo hi (fun i l => Function.update l (key i) (val i)) init x = val i ∧
      ∀ j, i < j → j < hi → key j ≠ x := by
  by_cases hle : lo ≤ hi
  · refine forRange_induction lo hi (fun i l => Function.update l (key i) (val i)) init
      (fun n st => (st x = init x ∧ ∀ i, lo ≤ i → i < n → key i ≠ x) ∨
        ∃ i, lo ≤ i ∧ i < n ∧ key i = x ∧ st x = val i ∧ ∀ j, i < j → j < n → key j ≠ x)
      hle (Or.inl ⟨rfl, fun i h1 h2 => by omega⟩) ?_
    intro i st h1 h2 ih
    by_cases hk : key i = x
    · right
      refine ⟨i, h1, by omega, hk, ?_, fun j hj1 hj2 => by omega⟩
      show Function.update st (key i) (val i) x = val i
      rw [← hk, Function.update_same]
    · have hupd : Function.update st (key i) (val i) x = st x :=
        Function.update_noteq (Ne.symm hk) _ _
      simp only [hupd]
      rcases ih with ⟨e, hn⟩ | ⟨i0, a1, a2, a3, a4, a5⟩
      · left
        refine ⟨e, fun j hj1 hj2 => ?_⟩
        by_cases hji : j = i
        · subst hji; exact hk
        · exact hn j hj1 (by omega)
      · right
        refine ⟨i0, a1, by omega, a3, a4, fun j hj1 hj2 => ?_⟩
        by_cases hji : j = i
        · subst hji; exact hk
        · exact a5 j hj1 (by omega)
  · left
    rw [forRange_empty lo hi _ init (by omega)]
    exact ⟨rfl, fun i h1 h2 => by omega⟩

/-- With pairwise distinct keys every store survives. -/
theorem forRange_update_inj {α : Type} (lo hi : Int) (key : Int → Int) (val : Int → α)
    (init : Int → α)
    (hinj : ∀ i j, lo ≤ i → i < hi → lo ≤ j → j < hi → key i = key j → i = j)
    (i : Int) (h1 : lo ≤ i) (h2 : i < hi) :
    forRange lo hi (fun i l => Function.update l (key i) (val i)) init (key i) = val i := by
  rcases forRange_update_cases lo hi key val init (key i) with ⟨-, hn⟩ | ⟨j, a1, a2, a3, a4, -⟩
  · exact absurd rfl (hn i h1 h2)
  · rw [a4, hinj j i a1 a2 h1 h2 a3]

theorem forRange_update_other {α : Type} (lo hi : Int) (key : Int → Int) (val : Int → α)
    (init : Int → α) (x : Int) (hx : ∀ i, lo ≤ i → i < hi → key i ≠ x) :
    forRange lo hi (fun i l => Function.update l (key i) (val i)) init x = init x := by
  rcases forRange_update_cases lo hi key val init x with ⟨e, -⟩ | ⟨j, a1, a2, a3, -, -⟩
  · exact e
  · exact absurd a3 (hx j a1 a2)

theorem a_index_cpu_zero {T : Type} (node : cpu_node_data T) (dest : Int) :
    a_index_cpu node 0 (node.nrow_expected + 0) dest = dest := by
  simp only [a_index_cpu, add_zero, ite_self]
  rw [mul_comm]
  exact Int.tdiv_add_tmod dest node.nrow_expected

theorem a_index_hxx_zero {T : Type} (node : cpu_node_data T) (dest : Int) :
    a_index_hxx node 0 (node.nrow_expected + 0) dest = dest := by
  simp only [a_index_hxx, add_zero, ite_self]
  rw [mul_comm]
  exact Int.tdiv_add_tmod dest node.nrow_expected

end Ssids
namespace Ssids

/-- Column and shifted row determine the position in a column-major array. -/
theorem colmajor_inj (N c c1 r r1 : Int) (hr : 0 ≤ r) (hrN : r < N) (hr1 : 0 ≤ r1)
    (hr1N : r1 < N) (h : c * N + r = c1 * N + r1) : c = c1 ∧ r = r1 := by
  have hc : c = c1 := by
    rcases lt_trichotomy c c1 with hlt | heq | hgt
    · have h1 : (c + 1) * N ≤ c1 * N := mul_le_mul_of_nonneg_right (by omega) (by omega)
      have h2 : (c + 1) * N = c * N + N := by ring
      omega
    · exact heq
    · have h1 : (c1 + 1) * N ≤ c * N := mul_le_mul_of_nonneg_right (by omega) (by omega)
      have h2 : (c1 + 1) * N = c1 * N + N := by ring
      omega
  subst hc
  exact ⟨rfl, by omega⟩

end Ssids

namespace Ssids

theorem children_leaf {T : Type} (nodes : Nat → cpu_node_data T) (nnodes ni : Nat)
    (h : (nodes ni).first_child = none) : children nodes nnodes ni = some [] := by
  unfold children
  rw [h]
  cases nnodes <;> rfl

theorem add_a_cpu_none_zero {T : Type} [Scalar T] (node : cpu_node_data T) (aval : Int → T)
    (lcol : Int → T) :
    add_a_cpu node 0 (node.nrow_expected + 0) aval none lcol
      = forRange 0 node.num_a (fun i l =>
          Function.update l (node.amap (2 * i + 1) - 1) (aval (node.amap (2 * i + 0) - 1)))
          lcol := by
  rw [add_a_cpu_eq]
  simp only [a_index_cpu_zero]
  rfl

theorem add_a_hxx_none_zero {T : Type} [Scalar T] (node : cpu_node_data T) (aval : Int → T)
    (lcol : Int → T) :
    add_a_hxx node 0 (node.nrow_expected + 0) aval none lcol
      = forRange 0 node.num_a (fun i l =>
          Function.update l (node.amap (2 * i + 1) - 1) (aval (node.amap (2 * i + 0) - 1)))
          lcol := by
  rw [add_a_hxx_eq]
  simp only [a_index_hxx_zero]
  rfl

/-- C11. Single-node assembly: for a node with no children and an `amap` whose 1-based
destinations are pairwise distinct and lie in `[1, nrow_expected*ncol_expected]`, both variants
of `assemble_node`, called without scaling, return the same node; it has `ndelay_in = 0`,
`lcol[dest-1] = aval[src-1]` for every `amap` pair (inside the allocated `lcol`), every other
element of `lcol` (the `D` rows of indef mode included) is zero, and the contribution block is
entirely zero. -/
theorem single_node_assembly {T : Type} [Scalar T] (posdef : Bool) (nnodes : Nat)
    (nodes : Nat → cpu_node_data T) (ni : Nat) (map : Int → Int) (aval : Int → T)
    (fresh : Fresh T)
    (hleaf : (nodes ni).first_child = none)
    (hcol : 0 ≤ (nodes ni).ncol_expected)
    (hrange : ∀ i, 0 ≤ i → i < (nodes ni).num_a →
      1 ≤ (nodes ni).amap (2 * i + 1) ∧
      (nodes ni).amap (2 * i + 1) ≤ (nodes ni).nrow_expected * (nodes ni).ncol_expected)
    (hinj : ∀ i j, 0 ≤ i → i < (nodes ni).num_a → 0 ≤ j → j < (nodes ni).num_a →
      (nodes ni).amap (2 * i + 1) = (nodes ni).amap (2 * j + 1) → i = j) :
    ∃ node1,
      assemble_node_cpu posdef nnodes nodes ni map aval none fresh = some (node1, map) ∧
      assemble_node_hxx posdef nnodes nodes ni map aval none fresh = some (node1, map) ∧
      node1.ndelay_in = 0 ∧
      (∀ i, 0 ≤ i → i < (nodes ni).num_a →
        0 ≤ (nodes ni).amap (2 * i + 1) - 1 ∧
        (nodes ni).amap (2 * i + 1) - 1 <
          (if posdef then (nodes ni).nrow_expected * (nodes ni).ncol_expected
           else ((nodes ni).nrow_expected + 2) * (nodes ni).ncol_expected) ∧
        node1.lcol ((nodes ni).amap (2 * i + 1) - 1) = aval ((nodes ni).amap (2 * i + 0) - 1)) ∧
      (∀ k, 0 ≤ k →
        k < (if posdef then (nodes ni).nrow_expected * (nodes ni).ncol_expected
             else ((nodes ni).nrow_expected + 2) * (nodes ni).ncol_expected) →
        (∀ i, 0 ≤ i → i < (nodes ni).num_a → (nodes ni).amap (2 * i + 1) - 1 ≠ k) →
        node1.lcol k = 0) ∧
      (0 < (nodes ni).nrow_expected - (nodes ni).ncol_expected → node1.contrib.isSome = true) ∧
      (∀ a, node1.contrib = some a → ∀ k, 0 ≤ k →
        k < ((nodes ni).nrow_expected - (nodes ni).ncol_expected)
            * ((nodes ni).nrow_expected - (nodes ni).ncol_expected) → a k = 0) := by
  have hcs := children_leaf nodes nnodes ni hleaf
  have hsd : sum_delays nodes ([] : List Nat) = 0 := rfl
  have hlen : ∀ x, x < (nodes ni).nrow_expected * (nodes ni).ncol_expected →
      x < (if posdef then (nodes ni).nrow_expected * (nodes ni).ncol_expected
           else ((nodes ni).nrow_expected + 2) * (nodes ni).ncol_expected) := by
    intro x hx
    split_ifs
    · exact hx
    · nlinarith
  have hinj' : ∀ i j, 0 ≤ i → i < (nodes ni).num_a → 0 ≤ j → j < (nodes ni).num_a →
      (nodes ni).amap (2 * i + 1) - 1 = (nodes ni).amap (2 * j + 1) - 1 → i = j :=
    fun i j a b c d e => hinj i j a b c d (by omega)
  refine ⟨store_front (nodes ni) 0
    { init_front posdef (nodes ni) 0 fresh with
      lcol := forRange 0 (nodes ni).num_a (fun i l =>
          Function.update l ((nodes ni).amap (2 * i + 1) - 1)
            (aval ((nodes ni).amap (2 * i + 0) - 1)))
          (init_front posdef (nodes ni) 0 fresh).lcol }, ?_, ?_, rfl, ?_, ?_, ?_, ?_⟩
  · simp only [assemble_node_cpu, hcs, assemble_front_cpu, hsd, hleaf, Option.isSome_none,
      Bool.false_eq_true, if_false, add_a_cpu_none_zero]
  · simp only [assemble_node_hxx, hcs, assemble_front_hxx, hsd, hleaf, Option.isSome_none,
      Bool.false_eq_true, if_false, add_a_hxx_none_zero]
  · intro i h1 h2
    obtain ⟨r1, r2⟩ := hrange i h1 h2
    refine ⟨by omega, hlen _ (by omega), ?_⟩
    exact forRange_update_inj 0 (nodes ni).num_a (fun i => (nodes ni).amap (2 * i + 1) - 1)
      (fun i => aval ((nodes ni).amap (2 * i + 0) - 1)) _ hinj' i h1 h2
  · intro k h1 h2 h3
    have := forRange_update_other 0 (nodes ni).num_a (fun i => (nodes ni).amap (2 * i + 1) - 1)
      (fun i => aval ((nodes ni).amap (2 * i + 0) - 1))
      (init_front posdef (nodes ni) 0 fresh).lcol k h3
    refine this.trans ?_
    simp only [init_front, add_zero]
    rw [if_pos ⟨h1, h2⟩]
  · intro h
    simp only [store_front, init_front]
    rw [if_pos (by omega)]
    rfl
  · intro a ha k h1 h2
    simp only [store_front, init_front] at ha
    split_ifs at ha with hd
    · cases ha
      simp only
      rw [if_pos ⟨h1, h2⟩]

/-- Instance of C11: the leaf `example_single`, indef mode. -/
theorem single_node_assembly_witness :
    ∃ node1,
      assemble_node_cpu false 1 example_single 0 (fun _ => 0) example_aval none
        example_fresh = some (node1, fun _ => 0) ∧
      assemble_node_hxx false 1 example_single 0 (fun _ => 0) example_aval none
        example_fresh = some (node1, fun _ => 0) ∧
      node1.ndelay_in = 0 ∧
      (∀ i, 0 ≤ i → i < (example_single 0).num_a →
        0 ≤ (example_single 0).amap (2 * i + 1) - 1 ∧
        (example_single 0).amap (2 * i + 1) - 1 <
          (if false = true then (example_single 0).nrow_expected * (example_single 0).ncol_expected
           else ((example_single 0).nrow_expected + 2) * (example_single 0).ncol_expected) ∧
        node1.lcol ((example_single 0).amap (2 * i + 1) - 1)
          = example_aval ((example_single 0).amap (2 * i + 0) - 1)) ∧
      (∀ k, 0 ≤ k →
        k < (if false = true then (example_single 0).nrow_expected * (example_single 0).ncol_expected
             else ((example_single 0).nrow_expected + 2) * (example_single 0).ncol_expected) →
        (∀ i, 0 ≤ i → i < (example_single 0).num_a → (example_single 0).amap (2 * i + 1) - 1 ≠ k) →
        node1.lcol k = 0) ∧
      (0 < (example_single 0).nrow_expected - (example_single 0).ncol_expected →
        node1.contrib.isSome = true) ∧
      (∀ a, node1.contrib = some a → ∀ k, 0 ≤ k →
        k < ((example_single 0).nrow_expected - (example_single 0).ncol_expected)
            * ((example_single 0).nrow_expected - (example_single 0).ncol_expected) → a k = 0) :=
  single_node_assembly false 1 example_single 0 (fun _ => 0) example_aval example_fresh
    rfl (by decide)
    (fun i h1 h2 => by
      change i < 2 at h2
      have h : i = 0 ∨ i = 1 := by omega
      rcases h with rfl | rfl <;> decide)
    (fun i j h1 h2 h3 h4 h => by
      change i < 2 at h2
      change j < 2 at h4
      have hi : i = 0 ∨ i = 1 := by omega
      have hj : j = 0 ∨ j = 1 := by omega
      rcases hi with rfl | rfl <;> rcases hj with rfl | rfl <;> first | rfl | (exact absurd h (by decide)))

end Ssids

namespace Ssids

end Ssids

namespace Ssids

theorem Dbl.num_mul_num (x y : ℚ) : Dbl.num x * Dbl.num y = Dbl.num (x * y) := rfl

theorem Dbl.num_add_num (x y : ℚ) : Dbl.num x + Dbl.num y = Dbl.num (x + y) := rfl

theorem Dbl.zero_eq : (0 : Dbl) = Dbl.num 0 := rfl

/-- C13 at a failing input. A parent with `ncol_expected = 1`, `nrow_expected = 3`, row list
`[2, 3, 4]` and one delayed column from its child; the entry of `A` with 0-based destination 1
(`c = 0`, `r = 1`) and value 1, scale factors 2, 3, 5, 7. The claim gives
`scaling[rlist[1]-1] * 1 * scaling[rlist[0]-1] = 5 * 1 * 3 = 15`, which `assemble.hxx` stores
at `k = 2`; `factor_cpu.cxx` stores `scaling[rlist[2]-1] * 1 * scaling[rlist[0]-1] = 21`. -/
theorem add_a_scaling_reads_shifted_row :
    a_index_cpu example_parent13 1 4 1 = 2 ∧
    example_scaling13 (example_parent13.rlist 1 - 1) * Dbl.num 1
      * example_scaling13 (example_parent13.rlist 0 - 1) = Dbl.num 15 ∧
    (assemble_node_hxx false 2 example_nodes13 1 (fun _ => 0) (fun _ => Dbl.num 1)
      (some example_scaling13) example_fresh).map (fun r => r.1.lcol 2) = some (Dbl.num 15) ∧
    (assemble_node_cpu false 2 example_nodes13 1 (fun _ => 0) (fun _ => Dbl.num 1)
      (some example_scaling13) example_fresh).map (fun r => r.1.lcol 2) = some (Dbl.num 21) := by
  have h1 : (assemble_node_hxx false 2 example_nodes13 1 (fun _ => 0) (fun _ => Dbl.num 1)
      (some example_scaling13) example_fresh).map (fun r => r.1.lcol 2)
      = some (Dbl.num 5 * Dbl.num 1 * Dbl.num 3) := by rfl
  have h2 : (assemble_node_cpu false 2 example_nodes13 1 (fun _ => 0) (fun _ => Dbl.num 1)
      (some example_scaling13) example_fresh).map (fun r => r.1.lcol 2)
      = some (Dbl.num 7 * Dbl.num 1 * Dbl.num 3) := by rfl
  have h3 : example_scaling13 (example_parent13.rlist 1 - 1) * Dbl.num 1
      * example_scaling13 (example_parent13.rlist 0 - 1)
      = Dbl.num 5 * Dbl.num 1 * Dbl.num 3 := by rfl
  refine ⟨by decide, ?_, ?_, ?_⟩
  · rw [h3, Dbl.num_mul_num, Dbl.num_mul_num]; norm_num
  · rw [h1, Dbl.num_mul_num, Dbl.num_mul_num]; norm_num
  · rw [h2, Dbl.num_mul_num, Dbl.num_mul_num]; norm_num

/-- C15 at a failing input. A parent with `ncol_expected = 1`, `nrow_expected = 2` (so
`ldd = 1` and a contribution block of one element) that receives one delayed column
(`ncol = 2`), and a child whose contribution entry 5 belongs to the parent's row variable 4
(`c = r = map[4] = 2`). `assemble.hxx` adds it at linear index `(c-ncol)*ldd + (r-ncol) = 0`;
`factor_cpu.cxx` adds it at `(c-ncol_expected)*ldd + (r-ncol_expected) = 2`, outside
`[0, ldd*ldd)`, and leaves the element 0 of the block at zero. -/
theorem add_contrib_index_uses_ncol_expected :
    (assemble_node_hxx false 2 example_nodes15 1 (fun _ => 0) (fun _ => Dbl.num 1) none
      example_fresh).map (fun r => r.1.contrib.map (fun a => a 0)) = some (some (Dbl.num 5)) ∧
    (assemble_node_cpu false 2 example_nodes15 1 (fun _ => 0) (fun _ => Dbl.num 1) none
      example_fresh).map (fun r => r.1.contrib.map (fun a => (a 0, a 2)))
      = some (some (Dbl.num 0, Dbl.num 5)) ∧
    ¬ ((2 : Int) < (example_parent15.nrow_expected - example_parent15.ncol_expected)
        * (example_parent15.nrow_expected - example_parent15.ncol_expected)) := by
  have h1 : (assemble_node_hxx false 2 example_nodes15 1 (fun _ => 0) (fun _ => Dbl.num 1) none
      example_fresh).map (fun r => r.1.contrib.map (fun a => a 0))
      = some (some (Dbl.num 0 + Dbl.num 5)) := by rfl
  have h2 : (assemble_node_cpu false 2 example_nodes15 1 (fun _ => 0) (fun _ => Dbl.num 1) none
      example_fresh).map (fun r => r.1.contrib.map (fun a => (a 0, a 2)))
      = some (some (Dbl.num 0, Dbl.num 0 + Dbl.num 5)) := by rfl
  refine ⟨?_, ?_, by decide⟩
  · rw [h1, Dbl.num_add_num]; norm_num
  · rw [h2, Dbl.num_add_num]; norm_num

/-- C16 at a failing input. A child with `nelim = 0` (its one column was delayed) whose
contribution block holds the entry 5 for the row variable 2, which is the parent's
fully-summed column. `assemble.hxx` adds the entry to the parent's `lcol[0]`;
`factor_cpu.cxx` skips the block because `child->nelim > 0` is false, and `lcol[0]` stays 0.
The state arises in the driver: in the sweep over the chain `example_chain16` the middle front
receives the entry 5 from the leaf, delays its column, and the root never receives the
entry. -/
theorem add_contrib_skipped_without_eliminations :
    example_child16.nelim = 0 ∧ example_child16.contrib.isSome = true ∧
    (assemble_node_hxx false 2 example_nodes16 1 (fun _ => 0) (fun _ => Dbl.num 1) none
      example_fresh).map (fun r => r.1.lcol 0) = some (Dbl.num 5) ∧
    (assemble_node_cpu false 2 example_nodes16 1 (fun _ => 0) (fun _ => Dbl.num 1) none
      example_fresh).map (fun r => r.1.lcol 0) = some (Dbl.num 0) ∧
    (factor false example_kernels16 example_options 3 example_chain16 (fun _ => 0) none
      (fun _ => example_fresh) (fun _ => 0)).map
      (fun r => ((r.2 1).nelim, (r.2 1).ndelay_out, (r.2 1).contrib.map (fun a => a 0),
        (r.2 2).lcol 0))
      = some (0, 1, some (Dbl.num 5), Dbl.num 0) := by
  have h1 : (assemble_node_hxx false 2 example_nodes16 1 (fun _ => 0) (fun _ => Dbl.num 1) none
      example_fresh).map (fun r => r.1.lcol 0) = some (Dbl.num 0 + Dbl.num 5) := by rfl
  have h2 : (assemble_node_cpu false 2 example_nodes16 1 (fun _ => 0) (fun _ => Dbl.num 1) none
      example_fresh).map (fun r => r.1.lcol 0) = some (Dbl.num 0) := by rfl
  have h3 : (factor false example_kernels16 example_options 3 example_chain16 (fun _ => 0) none
      (fun _ => example_fresh) (fun _ => 0)).map
      (fun r => ((r.2 1).nelim, (r.2 1).ndelay_out, (r.2 1).contrib.map (fun a => a 0),
        (r.2 2).lcol 0))
      = some (0, 1, some (Dbl.num 0 + Dbl.num 5), Dbl.num 0) := by rfl
  refine ⟨rfl, rfl, ?_, h2, ?_⟩
  · rw [h1, Dbl.num_add_num]; norm_num
  · rw [h3, Dbl.num_add_num]; norm_num

end Ssids

namespace Ssids

/-- A loop seen through a projection `g` that commutes with every round. -/
theorem forRange_sim {σ τ : Type} (lo hi : Int) (body : Int → σ → σ) (body1 : Int → τ → τ)
    (g : σ → τ) (init : σ)
    (h : ∀ i st, lo ≤ i → i < hi → g (body i st) = body1 i (g st)) :
    g (forRange lo hi body init) = forRange lo hi body1 (g init) := by
  by_cases hle : lo ≤ hi
  · refine forRange_induction lo hi body init
      (fun n st => g st = forRange lo n body1 (g init)) hle ?_ ?_
    · show g init = forRange lo lo body1 (g init)
      rw [forRange_empty lo lo body1 (g init) (le_refl _)]
    · intro i st h1 h2 ih
      show g (body i st) = forRange lo (i + 1) body1 (g init)
      rw [forRange_succ lo i body1 (g init) h1, ← ih]
      exact h i st h1 h2
  · rw [forRange_empty lo hi body init (by omega), forRange_empty lo hi body1 (g init) (by omega)]

/-- The lookup vector at a row variable of the node: the position of that variable in
`rlist`, shifted by `ndelay_in` when it is not fully summed. -/
theorem build_map_range {T : Type} [Scalar T] (node : cpu_node_data T) (d : Int)
    (map : Int → Int) (h0 : 0 ≤ node.ncol_expected)
    (h1 : node.ncol_expected ≤ node.nrow_expected) (p : Int) (hp0 : 0 ≤ p)
    (hp1 : p < node.nrow_expected) :
    ∃ p1, 0 ≤ p1 ∧ p1 < node.nrow_expected ∧ node.rlist p1 = node.rlist p ∧
      build_map node d map (node.rlist p)
        = p1 + (if p1 ≥ node.ncol_expected then d else 0) := by
  simp only [build_map]
  rcases forRange_update_cases node.ncol_expected node.nrow_expected node.rlist
      (fun i => i + d)
      (forRange 0 node.ncol_expected (fun i m => Function.update m (node.rlist i) i) map)
      (node.rlist p) with ⟨e, hn⟩ | ⟨i, a1, a2, a3, a4, -⟩
  · rcases forRange_update_cases 0 node.ncol_expected node.rlist (fun i => i) map
        (node.rlist p) with ⟨-, hn1⟩ | ⟨i, b1, b2, b3, b4, -⟩
    · by_cases hp : p < node.ncol_expected
      · exact absurd rfl (hn1 p hp0 hp)
      · exact absurd rfl (hn p (by omega) hp1)
    · refine ⟨i, b1, by omega, b3, ?_⟩
      rw [e, b4, if_neg (by omega), add_zero]
  · refine ⟨i, by omega, a2, a3, ?_⟩
    rw [a4, if_pos (by omega)]

end Ssids
namespace Ssids

theorem lcol_add_get {T : Type} [Scalar T] (f : Front T) (idx k : Int) (v : T) :
    (lcol_add f idx v).lcol k = if idx = k then f.lcol k + v else f.lcol k := by
  unfold lcol_add
  dsimp only
  by_cases h : idx = k
  · subst h
    rw [Function.update_same, if_pos rfl]
  · rw [Function.update_noteq (Ne.symm h), if_neg h]

end Ssids
namespace Ssids

end Ssids
namespace Ssids

end Ssids
namespace Ssids

end Ssids

namespace Ssids

end Ssids

namespace Ssids

/-- One round of the main loop, unfolded. -/
theorem factor_loop_succ {T : Type} [Scalar T] (posdef : Bool) (K : Kernels T)
    (options : cpu_factor_options T) (nnodes : Nat) (aval : Int → T)
    (scaling : Option (Int → T)) (fresh : Nat → Fresh T) (k ni : Nat)
    (nodes : Nat → cpu_node_data T) (map : Int → Int) :
    factor_loop posdef K options nnodes aval scaling fresh (k + 1) ni nodes map
      = match assemble_node_cpu posdef nnodes nodes ni map aval scaling (fresh ni) with
        | none => none
        | some a =>
          if posdef then
            match (factor_node_posdef K a.1).2 with
            | some posn => some (some posn, Function.update nodes ni (factor_node_posdef K a.1).1,
                a.2)
            | none =>
              factor_loop posdef K options nnodes aval scaling fresh k (ni + 1)
                (Function.update nodes ni
                  (calculate_update posdef K (fresh ni) (factor_node_posdef K a.1).1)) a.2
          else
            factor_loop posdef K options nnodes aval scaling fresh k (ni + 1)
              (Function.update nodes ni
                (calculate_update posdef K (fresh ni) (factor_node_indef K options a.1))) a.2 :=
  rfl

/-- The main loop over `i + k` nodes is the loop over `i` nodes followed, when no exception
was thrown, by the loop over the next `k` nodes. -/
theorem factor_loop_append {T : Type} [Scalar T] (posdef : Bool) (K : Kernels T)
    (options : cpu_factor_options T) (nnodes : Nat) (aval : Int → T)
    (scaling : Option (Int → T)) (fresh : Nat → Fresh T) (k : Nat) :
    ∀ (i ni : Nat) (nodes : Nat → cpu_node_data T) (map : Int → Int),
      factor_loop posdef K options nnodes aval scaling fresh (i + k) ni nodes map
        = match factor_loop posdef K options nnodes aval scaling fresh i ni nodes map with
          | none => none
          | some r =>
            match r.1 with
            | some posn => some (some posn, r.2)
            | none =>
              factor_loop posdef K options nnodes aval scaling fresh k (ni + i) r.2.1 r.2.2
  | 0, ni, nodes, map => by
    simp only [Nat.zero_add, factor_loop, Nat.add_zero]
  | i + 1, ni, nodes, map => by
    have e : i + 1 + k = (i + k) + 1 := by omega
    rw [e, factor_loop_succ, factor_loop_succ]
    cases hasm : assemble_node_cpu posdef nnodes nodes ni map aval scaling (fresh ni) with
    | none => rfl
    | some a =>
      dsimp only
      cases posdef with
      | false =>
        simp only [Bool.false_eq_true, if_false]
        rw [factor_loop_append false K options nnodes aval scaling fresh k i]
        have e2 : ni + 1 + i = ni + (i + 1) := by omega
        rw [e2]
      | true =>
        simp only [if_true]
        cases hp : (factor_node_posdef K a.1).2 with
        | some posn => rfl
        | none =>
          dsimp only
          rw [factor_loop_append true K options nnodes aval scaling fresh k i]
          have e2 : ni + 1 + i = ni + (i + 1) := by omega
          rw [e2]

/-- The main loop writes only the nodes it visits. -/
theorem factor_loop_frame {T : Type} [Scalar T] (posdef : Bool) (K : Kernels T)
    (options : cpu_factor_options T) (nnodes : Nat) (aval : Int → T)
    (scaling : Option (Int → T)) (fresh : Nat → Fresh T) :
    ∀ (k ni : Nat) (nodes : Nat → cpu_node_data T) (map : Int → Int)
      (r : Option Int × (Nat → cpu_node_data T) × (Int → Int)),
      factor_loop posdef K options nnodes aval scaling fresh k ni nodes map = some r →
      ∀ j, (j < ni ∨ ni + k ≤ j) → r.2.1 j = nodes j
  | 0, ni, nodes, map, r, h, j, _ => by
    simp only [factor_loop] at h
    cases h
    rfl
  | k + 1, ni, nodes, map, r, h, j, hj => by
    rw [factor_loop_succ] at h
    cases hasm : assemble_node_cpu posdef nnodes nodes ni map aval scaling (fresh ni) with
    | none => rw [hasm] at h; cases h
    | some a =>
      rw [hasm] at h
      dsimp only at h
      have hne : j ≠ ni := by omega
      cases posdef with
      | false =>
        simp only [Bool.false_eq_true, if_false] at h
        rw [factor_loop_frame false K options nnodes aval scaling fresh k (ni + 1) _ _ r h j
          (by omega), Function.update_noteq hne]
      | true =>
        simp only [if_true] at h
        cases hp : (factor_node_posdef K a.1).2 with
        | some posn =>
          rw [hp] at h
          cases h
          exact Function.update_noteq hne _ _
        | none =>
          rw [hp] at h
          dsimp only at h
          rw [factor_loop_frame true K options nnodes aval scaling fresh k (ni + 1) _ _ r h j
            (by omega), Function.update_noteq hne]

end Ssids
namespace Ssids

/-- `factor_node_posdef` when the kernel reports a column: `nelim` holds the column, the
exception carries it, `ndelay_out` is not written. -/
theorem factor_node_posdef_fail {T : Type} [Scalar T] (K : Kernels T) (node : cpu_node_data T)
    (hf : (K.llt node.nrow_expected node.ncol_expected node.lcol node.nrow_expected).1 ≠ 0) :
    factor_node_posdef K node
      = ({ node with
            lcol := (K.llt node.nrow_expected node.ncol_expected node.lcol
              node.nrow_expected).2
            nelim := (K.llt node.nrow_expected node.ncol_expected node.lcol
              node.nrow_expected).1 },
         some (K.llt node.nrow_expected node.ncol_expected node.lcol node.nrow_expected).1) := by
  unfold factor_node_posdef
  dsimp only
  rw [if_pos hf, if_pos hf]

theorem factor_node_posdef_some {T : Type} [Scalar T] (K : Kernels T) (node : cpu_node_data T)
    (p : Int) (h : (factor_node_posdef K node).2 = some p) :
    (K.llt node.nrow_expected node.ncol_expected node.lcol node.nrow_expected).1 ≠ 0 := by
  intro h0
  have := (factor_node_posdef_counts K node).2.2.2 h0
  rw [this] at h
  cases h

/-- The sweep that reaches node `ni + i` without exception and whose LLT kernel reports a
column there stops with the state of that moment. -/
theorem factor_loop_fail_at {T : Type} [Scalar T] (K : Kernels T)
    (options : cpu_factor_options T) (nnodes : Nat) (aval : Int → T)
    (scaling : Option (Int → T)) (fresh : Nat → Fresh T) (i k ni : Nat)
    (nodes cur : Nat → cpu_node_data T) (map mp : Int → Int)
    (a : cpu_node_data T × (Int → Int))
    (hpre : factor_loop true K options nnodes aval scaling fresh i ni nodes map
      = some (none, cur, mp))
    (hasm : assemble_node_cpu true nnodes cur (ni + i) mp aval scaling (fresh (ni + i)) = some a)
    (hf : (K.llt a.1.nrow_expected a.1.ncol_expected a.1.lcol a.1.nrow_expected).1 ≠ 0) :
    factor_loop true K options nnodes aval scaling fresh (i + (k + 1)) ni nodes map
      = some (some (K.llt a.1.nrow_expected a.1.ncol_expected a.1.lcol a.1.nrow_expected).1,
          Function.update cur (ni + i)
            { a.1 with
              lcol := (K.llt a.1.nrow_expected a.1.ncol_expected a.1.lcol a.1.nrow_expected).2
              nelim := (K.llt a.1.nrow_expected a.1.ncol_expected a.1.lcol
                a.1.nrow_expected).1 },
          a.2) := by
  rw [factor_loop_append, hpre]
  dsimp only
  rw [factor_loop_succ, hasm]
  dsimp only
  rw [if_pos rfl, factor_node_posdef_fail K a.1 hf]

/-- A sweep that ends with an exception reached some node without exception, and the LLT
kernel reported a column there. -/
theorem factor_loop_fail_exists {T : Type} [Scalar T] (K : Kernels T)
    (options : cpu_factor_options T) (nnodes : Nat) (aval : Int → T)
    (scaling : Option (Int → T)) (fresh : Nat → Fresh T) :
    ∀ (k ni : Nat) (nodes : Nat → cpu_node_data T) (map : Int → Int) (p : Int)
      (cur1 : Nat → cpu_node_data T) (map1 : Int → Int),
      factor_loop true K options nnodes aval scaling fresh k ni nodes map
        = some (some p, cur1, map1) →
      ∃ i, i < k ∧ ∃ cur mp a,
        factor_loop true K options nnodes aval scaling fresh i ni nodes map
          = some (none, cur, mp) ∧
        assemble_node_cpu true nnodes cur (ni + i) mp aval scaling (fresh (ni + i)) = some a ∧
        (K.llt a.1.nrow_expected a.1.ncol_expected a.1.lcol a.1.nrow_expected).1 ≠ 0
  | 0, ni, nodes, map, p, cur1, map1, h => by
    simp only [factor_loop] at h
    cases h
  | k + 1, ni, nodes, map, p, cur1, map1, h => by
    rw [factor_loop_succ] at h
    cases hasm : assemble_node_cpu true nnodes nodes ni map aval scaling (fresh ni) with
    | none => rw [hasm] at h; cases h
    | some a =>
      rw [hasm] at h
      dsimp only at h
      rw [if_pos rfl] at h
      cases hp : (factor_node_posdef K a.1).2 with
      | some posn =>
        exact ⟨0, by omega, nodes, map, a, rfl, hasm, factor_node_posdef_some K a.1 posn hp⟩
      | none =>
        rw [hp] at h
        dsimp only at h
        obtain ⟨i, hi, cur, mp, a1, h1, h2, h3⟩ := factor_loop_fail_exists K options nnodes aval
          scaling fresh k (ni + 1) _ _ p cur1 map1 h
        have e : ni + 1 + i = ni + (i + 1) := by omega
        rw [e] at h2
        refine ⟨i + 1, by omega, cur, mp, a1, ?_, h2, h3⟩
        rw [factor_loop_succ, hasm]
        dsimp only
        rw [if_pos rfl, hp]
        exact h1

end Ssids

namespace Ssids

/-- C17. `spral_ssids_factor_cpu_dbl` reports the status exactly: for every node array in
which the chain of children of each node ends and consists of earlier nodes, it returns;
`stats->flag` is `0` or `-6`; it is `0` exactly when the sweep completes, which is always the
case in indef mode and in posdef mode when the LLT kernel returns 0; and it is `-6`
(`SSIDS_ERROR_NOT_POS_DEF`) if and only if `posdef` is true and the sweep reaches some node
whose LLT kernel returns a nonzero column. -/
theorem factor_cpu_status_flag {T : Type} [Scalar T] (posdef : Bool) (K : Kernels T)
    (options : cpu_factor_options T) (nnodes : Nat) (nodes : Nat → cpu_node_data T)
    (aval : Int → T) (scaling : Option (Int → T)) (fresh : Nat → Fresh T)
    (fresh_map : Int → Int)
    (hch : ∀ i, i < nnodes → ∃ cs, children nodes nnodes i = some cs ∧ ∀ c ∈ cs, c < i) :
    ∃ stats nodes1,
      spral_ssids_factor_cpu_dbl posdef K options nnodes nodes aval scaling fresh fresh_map
        = some (stats, nodes1) ∧
      (stats.flag = SSIDS_SUCCESS ∨ stats.flag = SSIDS_ERROR_NOT_POS_DEF) ∧
      (stats.flag = SSIDS_SUCCESS ↔
        factor posdef K options nnodes nodes aval scaling fresh fresh_map
          = some (none, nodes1)) ∧
      (posdef = false → stats.flag = SSIDS_SUCCESS) ∧
      ((∀ m n lcol ldl, (K.llt m n lcol ldl).1 = 0) → stats.flag = SSIDS_SUCCESS) ∧
      (stats.flag = SSIDS_ERROR_NOT_POS_DEF ↔
        posdef = true ∧ ∃ i, i < nnodes ∧ ∃ cur mp a,
          factor_loop posdef K options nnodes aval scaling fresh i 0 nodes fresh_map
            = some (none, cur, mp) ∧
          assemble_node_cpu posdef nnodes cur i mp aval scaling (fresh i) = some a ∧
          (K.llt a.1.nrow_expected a.1.ncol_expected a.1.lcol a.1.nrow_expected).1 ≠ 0) := by
  have h0 : DoneUpTo posdef nnodes nodes nodes 0 :=
    ⟨fun j => ⟨rfl, rfl, rfl, rfl⟩, fun i hi => by omega⟩
  obtain ⟨st, cur1, map1, he, h1, h2, -⟩ := factor_loop_spec posdef K options nnodes nodes aval
    scaling fresh hch nnodes 0 nodes fresh_map (by omega) h0
  have hne : SSIDS_SUCCESS ≠ SSIDS_ERROR_NOT_POS_DEF := by decide
  cases st with
  | none =>
    have hf : factor posdef K options nnodes nodes aval scaling fresh fresh_map
        = some (none, fix_diag_all nnodes cur1) := by
      unfold factor
      rw [he]
    refine ⟨{ flag := SSIDS_SUCCESS }, fix_diag_all nnodes cur1, ?_, Or.inl rfl,
      ⟨fun _ => hf, fun _ => rfl⟩, fun _ => rfl, fun _ => rfl, ⟨fun h => absurd h hne, ?_⟩⟩
    · unfold spral_ssids_factor_cpu_dbl
      cases posdef <;> simp only [hf, if_true, Bool.false_eq_true, if_false]
    · rintro ⟨hp, i, hi, cur, mp, a, g1, g2, g3⟩
      subst hp
      have e : nnodes = i + ((nnodes - i - 1) + 1) := by omega
      have g2' : assemble_node_cpu true nnodes cur (0 + i) mp aval scaling (fresh (0 + i))
          = some a := by rw [Nat.zero_add]; exact g2
      have := factor_loop_fail_at K options nnodes aval scaling fresh i (nnodes - i - 1) 0
        nodes cur fresh_map mp a g1 g2' g3
      rw [← e, he] at this
      cases this
  | some p =>
    have hpd : posdef = true := by
      cases posdef with
      | true => rfl
      | false => exact absurd (h1 rfl) (by simp)
    subst hpd
    have hf : factor true K options nnodes nodes aval scaling fresh fresh_map
        = some (some p, cur1) := by
      unfold factor
      rw [he]
    refine ⟨{ flag := SSIDS_ERROR_NOT_POS_DEF }, cur1, ?_, Or.inr rfl,
      ⟨fun h => absurd h.symm hne, fun h => ?_⟩, fun h => (by cases h),
      fun h => absurd (h2 h) (by simp), ⟨fun _ => ⟨rfl, ?_⟩, fun _ => rfl⟩⟩
    · unfold spral_ssids_factor_cpu_dbl
      simp only [hf, if_true]
    · rw [hf] at h
      cases h
    · obtain ⟨i, hi, cur, mp, a, g1, g2, g3⟩ := factor_loop_fail_exists K options nnodes aval
        scaling fresh nnodes 0 nodes fresh_map p cur1 map1 he
      rw [Nat.zero_add] at g2
      exact ⟨i, hi, cur, mp, a, g1, g2, g3⟩

/-- Instance of C17: a leaf and its parent, indef mode. -/
theorem factor_cpu_status_flag_witness :
    ∃ stats nodes1,
      spral_ssids_factor_cpu_dbl false example_kernels example_options 2 example_nodes
        (fun _ => 0) none (fun _ => example_fresh) (fun _ => 0) = some (stats, nodes1) ∧
      (stats.flag = SSIDS_SUCCESS ∨ stats.flag = SSIDS_ERROR_NOT_POS_DEF) ∧
      (stats.flag = SSIDS_SUCCESS ↔
        factor false example_kernels example_options 2 example_nodes (fun _ => 0) none
          (fun _ => example_fresh) (fun _ => 0) = some (none, nodes1)) ∧
      (false = false → stats.flag = SSIDS_SUCCESS) ∧
      ((∀ m n lcol ldl, (example_kernels.llt m n lcol ldl).1 = 0) →
        stats.flag = SSIDS_SUCCESS) ∧
      (stats.flag = SSIDS_ERROR_NOT_POS_DEF ↔
        false = true ∧ ∃ i, i < 2 ∧ ∃ cur mp a,
          factor_loop false example_kernels example_options 2 (fun _ => 0) none
            (fun _ => example_fresh) i 0 example_nodes (fun _ => 0) = some (none, cur, mp) ∧
          assemble_node_cpu false 2 cur i mp (fun _ => 0) none ((fun _ => example_fresh) i)
            = some a ∧
          (example_kernels.llt a.1.nrow_expected a.1.ncol_expected a.1.lcol
            a.1.nrow_expected).1 ≠ 0) :=
  factor_cpu_status_flag false example_kernels example_options 2 example_nodes (fun _ => 0)
    none (fun _ => example_fresh) (fun _ => 0)
    (fun i hi => by
      interval_cases i
      · exact ⟨[], rfl, by simp⟩
      · exact ⟨[0], rfl, by simp⟩)

end Ssids
namespace Ssids

/-- C19. A not-positive-definite failure cancels the remaining sweep: if in posdef mode the
sweep reaches node `i` without exception (`cur` is the state of the nodes at that moment) and
the LLT kernel reports a column at node `i`, then `factor` ends with the exception and the
nodes are: every node after `i` as on entry (not assembled, factorized or updated); node `i`
as `factor_node_posdef` left it, that is the assembled node with the `lcol` of the kernel and
`nelim` set to the column, its contribution block as assembled (`calculate_update` is not
run); every node before `i` as the main loop left it (the diagonal post-pass is not run). The
wrapper returns the same nodes with the flag `-6`. -/
theorem posdef_failure_cancels_sweep {T : Type} [Scalar T] (K : Kernels T)
    (options : cpu_factor_options T) (nnodes : Nat) (nodes : Nat → cpu_node_data T)
    (aval : Int → T) (scaling : Option (Int → T)) (fresh : Nat → Fresh T)
    (fresh_map : Int → Int) (i : Nat) (hi : i < nnodes) (cur : Nat → cpu_node_data T)
    (mp : Int → Int) (a : cpu_node_data T × (Int → Int))
    (hpre : factor_loop true K options nnodes aval scaling fresh i 0 nodes fresh_map
      = some (none, cur, mp))
    (hasm : assemble_node_cpu true nnodes cur i mp aval scaling (fresh i) = some a)
    (hf : (K.llt a.1.nrow_expected a.1.ncol_expected a.1.lcol a.1.nrow_expected).1 ≠ 0) :
    ∃ nodes1,
      factor true K options nnodes nodes aval scaling fresh fresh_map
        = some (some (K.llt a.1.nrow_expected a.1.ncol_expected a.1.lcol
            a.1.nrow_expected).1, nodes1) ∧
      spral_ssids_factor_cpu_dbl true K options nnodes nodes aval scaling fresh fresh_map
        = some ({ flag := SSIDS_ERROR_NOT_POS_DEF }, nodes1) ∧
      (∀ j, i < j → nodes1 j = nodes j) ∧
      nodes1 i = { a.1 with
        lcol := (K.llt a.1.nrow_expected a.1.ncol_expected a.1.lcol a.1.nrow_expected).2
        nelim := (K.llt a.1.nrow_expected a.1.ncol_expected a.1.lcol a.1.nrow_expected).1 } ∧
      (nodes1 i).contrib = a.1.contrib ∧
      (∀ j, j < i → nodes1 j = cur j) := by
  have e : nnodes = i + ((nnodes - i - 1) + 1) := by omega
  have hasm' : assemble_node_cpu true nnodes cur (0 + i) mp aval scaling (fresh (0 + i))
      = some a := by rw [Nat.zero_add]; exact hasm
  have hl := factor_loop_fail_at K options nnodes aval scaling fresh i (nnodes - i - 1) 0
    nodes cur fresh_map mp a hpre hasm' hf
  rw [← e, Nat.zero_add] at hl
  have hfac : factor true K options nnodes nodes aval scaling fresh fresh_map
      = some (some (K.llt a.1.nrow_expected a.1.ncol_expected a.1.lcol a.1.nrow_expected).1,
          Function.update cur i
            { a.1 with
              lcol := (K.llt a.1.nrow_expected a.1.ncol_expected a.1.lcol a.1.nrow_expected).2
              nelim := (K.llt a.1.nrow_expected a.1.ncol_expected a.1.lcol
                a.1.nrow_expected).1 }) := by
    unfold factor
    rw [hl]
  refine ⟨_, hfac, ?_, ?_, ?_, ?_, ?_⟩
  · unfold spral_ssids_factor_cpu_dbl
    simp only [hfac, if_true]
  · intro j hj
    rw [Function.update_noteq (by omega)]
    exact factor_loop_frame true K options nnodes aval scaling fresh i 0 nodes fresh_map _
      hpre j (Or.inr (by omega))
  · rw [Function.update_same]
  · rw [Function.update_same]
  · intro j hj
    rw [Function.update_noteq (by omega)]

/-- Instance of C19: two fronts of the matrix `[[4, 2], [2, -5]]`, the LLT kernel reports
column 2 at the first of them. -/
theorem posdef_failure_cancels_sweep_witness :
    ∃ nodes1,
      factor true (example_kernels_fail 2) example_options 2 (fun _ => example_spd_node)
          example_spd_aval none (fun _ => example_fresh) (fun _ => 0)
        = some (some 2, nodes1) ∧
      spral_ssids_factor_cpu_dbl true (example_kernels_fail 2) example_options 2
          (fun _ => example_spd_node) example_spd_aval none (fun _ => example_fresh)
          (fun _ => 0)
        = some ({ flag := SSIDS_ERROR_NOT_POS_DEF }, nodes1) ∧
      (∀ j, 0 < j → nodes1 j = example_spd_node) ∧
      nodes1 0 = { store_front example_spd_node 0
          (assemble_front_cpu true (fun _ => example_spd_node) 0 [] (fun _ => 0)
            example_spd_aval none example_fresh).1 with
        lcol := (assemble_front_cpu true (fun _ => example_spd_node) 0 [] (fun _ => 0)
            example_spd_aval none example_fresh).1.lcol
        nelim := 2 } ∧
      (nodes1 0).contrib = none ∧
      (∀ j, j < 0 → nodes1 j = example_spd_node) :=
  posdef_failure_cancels_sweep (example_kernels_fail 2) example_options 2
    (fun _ => example_spd_node) example_spd_aval none (fun _ => example_fresh) (fun _ => 0)
    0 (by decide) (fun _ => example_spd_node) (fun _ => 0)
    (store_front example_spd_node 0
      (assemble_front_cpu true (fun _ => example_spd_node) 0 [] (fun _ => 0)
        example_spd_aval none example_fresh).1, fun _ => 0)
    rfl rfl (by decide)

/-- C18 as stated fails: for the front of the matrix `[[4, 2], [2, -5]]` in posdef mode, when
the LLT kernel reports column 2 (and likewise when it reports column 1) the exception that
leaves `factor` carries the column, and the statistics record that the wrapper returns is the
same record `flag = -6` in both runs: it has no field for the column. -/
theorem stats_record_drops_column :
    (factor true (example_kernels_fail 2) example_options 1 (fun _ => example_spd_node)
      example_spd_aval none (fun _ => example_fresh) (fun _ => 0)).map (fun r => r.1)
      = some (some 2) ∧
    (factor true (example_kernels_fail 1) example_options 1 (fun _ => example_spd_node)
      example_spd_aval none (fun _ => example_fresh) (fun _ => 0)).map (fun r => r.1)
      = some (some 1) ∧
    (spral_ssids_factor_cpu_dbl true (example_kernels_fail 2) example_options 1
      (fun _ => example_spd_node) example_spd_aval none (fun _ => example_fresh)
      (fun _ => 0)).map (fun r => r.1) = some { flag := SSIDS_ERROR_NOT_POS_DEF } ∧
    (spral_ssids_factor_cpu_dbl true (example_kernels_fail 1) example_options 1
      (fun _ => example_spd_node) example_spd_aval none (fun _ => example_fresh)
      (fun _ => 0)).map (fun r => r.1) = some { flag := SSIDS_ERROR_NOT_POS_DEF } :=
  ⟨rfl, rfl, rfl, rfl⟩

/-- C18 (amended). When the posdef sweep fails because the LLT kernel of node `i` reports a
non-positive diagonal at column `k`, the statistics record that `spral_ssids_factor_cpu_dbl`
returns carries the failure status `SSIDS_ERROR_NOT_POS_DEF = -6` in its only field `flag`
(two records with the same flag are equal); the column `k` is carried by the
`NotPosDefError` that leaves `factor`, and is left in `nelim` of the failing node in the
node array that the caller sees. -/
theorem posdef_failure_flag_and_column {T : Type} [Scalar T] (K : Kernels T)
    (options : cpu_factor_options T) (nnodes : Nat) (nodes : Nat → cpu_node_data T)
    (aval : Int → T) (scaling : Option (Int → T)) (fresh : Nat → Fresh T)
    (fresh_map : Int → Int) (i : Nat) (hi : i < nnodes) (cur : Nat → cpu_node_data T)
    (mp : Int → Int) (a : cpu_node_data T × (Int → Int))
    (hpre : factor_loop true K options nnodes aval scaling fresh i 0 nodes fresh_map
      = some (none, cur, mp))
    (hasm : assemble_node_cpu true nnodes cur i mp aval scaling (fresh i) = some a)
    (hf : (K.llt a.1.nrow_expected a.1.ncol_expected a.1.lcol a.1.nrow_expected).1 ≠ 0) :
    ∃ stats nodes1,
      spral_ssids_factor_cpu_dbl true K options nnodes nodes aval scaling fresh fresh_map
        = some (stats, nodes1) ∧
      stats.flag = SSIDS_ERROR_NOT_POS_DEF ∧
      (∀ other : cpu_factor_stats, other.flag = stats.flag → other = stats) ∧
      factor true K options nnodes nodes aval scaling fresh fresh_map
        = some (some (K.llt a.1.nrow_expected a.1.ncol_expected a.1.lcol
            a.1.nrow_expected).1, nodes1) ∧
      (nodes1 i).nelim
        = (K.llt a.1.nrow_expected a.1.ncol_expected a.1.lcol a.1.nrow_expected).1 := by
  have e : nnodes = i + ((nnodes - i - 1) + 1) := by omega
  have hasm1 : assemble_node_cpu true nnodes cur (0 + i) mp aval scaling (fresh (0 + i))
      = some a := by rw [Nat.zero_add]; exact hasm
  have hl := factor_loop_fail_at K options nnodes aval scaling fresh i (nnodes - i - 1) 0
    nodes cur fresh_map mp a hpre hasm1 hf
  rw [← e, Nat.zero_add] at hl
  have hfac : factor true K options nnodes nodes aval scaling fresh fresh_map
      = some (some (K.llt a.1.nrow_expected a.1.ncol_expected a.1.lcol a.1.nrow_expected).1,
          Function.update cur i
            { a.1 with
              lcol := (K.llt a.1.nrow_expected a.1.ncol_expected a.1.lcol a.1.nrow_expected).2
              nelim := (K.llt a.1.nrow_expected a.1.ncol_expected a.1.lcol
                a.1.nrow_expected).1 }) := by
    unfold factor
    rw [hl]
  refine ⟨{ flag := SSIDS_ERROR_NOT_POS_DEF }, _, ?_, rfl, ?_, hfac, ?_⟩
  · unfold spral_ssids_factor_cpu_dbl
    simp only [hfac, if_true]
  · intro other ho
    cases other
    simp only at ho
    rw [ho]
  · rw [Function.update_same]

/-- Instance of C18 (amended): the front of the matrix `[[4, 2], [2, -5]]`, the LLT kernel
reports column 2. -/
theorem posdef_failure_flag_and_column_witness :
    ∃ stats nodes1,
      spral_ssids_factor_cpu_dbl true (example_kernels_fail 2) example_options 1
          (fun _ => example_spd_node) example_spd_aval none (fun _ => example_fresh)
          (fun _ => 0) = some (stats, nodes1) ∧
      stats.flag = SSIDS_ERROR_NOT_POS_DEF ∧
      (∀ other : cpu_factor_stats, other.flag = stats.flag → other = stats) ∧
      factor true (example_kernels_fail 2) example_options 1 (fun _ => example_spd_node)
          example_spd_aval none (fun _ => example_fresh) (fun _ => 0)
        = some (some 2, nodes1) ∧
      (nodes1 0).nelim = 2 :=
  posdef_failure_flag_and_column (example_kernels_fail 2) example_options 1
    (fun _ => example_spd_node) example_spd_aval none (fun _ => example_fresh) (fun _ => 0)
    0 (by decide) (fun _ => example_spd_node) (fun _ => 0)
    (store_front example_spd_node 0
      (assemble_front_cpu true (fun _ => example_spd_node) 0 [] (fun _ => 0)
        example_spd_aval none example_fresh).1, fun _ => 0)
    rfl rfl (by decide)

end Ssids

namespace Ssids

/-- The rewrite loop of the post-pass, slot by slot: a slot that holds infinity receives the
content of the next slot, every other slot and everything outside `[0, 2*nelim)` is kept. -/
theorem fix_diag_slots {T : Type} [Scalar T] (node : cpu_node_data T) :
    (∀ i, 0 ≤ i → i < 2 * node.nelim →
      (fix_diag node).lcol
          ((node.nrow_expected + node.ndelay_in) * (node.ncol_expected + node.ndelay_in) + i)
        = if node.lcol ((node.nrow_expected + node.ndelay_in)
              * (node.ncol_expected + node.ndelay_in) + i) = Scalar.infinity
          then node.lcol ((node.nrow_expected + node.ndelay_in)
              * (node.ncol_expected + node.ndelay_in) + (i + 1))
          else node.lcol ((node.nrow_expected + node.ndelay_in)
              * (node.ncol_expected + node.ndelay_in) + i)) ∧
    ∀ x, (x < (node.nrow_expected + node.ndelay_in) * (node.ncol_expected + node.ndelay_in) ∨
        (node.nrow_expected + node.ndelay_in) * (node.ncol_expected + node.ndelay_in)
          + 2 * node.nelim ≤ x) →
      (fix_diag node).lcol x = node.lcol x := by
  simp only [fix_diag]
  generalize (node.nrow_expected + node.ndelay_in) * (node.ncol_expected + node.ndelay_in)
    = off
  by_cases hle : 0 ≤ 2 * node.nelim
  · have key := forRange_induction 0 (2 * node.nelim)
      (fun i l =>
        if l (off + i) = Scalar.infinity then Function.update l (off + i) (l (off + i + 1))
        else l) node.lcol
      (fun n l =>
        (∀ i, 0 ≤ i → i < n →
          l (off + i) = if node.lcol (off + i) = Scalar.infinity then node.lcol (off + (i + 1))
            else node.lcol (off + i)) ∧
        ∀ x, (x < off ∨ off + n ≤ x) → l x = node.lcol x)
      hle ⟨fun i h1 h2 => by omega, fun x _ => rfl⟩ ?_
    · exact key
    · intro n l hn0 hn1 ih
      obtain ⟨ih1, ih2⟩ := ih
      have e0 : l (off + n) = node.lcol (off + n) := ih2 _ (Or.inr (le_refl _))
      have e1 : l (off + n + 1) = node.lcol (off + (n + 1)) := by
        rw [ih2 _ (Or.inr (by omega)), add_assoc]
      dsimp only
      rw [e0, e1]
      by_cases hinf : node.lcol (off + n) = Scalar.infinity
      · rw [if_pos hinf]
        constructor
        · intro i h1 h2
          by_cases hin : i = n
          · subst hin
            rw [Function.update_same, if_pos hinf]
          · rw [Function.update_noteq (by omega)]
            exact ih1 i h1 (by omega)
        · intro x hx
          rw [Function.update_noteq (by omega)]
          exact ih2 x (by omega)
      · rw [if_neg hinf]
        constructor
        · intro i h1 h2
          by_cases hin : i = n
          · subst hin
            rw [e0, if_neg hinf]
          · exact ih1 i h1 (by omega)
        · intro x hx
          exact ih2 x (by omega)
  · rw [forRange_empty 0 (2 * node.nelim) _ node.lcol (by omega)]
    exact ⟨fun i h1 h2 => by omega, fun x _ => rfl⟩

end Ssids

namespace Ssids

/-- C20. Diagonal post-pass of `factor` in indef mode: let `cur` be the nodes as the main loop
leaves them and let the `D` rows of node `ni` (the slots from `lcol[nrow*ncol]` on) hold an
encoding of its `nelim` accepted pivots in which the columns `k` with `pair k` start the 2x2
pivots. Then `factor` completes, and in its result, for every 2x2 pivot at column `k`, slot
`[2k+2]` holds `d22` (the former slot `[2k+3]`) and the slots `[2k]`, `[2k+1]`, `[2k+3]` are
unchanged; both slots of every 1x1 pivot are unchanged; and no slot in `[0, 2*nelim)` holds
the infinity sentinel. -/
theorem diag_post_pass_rewrites_sentinels {T : Type} [Scalar T] (K : Kernels T)
    (options : cpu_factor_options T) (nnodes : Nat) (nodes : Nat → cpu_node_data T)
    (aval : Int → T) (scaling : Option (Int → T)) (fresh : Nat → Fresh T)
    (fresh_map : Int → Int) (cur : Nat → cpu_node_data T) (mp : Int → Int)
    (hloop : factor_loop false K options nnodes aval scaling fresh nnodes 0 nodes fresh_map
      = some (none, cur, mp))
    (ni : Nat) (hni : ni < nnodes) (pair : Int → Prop)
    (henc : DiagEncoding
      (fun i => (cur ni).lcol (((cur ni).nrow_expected + (cur ni).ndelay_in)
        * ((cur ni).ncol_expected + (cur ni).ndelay_in) + i))
      (cur ni).nelim pair) :
    ∃ nodes1,
      factor false K options nnodes nodes aval scaling fresh fresh_map = some (none, nodes1) ∧
      (∀ k, pair k →
        (nodes1 ni).lcol (((cur ni).nrow_expected + (cur ni).ndelay_in)
            * ((cur ni).ncol_expected + (cur ni).ndelay_in) + (2 * k + 2))
          = (cur ni).lcol (((cur ni).nrow_expected + (cur ni).ndelay_in)
            * ((cur ni).ncol_expected + (cur ni).ndelay_in) + (2 * k + 3)) ∧
        (nodes1 ni).lcol (((cur ni).nrow_expected + (cur ni).ndelay_in)
            * ((cur ni).ncol_expected + (cur ni).ndelay_in) + 2 * k)
          = (cur ni).lcol (((cur ni).nrow_expected + (cur ni).ndelay_in)
            * ((cur ni).ncol_expected + (cur ni).ndelay_in) + 2 * k) ∧
        (nodes1 ni).lcol (((cur ni).nrow_expected + (cur ni).ndelay_in)
            * ((cur ni).ncol_expected + (cur ni).ndelay_in) + (2 * k + 1))
          = (cur ni).lcol (((cur ni).nrow_expected + (cur ni).ndelay_in)
            * ((cur ni).ncol_expected + (cur ni).ndelay_in) + (2 * k + 1)) ∧
        (nodes1 ni).lcol (((cur ni).nrow_expected + (cur ni).ndelay_in)
            * ((cur ni).ncol_expected + (cur ni).ndelay_in) + (2 * k + 3))
          = (cur ni).lcol (((cur ni).nrow_expected + (cur ni).ndelay_in)
            * ((cur ni).ncol_expected + (cur ni).ndelay_in) + (2 * k + 3))) ∧
      (∀ k, 0 ≤ k → k < (cur ni).nelim → ¬ pair k → ¬ pair (k - 1) →
        (nodes1 ni).lcol (((cur ni).nrow_expected + (cur ni).ndelay_in)
            * ((cur ni).ncol_expected + (cur ni).ndelay_in) + 2 * k)
          = (cur ni).lcol (((cur ni).nrow_expected + (cur ni).ndelay_in)
            * ((cur ni).ncol_expected + (cur ni).ndelay_in) + 2 * k) ∧
        (nodes1 ni).lcol (((cur ni).nrow_expected + (cur ni).ndelay_in)
            * ((cur ni).ncol_expected + (cur ni).ndelay_in) + (2 * k + 1))
          = (cur ni).lcol (((cur ni).nrow_expected + (cur ni).ndelay_in)
            * ((cur ni).ncol_expected + (cur ni).ndelay_in) + (2 * k + 1))) ∧
      (∀ i, 0 ≤ i → i < 2 * (cur ni).nelim →
        (nodes1 ni).lcol (((cur ni).nrow_expected + (cur ni).ndelay_in)
            * ((cur ni).ncol_expected + (cur ni).ndelay_in) + i) ≠ Scalar.infinity) := by
  obtain ⟨hs, -⟩ := fix_diag_slots (cur ni)
  have hfd : fix_diag_all nnodes cur ni = fix_diag (cur ni) := by
    unfold fix_diag_all
    rw [if_pos hni]
  refine ⟨fix_diag_all nnodes cur, by unfold factor; rw [hloop], ?_, ?_, ?_⟩
  all_goals rw [hfd]
  · intro k hk
    obtain ⟨r0, r1⟩ := henc.range k hk
    have notinf0 : (cur ni).lcol (((cur ni).nrow_expected + (cur ni).ndelay_in)
        * ((cur ni).ncol_expected + (cur ni).ndelay_in) + 2 * k) ≠ Scalar.infinity := by
      intro h
      obtain ⟨k1, hk1, e⟩ := henc.only (2 * k) (by omega) (by omega) h
      have : k = k1 + 1 := by omega
      rw [this] at hk
      exact henc.apart k1 hk1 hk
    have notinf1 : (cur ni).lcol (((cur ni).nrow_expected + (cur ni).ndelay_in)
        * ((cur ni).ncol_expected + (cur ni).ndelay_in) + (2 * k + 1)) ≠ Scalar.infinity := by
      intro h
      obtain ⟨k1, -, e⟩ := henc.only (2 * k + 1) (by omega) (by omega) h
      omega
    refine ⟨?_, ?_, ?_, ?_⟩
    · rw [hs (2 * k + 2) (by omega) (by omega), if_pos (henc.sentinel k hk)]
      congr 1
      omega
    · rw [hs (2 * k) (by omega) (by omega), if_neg notinf0]
    · rw [hs (2 * k + 1) (by omega) (by omega), if_neg notinf1]
    · rw [hs (2 * k + 3) (by omega) (by omega), if_neg (henc.d22 k hk)]
  · intro k k0 k1 hnp hnp1
    constructor
    · rw [hs (2 * k) (by omega) (by omega), if_neg]
      intro h
      obtain ⟨k2, hk2, e⟩ := henc.only (2 * k) (by omega) (by omega) h
      have : k2 = k - 1 := by omega
      rw [this] at hk2
      exact hnp1 hk2
    · rw [hs (2 * k + 1) (by omega) (by omega), if_neg]
      intro h
      obtain ⟨k2, -, e⟩ := henc.only (2 * k + 1) (by omega) (by omega) h
      omega
  · intro i i0 i1
    rw [hs i i0 i1]
    split_ifs with h
    · obtain ⟨k, hk, e⟩ := henc.only i i0 i1 h
      subst e
      have e3 : (2 * k + 2 + 1 : Int) = 2 * k + 3 := by omega
      rw [e3]
      exact henc.d22 k hk
    · exact h

/-- Instance of C20: one front with two columns on which the LDLT kernel leaves the encoding
`[1, 2, infinity, 3]` of a 2x2 pivot. -/
theorem diag_post_pass_rewrites_sentinels_witness :
    ∃ nodes1,
      factor false example_kernels_pair example_options 1 (fun _ => example_spd_node)
        example_spd_aval none (fun _ => example_fresh) (fun _ => 0) = some (none, nodes1) ∧
      (∀ k, k = 0 →
        (nodes1 0).lcol (4 + (2 * k + 2)) = Dbl.num 3 ∧
        (nodes1 0).lcol (4 + 2 * k) = Dbl.num 1 ∧
        (nodes1 0).lcol (4 + (2 * k + 1)) = Dbl.num 2 ∧
        (nodes1 0).lcol (4 + (2 * k + 3)) = Dbl.num 3) ∧
      (∀ k : Int, 0 ≤ k → k < 2 → ¬ k = 0 → ¬ k - 1 = 0 →
        (nodes1 0).lcol (4 + 2 * k) = Dbl.num 1 ∧
        (nodes1 0).lcol (4 + (2 * k + 1)) = Dbl.num 2) ∧
      (∀ i : Int, 0 ≤ i → i < 2 * 2 → (nodes1 0).lcol (4 + i) ≠ Dbl.inf) := by
  obtain ⟨nodes1, h1, h2, h3, h4⟩ := diag_post_pass_rewrites_sentinels example_kernels_pair
    example_options 1 (fun _ => example_spd_node) example_spd_aval none
    (fun _ => example_fresh) (fun _ => 0)
    (Function.update (fun _ => example_spd_node) 0
      (calculate_update false example_kernels_pair example_fresh
        (factor_node_indef example_kernels_pair example_options
          (store_front example_spd_node 0
            (assemble_front_cpu false (fun _ => example_spd_node) 0 [] (fun _ => 0)
              example_spd_aval none example_fresh).1))))
    (fun _ => 0) rfl 0 (by decide) (fun k => k = 0)
    { range := fun k hk => by subst hk; decide
      apart := fun k hk => by subst hk; decide
      sentinel := fun k hk => by subst hk; rfl
      d22 := fun k hk => by subst hk; decide
      only := fun i h0 h1 hinf => by
        change i < 2 * 2 at h1
        have hi : i = 0 ∨ i = 1 ∨ i = 2 ∨ i = 3 := by omega
        rcases hi with rfl | rfl | rfl | rfl
        · exact absurd hinf (by decide)
        · exact absurd hinf (by decide)
        · exact ⟨0, rfl, rfl⟩
        · exact absurd hinf (by decide) }
  refine ⟨nodes1, h1, ?_, ?_, ?_⟩
  · intro k hk
    subst hk
    exact h2 0 rfl
  · intro k k0 k1 hn hn1
    omega
  · exact h4

end Ssids
namespace BuddyAlloc

theorem map_cast_eq_cons {xs : List Nat} {p : Int} {rest : List Int}
    (h : List.map (fun (x : Nat) => (x : Int)) xs = p :: rest) :
    ∃ q ys, xs = q :: ys ∧ p = (q : Int) ∧ rest = List.map (fun (x : Nat) => (x : Int)) ys := by
  cases xs with
  | nil => simp at h
  | cons q ys =>
    simp only [List.map_cons, List.cons.injEq] at h
    exact ⟨q, ys, rfl, h.1.symm, h.2.symm⟩

theorem map_cast_eq_nil {xs : List Nat}
    (h : List.map (fun (x : Nat) => (x : Int)) xs = []) : xs = [] := by
  cases xs with
  | nil => rfl
  | cons q ys => simp at h

/-- C21. Block selection and splitting in `get_next_ptr`: in every state reachable from a
freshly constructed page and for a request at level `l`, if `k` is the smallest level at
or above `l` whose free list is non-empty and `p` is the block at its head, the call returns
`p`, marks it issued (`next_[p] = ISSUED_FLAG`), removes it from the list of level `k`, leaves
on every level `j` with `l <= j < k` exactly the right half `p XOR (1<<j)`, and leaves every
other free list unchanged; if every list from level `l` up is empty it returns `-1` and
changes nothing. -/
theorem get_next_ptr_selects_and_splits (size mem : Nat) (junk : Int → Int)
    (hsize : size < 2 ^ 64) (s : Page) (live : List (Nat × Nat))
    (hr : Reach (Page.new size mem junk) s live) (l : Nat) :
    (∀ (k : Nat) (p : Int) (rest : List Int), l ≤ k → k < nlevel →
      (∀ j, l ≤ j → j < k → s.free_list j = []) → s.free_list k = p :: rest →
      (get_next_ptr s l).1 = p ∧ (get_next_ptr s l).2.next p = ISSUED_FLAG ∧
      (get_next_ptr s l).2.free_list k = rest ∧
      (∀ j, l ≤ j → j < k → (get_next_ptr s l).2.free_list j = [get_partner p j]) ∧
      (∀ j, j < nlevel → (j < l ∨ k < j) →
        (get_next_ptr s l).2.free_list j = s.free_list j)) ∧
    ((∀ j, l ≤ j → j < nlevel → s.free_list j = []) →
      (get_next_ptr s l).1 = -1 ∧ (get_next_ptr s l).2 = s) := by
  obtain ⟨hwf, fl, iss, hc, hlr⟩ := hr.inv (Page.new_inv size mem junk hsize)
  constructor
  · intro k p rest hlk hk hemp hfk
    have hk8 : k < 8 := hk
    rw [hc.free_list_eq hk8] at hfk
    obtain ⟨q, ys, hq, rfl, rfl⟩ := map_cast_eq_cons hfk
    have hemp' : ∀ j, l ≤ j → j < k → fl j = [] := by
      intro j h1 h2
      have := hemp j h1 h2
      rw [hc.free_list_eq (show j < 8 by omega)] at this
      exact map_cast_eq_nil this
    obtain ⟨hr1, hr2⟩ := get_next_ptr_go_ok (k - l) (nlevel + 1) s fl iss l k q ys (by omega)
      hk8 (by unfold nlevel; omega) hc hemp' hq
    unfold get_next_ptr
    refine ⟨hr1, hr2.flag q l (Or.inr ⟨rfl, rfl⟩), ?_, ?_, ?_⟩
    · rw [hr2.free_list_eq hk8]
      unfold allocFl
      rw [if_pos rfl]
    · intro j h1 h2
      rw [hr2.free_list_eq (show j < 8 by omega)]
      unfold allocFl
      rw [if_neg (by omega), if_pos ⟨h1, h2⟩, get_partner_cast]
      rfl
    · intro j hj hor
      have hj8 : j < 8 := hj
      rw [hr2.free_list_eq hj8, hc.free_list_eq hj8]
      unfold allocFl
      rw [if_neg (by omega), if_neg (by omega)]
  · intro hemp
    have hidx : (get_next_ptr s l).1 = -1 := by
      unfold get_next_ptr
      apply get_next_ptr_go_empty
      intro j h1 h2
      have := hemp j h1 h2
      rw [hc.free_list_eq h2] at this
      have hnil := map_cast_eq_nil this
      have hch := hc.chain j h2
      rw [hnil] at hch
      exact hch
    exact ⟨hidx, get_next_ptr_go_fail _ _ _ hidx⟩

/-- Instance of C21: a request at level 0 on a fresh page of 4096 bytes. -/
theorem get_next_ptr_selects_and_splits_witness :
    (∀ (k : Nat) (p : Int) (rest : List Int), 0 ≤ k → k < nlevel →
      (∀ j, 0 ≤ j → j < k → (Page.new 4096 1024 (fun _ => 0)).free_list j = []) →
      (Page.new 4096 1024 (fun _ => 0)).free_list k = p :: rest →
      (get_next_ptr (Page.new 4096 1024 (fun _ => 0)) 0).1 = p ∧
      (get_next_ptr (Page.new 4096 1024 (fun _ => 0)) 0).2.next p = ISSUED_FLAG ∧
      (get_next_ptr (Page.new 4096 1024 (fun _ => 0)) 0).2.free_list k = rest ∧
      (∀ j, 0 ≤ j → j < k →
        (get_next_ptr (Page.new 4096 1024 (fun _ => 0)) 0).2.free_list j = [get_partner p j]) ∧
      (∀ j, j < nlevel → (j < 0 ∨ k < j) →
        (get_next_ptr (Page.new 4096 1024 (fun _ => 0)) 0).2.free_list j
          = (Page.new 4096 1024 (fun _ => 0)).free_list j)) ∧
    ((∀ j, 0 ≤ j → j < nlevel → (Page.new 4096 1024 (fun _ => 0)).free_list j = []) →
      (get_next_ptr (Page.new 4096 1024 (fun _ => 0)) 0).1 = -1 ∧
      (get_next_ptr (Page.new 4096 1024 (fun _ => 0)) 0).2 = Page.new 4096 1024 (fun _ => 0)) :=
  get_next_ptr_selects_and_splits 4096 1024 (fun _ => 0) (by norm_num)
    (Page.new 4096 1024 (fun _ => 0)) [] Reach.init 0

end BuddyAlloc
namespace BuddyAlloc

/-- C27. Coalescing invariant: in every state reachable from a freshly constructed page there
are lists `fl l` of block numbers, one per level, that are exactly the free lists read through
`head_` and `next_`, have no repetition, hold only blocks aligned to their level and inside the
page, never hold a block together with its buddy below the top level, and together with the
live allocations (each at the level `sz_to_level` gives its size) partition the 128 units. -/
theorem page_coalescing_invariant (size mem : Nat) (junk : Int → Int)
    (hsize : size < 2 ^ 64) (s : Page) (live : List (Nat × Nat))
    (hr : Reach (Page.new size mem junk) s live) :
    ∃ fl : Nat → List Nat,
      (∀ l, l < nlevel → s.free_list l = List.map (fun (x : Nat) => (x : Int)) (fl l)) ∧
      (∀ l, l < nlevel → Chain s.next (s.head l) (fl l)) ∧
      (∀ l, (fl l).Nodup) ∧
      (∀ l p, p ∈ fl l → l < nlevel ∧ p < 128 ∧ p % 2 ^ l = 0) ∧
      (∀ l, l < nlevel - 1 → ∀ p, p ∈ fl l → (p ^^^ 2 ^ l) ∉ fl l) ∧
      Partition (fun p l => p ∈ fl l ∨
        ∃ sz, (s.base + p * s.min_size, sz) ∈ live ∧ sz_to_level s sz = l) := by
  obtain ⟨hwf, fl, iss, hc, hlr⟩ := hr.inv (Page.new_inv size mem junk hsize)
  refine ⟨fl, fun l hl => hc.free_list_eq hl, fun l hl => hc.chain l hl, hc.nodup, ?_, ?_, ?_⟩
  · intro l p hp
    exact hc.part.valid p l (Or.inl hp)
  · intro l hl p hp
    exact hc.nobuddy l hl p hp
  · refine Partition.congr ?_ hc.part
    intro p l
    unfold Blk noHole
    constructor
    · rintro (h | ⟨sz, hmem, hlev⟩)
      · exact Or.inl h
      · obtain ⟨_, q, hq, hiss⟩ := hlr.live_iss _ _ hmem
        have hpq : p = q := by
          have := Nat.add_left_cancel hq
          exact Nat.eq_of_mul_eq_mul_right hwf.min_pos this
        rw [hpq, ← hlev]
        exact Or.inr (Or.inl hiss)
    · rintro (h | h | h)
      · exact Or.inl h
      · exact Or.inr (hlr.iss_live p l h)
      · exact h.elim

/-- Instance of C27: the page after one allocation of 100 bytes. -/
theorem page_coalescing_invariant_witness :
    ∃ fl : Nat → List Nat,
      (∀ l, l < nlevel → ((Page.new 4096 1024 (fun _ => 0)).allocate 100).2.free_list l
        = List.map (fun (x : Nat) => (x : Int)) (fl l)) ∧
      (∀ l, l < nlevel → Chain ((Page.new 4096 1024 (fun _ => 0)).allocate 100).2.next
        (((Page.new 4096 1024 (fun _ => 0)).allocate 100).2.head l) (fl l)) ∧
      (∀ l, (fl l).Nodup) ∧
      (∀ l p, p ∈ fl l → l < nlevel ∧ p < 128 ∧ p % 2 ^ l = 0) ∧
      (∀ l, l < nlevel - 1 → ∀ p, p ∈ fl l → (p ^^^ 2 ^ l) ∉ fl l) ∧
      Partition (fun p l => p ∈ fl l ∨
        ∃ sz, (((Page.new 4096 1024 (fun _ => 0)).allocate 100).2.base
            + p * ((Page.new 4096 1024 (fun _ => 0)).allocate 100).2.min_size, sz) ∈ [(1024, 100)]
          ∧ sz_to_level ((Page.new 4096 1024 (fun _ => 0)).allocate 100).2 sz = l) :=
  page_coalescing_invariant 4096 1024 (fun _ => 0) (by norm_num)
    ((Page.new 4096 1024 (fun _ => 0)).allocate 100).2 [(1024, 100)]
    (Reach.alloc_ok _ _ 100 1024 _ Reach.init (Prod.ext (by decide) rfl))

end BuddyAlloc
namespace BuddyAlloc

/-- C28 as stated fails for the largest pages: in `Page(2^64-1)` the field `size_` wraps to 0
while `min_size_` is `2^57`; `allocate(0)` succeeds at level 0 and the block of `2^57` bytes
it issues ends far behind `base_ + size_`. -/
theorem issued_block_covers_request_counterexample :
    (Page.new (2 ^ 64 - 1) 1024 (fun _ => 0)).size = 0 ∧
    (Page.new (2 ^ 64 - 1) 1024 (fun _ => 0)).base = 1024 ∧
    (0 : Nat) ≤ (Page.new (2 ^ 64 - 1) 1024 (fun _ => 0)).size ∧
    ((Page.new (2 ^ 64 - 1) 1024 (fun _ => 0)).allocate 0).1 = some 1024 ∧
    sz_to_level (Page.new (2 ^ 64 - 1) 1024 (fun _ => 0)) 0 = 0 ∧
    ¬ (1024 + 2 ^ (sz_to_level (Page.new (2 ^ 64 - 1) 1024 (fun _ => 0)) 0)
          * (Page.new (2 ^ 64 - 1) 1024 (fun _ => 0)).min_size
        ≤ (Page.new (2 ^ 64 - 1) 1024 (fun _ => 0)).base
          + (Page.new (2 ^ 64 - 1) 1024 (fun _ => 0)).size) := by
  decide

/-- C28 (amended). For a page constructed with a requested size below `2^64 - 3968`, in every
reachable state: when `allocate(sz)` returns a pointer, `sz <= size_`, the level
`l = sz_to_level(sz)` is at most 7 and satisfies `2^l * min_size_ > sz` (and
`2^(l-1) * min_size_ <= sz` when `l > 0`), the returned pointer is `base_ + idx * min_size_`
for a block number `idx` that is a multiple of `2^l` and is flagged as issued, and the block of
`2^l * min_size_` bytes starting at the pointer contains `[ptr, ptr + sz)` and ends at or before
`base_ + size_`. -/
theorem issued_block_covers_request (size mem : Nat) (junk : Int → Int)
    (hsize : size < 2 ^ 64 - 3968) (s : Page) (live : List (Nat × Nat))
    (hr : Reach (Page.new size mem junk) s live) (sz ptr : Nat) (s1 : Page)
    (ha : s.allocate sz = (some ptr, s1)) :
    sz ≤ s.size ∧ sz_to_level s sz < nlevel ∧
    sz < 2 ^ (sz_to_level s sz) * s.min_size ∧
    (0 < sz_to_level s sz → 2 ^ (sz_to_level s sz - 1) * s.min_size ≤ sz) ∧
    (∃ idx : Nat, idx < 128 ∧ idx % 2 ^ (sz_to_level s sz) = 0 ∧
      ptr = s.base + idx * s.min_size ∧ s1.next (idx : Int) = ISSUED_FLAG) ∧
    s.base ≤ ptr ∧ ptr + sz ≤ ptr + 2 ^ (sz_to_level s sz) * s.min_size ∧
    ptr + 2 ^ (sz_to_level s sz) * s.min_size ≤ s.base + s.size := by
  obtain ⟨hwf, fl, iss, hc, hlr⟩ := hr.inv (Page.new_inv size mem junk (by omega))
  obtain ⟨p, k, rest, hsz, hlk, hk, hfl, hemp, hp, hptr, hf1, hf2, hf3, hc1⟩ :=
    allocate_some hwf hc ha
  obtain ⟨hl8, hlt, hge, _⟩ := level_spec hwf hsz
  obtain ⟨_, _, hal⟩ := hc1.part.valid p (sz_to_level s sz) (Or.inr (Or.inl (Or.inr ⟨rfl, rfl⟩)))
  have hflag := hc1.flag p (sz_to_level s sz) (Or.inr ⟨rfl, rfl⟩)
  have hend := blk_end (sz_to_level s sz) (by omega) p hp hal
  have hsize_eq : s.size = s.min_size * 128 := by
    have h1 := hr.fields
    have h2 := Page.new_size size mem junk hsize
    have h3 := hwf.size_eq
    have h4 : s.size ≤ s.min_size * 128 := by rw [h3]; exact Nat.mod_le _ _
    have h5 : s.min_size * 128 < 2 ^ 64 := by
      have := hwf.min_le
      by_contra hcon
      have h6 : s.min_size = 2 ^ 57 := by omega
      rw [h6] at h3
      have h7 : s.size = 0 := by rw [h3]; norm_num
      rw [h1.2.1, h2] at h7
      unfold csize at h7
      omega
    rw [h3]
    exact Nat.mod_eq_of_lt h5
  refine ⟨hsz, by unfold nlevel; omega, hlt, hge, ⟨p, hp, hal, hptr, hflag⟩, ?_, by omega, ?_⟩
  · rw [hptr]; exact Nat.le_add_right _ _
  · rw [hptr, hsize_eq]
    have : (p + 2 ^ (sz_to_level s sz)) * s.min_size ≤ 128 * s.min_size :=
      Nat.mul_le_mul_right _ hend
    rw [Nat.add_mul] at this
    rw [Nat.mul_comm s.min_size 128]
    omega

/-- Instance of C28 (amended): a request of 100 bytes on a fresh page of 4096 bytes. -/
theorem issued_block_covers_request_witness :
    100 ≤ (Page.new 4096 1024 (fun _ => 0)).size ∧
    sz_to_level (Page.new 4096 1024 (fun _ => 0)) 100 < nlevel ∧
    100 < 2 ^ (sz_to_level (Page.new 4096 1024 (fun _ => 0)) 100)
      * (Page.new 4096 1024 (fun _ => 0)).min_size ∧
    (0 < sz_to_level (Page.new 4096 1024 (fun _ => 0)) 100 →
      2 ^ (sz_to_level (Page.new 4096 1024 (fun _ => 0)) 100 - 1)
        * (Page.new 4096 1024 (fun _ => 0)).min_size ≤ 100) ∧
    (∃ idx : Nat, idx < 128 ∧ idx % 2 ^ (sz_to_level (Page.new 4096 1024 (fun _ => 0)) 100) = 0 ∧
      1024 = (Page.new 4096 1024 (fun _ => 0)).base
        + idx * (Page.new 4096 1024 (fun _ => 0)).min_size ∧
      ((Page.new 4096 1024 (fun _ => 0)).allocate 100).2.next (idx : Int) = ISSUED_FLAG) ∧
    (Page.new 4096 1024 (fun _ => 0)).base ≤ 1024 ∧
    1024 + 100 ≤ 1024 + 2 ^ (sz_to_level (Page.new 4096 1024 (fun _ => 0)) 100)
      * (Page.new 4096 1024 (fun _ => 0)).min_size ∧
    1024 + 2 ^ (sz_to_level (Page.new 4096 1024 (fun _ => 0)) 100)
      * (Page.new 4096 1024 (fun _ => 0)).min_size
      ≤ (Page.new 4096 1024 (fun _ => 0)).base + (Page.new 4096 1024 (fun _ => 0)).size :=
  issued_block_covers_request 4096 1024 (fun _ => 0) (by norm_num)
    (Page.new 4096 1024 (fun _ => 0)) [] Reach.init 100 1024
    ((Page.new 4096 1024 (fun _ => 0)).allocate 100).2 (Prod.ext (by decide) rfl)

/-- A page whose `allocate` fails is found unchanged at its position after the loop over the
pages. -/
theorem try_pages_failed_page (sz : Nat) : ∀ (ps : List Page) (i : Nat) (s : Page),
    ps[i]? = some s → (s.allocate sz).1 = none → (try_pages ps sz).2[i]? = some s
  | [], i, s, h, _ => by simp at h
  | p :: ps, 0, s, h, hn => by
    simp only [List.getElem?_cons_zero, Option.some.injEq] at h
    subst h
    have hs : (p.allocate sz).2 = p := allocate_none (Prod.ext hn rfl)
    simp only [try_pages, hn, Option.isSome_none, Bool.false_eq_true, if_false,
      List.getElem?_cons_zero, hs]
  | p :: ps, i + 1, s, h, hn => by
    simp only [List.getElem?_cons_succ] at h
    have ih := try_pages_failed_page sz ps i s h hn
    simp only [try_pages]
    split_ifs
    · simp only [List.getElem?_cons_succ]; exact h
    · simp only [List.getElem?_cons_succ]; exact ih

/-- C29. A failed page allocation is atomic: for every page state and every `sz`, if
`allocate(sz)` returns null then `head_` and `next_` (the whole page state) are as before the
call, and a page at any position of a table whose `allocate(sz)` fails is found unchanged at
that position after `Table::allocate(sz)`. -/
theorem failed_allocate_is_atomic (s : Page) (sz : Nat) (h : (s.allocate sz).1 = none) :
    (s.allocate sz).2.head = s.head ∧ (s.allocate sz).2.next = s.next ∧
    (s.allocate sz).2 = s ∧
    ∀ (t : Table) (mem : Nat) (junk : Int → Int) (i : Nat), t.pages[i]? = some s →
      (t.allocate sz mem junk).2.pages[i]? = some s := by
  have hs : (s.allocate sz).2 = s := allocate_none (Prod.ext h rfl)
  refine ⟨by rw [hs], by rw [hs], hs, ?_⟩
  intro t mem junk i hi
  have h1 := try_pages_failed_page sz t.pages i s hi h
  simp only [Table.allocate]
  split_ifs
  · exact h1
  · show (_ ++ _)[i]? = _
    rw [List.getElem?_append_left]
    · exact h1
    · have := List.getElem?_eq_some_iff.mp h1
      exact this.1

/-- Instance of C29: a request of 5000 bytes on a fresh page of 4096 bytes. -/
theorem failed_allocate_is_atomic_witness :
    ((Page.new 4096 1024 (fun _ => 0)).allocate 5000).2.head
      = (Page.new 4096 1024 (fun _ => 0)).head ∧
    ((Page.new 4096 1024 (fun _ => 0)).allocate 5000).2.next
      = (Page.new 4096 1024 (fun _ => 0)).next ∧
    ((Page.new 4096 1024 (fun _ => 0)).allocate 5000).2 = Page.new 4096 1024 (fun _ => 0) ∧
    ∀ (t : Table) (mem : Nat) (junk : Int → Int) (i : Nat),
      t.pages[i]? = some (Page.new 4096 1024 (fun _ => 0)) →
      (t.allocate 5000 mem junk).2.pages[i]? = some (Page.new 4096 1024 (fun _ => 0)) :=
  failed_allocate_is_atomic (Page.new 4096 1024 (fun _ => 0)) 5000 (by decide)

end BuddyAlloc
namespace BuddyAlloc

/-- C25. `is_owner` is not a pointer-range test: the quotient `(ptr - base_) / min_size_` is
narrowed to a 32-bit `int`, so for a page of 4096 bytes at `base_ = 1024` the pointer
`1024 + 2^37`, far outside the buffer, gives block number 0 and `is_owner` returns true.
In a table whose second page starts at that address, `deallocate` of a pointer of the second
page is carried out by the first page, which then hands out address 1024 a second time while
the allocation of 2048 bytes at 1024 is still live. -/
theorem is_owner_accepts_aliased_pointer :
    (Page.new 4096 1024 (fun _ => 0)).base = 1024 ∧
    (Page.new 4096 1024 (fun _ => 0)).size = 4096 ∧
    ptr_to_addr (Page.new 4096 1024 (fun _ => 0)) (1024 + 2 ^ 37) = 0 ∧
    (Page.new 4096 1024 (fun _ => 0)).is_owner (1024 + 2 ^ 37) = true ∧
    ¬ (1024 + 2 ^ 37 < (Page.new 4096 1024 (fun _ => 0)).base
        + (Page.new 4096 1024 (fun _ => 0)).size) ∧
    ((Table.new 1 1024 (fun _ => 0)).allocate 2048 0 (fun _ => 0)).1 = some 1024 ∧
    ((((Table.new 1 1024 (fun _ => 0)).allocate 2048 0 (fun _ => 0)).2.allocate 1
      (1024 + 2 ^ 37) (fun _ => 0)).1 = some (1024 + 2 ^ 37)) ∧
    ((((Table.new 1 1024 (fun _ => 0)).allocate 2048 0 (fun _ => 0)).2.allocate 1
      (1024 + 2 ^ 37) (fun _ => 0)).2.pages.map (fun p => (p.base, p.size))
        = [(1024, 4096), (1024 + 2 ^ 37, 4096)]) ∧
    (((((Table.new 1 1024 (fun _ => 0)).allocate 2048 0 (fun _ => 0)).2.allocate 1
      (1024 + 2 ^ 37) (fun _ => 0)).2.deallocate (1024 + 2 ^ 37) 1).bind
        (fun t => (t.allocate 1 0 (fun _ => 0)).1)) = some 1024 := by
  decide

end BuddyAlloc
namespace Ssids

/-- The traced loop computes the same array as `fix_diag`. -/
theorem fix_diag_trace_lcol {T : Type} [Scalar T] (node : cpu_node_data T) :
    (fix_diag_trace node).1 = (fix_diag node).lcol := by
  simp only [fix_diag_trace, fix_diag]
  refine forRange_sim 0 (2 * node.nelim) _ _ (fun st : (Int → T) × List Int => st.1)
    (node.lcol, []) ?_
  intro i st _ _
  by_cases h : st.1 ((node.nrow_expected + node.ndelay_in)
      * (node.ncol_expected + node.ndelay_in) + i) = Scalar.infinity
  · simp only [h, if_true]
  · simp only [h, if_false]

/-- The buffer that `assemble_node` zeroes has the length `lcol_len`. -/
theorem init_front_lcol_len {T : Type} [Scalar T] (posdef : Bool) (node : cpu_node_data T)
    (d : Int) (fresh : Fresh T) (k : Int) :
    (init_front posdef node d fresh).lcol k
      = if 0 ≤ k ∧ k < lcol_len posdef { node with ndelay_in := d } then 0 else fresh.lcol k :=
  rfl

/-- In a node with an eliminated column the post-pass starts by reading `lcol[nrow*ncol]`,
which in posdef mode is the length of the buffer. -/
theorem fix_diag_accesses_first {T : Type} [Scalar T] (node : cpu_node_data T)
    (h : 0 < node.nelim) :
    ∃ rest, fix_diag_accesses node = lcol_len true node :: rest := by
  simp only [fix_diag_accesses, fix_diag_trace, lcol_len, if_true]
  refine (forRange_induction 0 (2 * node.nelim) _ (node.lcol, [])
    (fun i st => (i = 0 → st.2 = []) ∧ (0 < i → ∃ rest, st.2 = (node.nrow_expected + node.ndelay_in)
      * (node.ncol_expected + node.ndelay_in) :: rest)) (by omega)
    ⟨fun _ => rfl, fun h0 => absurd h0 (by omega)⟩ ?_).2 (by omega)
  intro i st h1 h2 ih
  refine ⟨fun h0 => by omega, fun _ => ?_⟩
  by_cases hi : i = 0
  · have hnil := ih.1 hi
    subst hi
    split_ifs
    · exact ⟨_, by rw [hnil, add_zero]; rfl⟩
    · exact ⟨_, by rw [hnil, add_zero]; rfl⟩
  · obtain ⟨rest, hr⟩ := ih.2 (by omega)
    split_ifs
    · exact ⟨rest ++ _, by rw [hr]; rfl⟩
    · exact ⟨rest ++ _, by rw [hr]; rfl⟩

/-- In indef mode, when the `D` rows hold a diagonal encoding and no more columns are
eliminated than the front has, every index the post-pass touches is below the length of the
buffer. -/
theorem fix_diag_accesses_indef {T : Type} [Scalar T] (node : cpu_node_data T)
    (pair : Int → Prop) (hn : node.nelim ≤ node.ncol_expected + node.ndelay_in)
    (henc : DiagEncoding (fun i => node.lcol ((node.nrow_expected + node.ndelay_in)
      * (node.ncol_expected + node.ndelay_in) + i)) node.nelim pair) :
    ∀ a, a ∈ fix_diag_accesses node → a < lcol_len false node := by
  simp only [fix_diag_accesses, fix_diag_trace, lcol_len, Bool.false_eq_true, if_false]
  have hlen : ∀ i, i < 2 * node.nelim →
      (node.nrow_expected + node.ndelay_in) * (node.ncol_expected + node.ndelay_in) + i
        < (node.nrow_expected + node.ndelay_in + 2) * (node.ncol_expected + node.ndelay_in) := by
    intro i hi
    have : (node.nrow_expected + node.ndelay_in + 2) * (node.ncol_expected + node.ndelay_in)
        = (node.nrow_expected + node.ndelay_in) * (node.ncol_expected + node.ndelay_in)
          + 2 * (node.ncol_expected + node.ndelay_in) := by ring
    rw [this]
    omega
  by_cases hle : (0 : Int) ≤ 2 * node.nelim
  · refine (forRange_induction 0 (2 * node.nelim) _ (node.lcol, [])
      (fun i st => (∀ x, (node.nrow_expected + node.ndelay_in)
            * (node.ncol_expected + node.ndelay_in) + i ≤ x → st.1 x = node.lcol x) ∧
        ∀ a, a ∈ st.2 → a < (node.nrow_expected + node.ndelay_in + 2)
          * (node.ncol_expected + node.ndelay_in)) hle
      ⟨fun _ _ => rfl, fun a ha => by cases ha⟩ ?_).2
    intro i st h1 h2 ih
    by_cases hinf : st.1 ((node.nrow_expected + node.ndelay_in)
        * (node.ncol_expected + node.ndelay_in) + i) = Scalar.infinity
    · simp only [hinf, if_true]
      have horig := ih.1 _ (le_refl _)
      rw [hinf] at horig
      obtain ⟨k, hk, hik⟩ := henc.only i h1 h2 horig.symm
      have hr := henc.range k hk
      refine ⟨?_, ?_⟩
      · intro x hx
        rw [Function.update_noteq (by omega)]
        exact ih.1 x (by omega)
      · intro a ha
        simp only [List.mem_append, List.mem_cons, List.mem_singleton, List.not_mem_nil,
          or_false] at ha
        rcases ha with ha | ha | ha | ha
        · exact ih.2 a ha
        · rw [ha]; exact hlen i h2
        · rw [ha, add_assoc]; exact hlen (i + 1) (by omega)
        · rw [ha]; exact hlen i h2
    · simp only [hinf, if_false]
      refine ⟨fun x hx => ih.1 x (by omega), ?_⟩
      intro a ha
      simp only [List.mem_append, List.mem_singleton] at ha
      rcases ha with ha | ha
      · exact ih.2 a ha
      · rw [ha]; exact hlen i h2
  · rw [forRange_empty 0 _ _ _ (by omega)]
    intro a ha
    cases ha

/-- C26. The post-pass leaves the factor storage in posdef mode: for the single front of the
matrix `[[4, 2], [2, 5]]` factorized in posdef mode, `assemble_node` allocates `lcol` with
`nrow*ncol = 4` entries, both columns are eliminated, and the post-pass reads the indices
4, 5, 6 and 7, none of which is smaller than 4; when the memory behind the buffer holds
infinity at index 4 the pass also reads index 5 and writes index 4. -/
theorem post_pass_leaves_posdef_storage :
    ∃ r r1,
      factor_loop true example_kernels example_options 1 example_pd_aval none
        (fun _ => example_fresh) 1 0 (fun _ => example_spd_node) (fun _ => 0) = some r ∧
      r.1 = none ∧ (r.2.1 0).nelim = 2 ∧ lcol_len true (r.2.1 0) = 4 ∧
      fix_diag_accesses (r.2.1 0) = [4, 5, 6, 7] ∧
      factor_loop true example_kernels example_options 1 example_pd_aval none
        (fun _ => example_fresh_inf) 1 0 (fun _ => example_spd_node) (fun _ => 0) = some r1 ∧
      r1.1 = none ∧ lcol_len true (r1.2.1 0) = 4 ∧
      fix_diag_accesses (r1.2.1 0) = [4, 5, 4, 5, 6, 7] ∧
      (r1.2.1 0).lcol 4 = Dbl.inf ∧ (fix_diag (r1.2.1 0)).lcol 4 = Dbl.num 7 := by
  refine ⟨_, _, rfl, ?_, ?_, ?_, ?_, rfl, ?_, ?_, ?_, ?_, ?_⟩ <;> decide

end Ssids
namespace Ssids

/-- The loop of `calculate_update` is the sequence of its rounds. -/
theorem calc_ld_eq_rounds {T : Type} [Scalar T] (node_lcol : Int → T)
    (lcol_off d_off ldl m n : Int) : ∀ (fuel : Nat) (j : Int) (ld : Int → T),
    calc_ld node_lcol lcol_off d_off ldl m n fuel j ld
      = (calc_ld_pivots node_lcol d_off n fuel j).foldl
          (calc_ld_round node_lcol lcol_off d_off ldl m) ld
  | 0, _, _ => rfl
  | fuel + 1, j, ld => by
    simp only [calc_ld, calc_ld_pivots]
    by_cases hj : j < n
    · simp only [hj, if_true]
      by_cases h1 : node_lcol (d_off + (2 * j + 1)) = 0
      · simp only [h1, if_true, List.foldl_cons]
        by_cases h2 : node_lcol (d_off + 2 * j) = 0
        · simp only [h2, if_true]
          rw [calc_ld_eq_rounds node_lcol lcol_off d_off ldl m n fuel (j + 1)]
          simp only [calc_ld_round, Bool.false_eq_true, if_false, h2, if_true]
        · simp only [h2, if_false]
          rw [calc_ld_eq_rounds node_lcol lcol_off d_off ldl m n fuel (j + 1)]
          simp only [calc_ld_round, Bool.false_eq_true, if_false, h2]
      · simp only [h1, if_false, List.foldl_cons]
        rw [calc_ld_eq_rounds node_lcol lcol_off d_off ldl m n fuel (j + 2)]
        simp only [calc_ld_round, if_true]
    · simp only [hj, if_false, List.foldl_nil]

end Ssids
namespace Ssids

theorem calc_ld_pivots_ge {T : Type} [Scalar T] (node_lcol : Int → T) (d_off n : Int) :
    ∀ (fuel : Nat) (j0 : Int) (j : Int) (b : Bool),
      (j, b) ∈ calc_ld_pivots node_lcol d_off n fuel j0 → j0 ≤ j ∧ j < n
  | 0, _, _, _, h => by simp [calc_ld_pivots] at h
  | fuel + 1, j0, j, b, h => by
    simp only [calc_ld_pivots] at h
    by_cases hj : j0 < n
    · simp only [hj, if_true] at h
      by_cases h1 : node_lcol (d_off + (2 * j0 + 1)) = 0
      · simp only [h1, if_true, List.mem_cons, Prod.mk.injEq] at h
        rcases h with ⟨rfl, rfl⟩ | h
        · exact ⟨le_refl _, hj⟩
        · have := calc_ld_pivots_ge node_lcol d_off n fuel _ j b h
          exact ⟨by omega, this.2⟩
      · simp only [h1, if_false, List.mem_cons, Prod.mk.injEq] at h
        rcases h with ⟨rfl, rfl⟩ | h
        · exact ⟨le_refl _, hj⟩
        · have := calc_ld_pivots_ge node_lcol d_off n fuel _ j b h
          exact ⟨by omega, this.2⟩
    · simp only [hj, if_false, List.not_mem_nil] at h

/-- The rounds from column `j0` on leave the entries of `ld` outside the columns `j0, ...`
as they are. -/
theorem calc_ld_frame {T : Type} [Scalar T] (node_lcol : Int → T)
    (lcol_off d_off ldl m n : Int) (x : Int) : ∀ (fuel : Nat) (j0 : Int) (ld : Int → T),
    (∀ j1 i, j0 ≤ j1 → 0 ≤ i → i < m → x ≠ j1 * m + i) →
    calc_ld node_lcol lcol_off d_off ldl m n fuel j0 ld x = ld x
  | 0, _, _, _ => rfl
  | fuel + 1, j0, ld, hx => by
    simp only [calc_ld]
    by_cases hj : j0 < n
    · simp only [hj, if_true]
      by_cases h1 : node_lcol (d_off + (2 * j0 + 1)) = 0
      · simp only [h1, if_true]
        by_cases h2 : node_lcol (d_off + 2 * j0) = 0
        · simp only [h2, if_true]
          rw [calc_ld_frame node_lcol lcol_off d_off ldl m n x fuel (j0 + 1) _
            (fun j1 i a b c => hx j1 i (by omega) b c)]
          exact forRange_update_other 0 m (fun i => j0 * m + i) (fun _ => 0) ld x
            (fun i a b => (hx j0 i (le_refl _) a b).symm)
        · simp only [h2, if_false]
          rw [calc_ld_frame node_lcol lcol_off d_off ldl m n x fuel (j0 + 1) _
            (fun j1 i a b c => hx j1 i (by omega) b c)]
          exact forRange_update_other 0 m (fun i => j0 * m + i) _ ld x
            (fun i a b => (hx j0 i (le_refl _) a b).symm)
      · simp only [h1, if_false]
        rw [calc_ld_frame node_lcol lcol_off d_off ldl m n x fuel (j0 + 2) _
          (fun j1 i a b c => hx j1 i (by omega) b c)]
        refine forRange_invariant 0 m _ ld (fun st => st x = ld x) rfl ?_
        intro i st a b e
        show Function.update (Function.update st _ _) _ _ x = ld x
        rw [Function.update_noteq (hx (j0 + 1) i (by omega) a b),
          Function.update_noteq (hx j0 i (le_refl _) a b)]
        exact e
    · simp only [hj, if_false]

/-- The column of `ld` that the loop of `calculate_update` leaves for a 1x1 pivot. -/
theorem calc_ld_single {T : Type} [Scalar T] (node_lcol : Int → T)
    (lcol_off d_off ldl m n : Int) : ∀ (fuel : Nat) (j0 : Int) (ld : Int → T) (j : Int),
    (j, false) ∈ calc_ld_pivots node_lcol d_off n fuel j0 → ∀ i, 0 ≤ i → i < m →
    calc_ld node_lcol lcol_off d_off ldl m n fuel j0 ld (j * m + i)
      = if node_lcol (d_off + 2 * j) = 0 then 0
        else (1 / node_lcol (d_off + 2 * j)) * node_lcol (lcol_off + (j * ldl + i))
  | 0, _, _, _, h, _, _, _ => by simp [calc_ld_pivots] at h
  | fuel + 1, j0, ld, j, h, i, hi0, him => by
    simp only [calc_ld_pivots] at h
    simp only [calc_ld]
    have hinj : ∀ a b : Int, 0 ≤ a → a < m → 0 ≤ b → b < m → j * m + a = j * m + b → a = b := by
      intro a b _ _ _ _ e
      omega
    have hlater : ∀ j1 i1 : Int, j + 1 ≤ j1 → 0 ≤ i1 → i1 < m → j * m + i ≠ j1 * m + i1 := by
      intro j1 i1 hj1 a b e
      have := (colmajor_inj m j j1 i i1 hi0 him a b e).1
      omega
    by_cases hj : j0 < n
    · simp only [hj, if_true] at h ⊢
      by_cases h1 : node_lcol (d_off + (2 * j0 + 1)) = 0
      · simp only [h1, if_true, List.mem_cons, Prod.mk.injEq] at h ⊢
        rcases h with ⟨rfl, -⟩ | h
        · by_cases h2 : node_lcol (d_off + 2 * j) = 0
          · simp only [h2, if_true]
            rw [calc_ld_frame node_lcol lcol_off d_off ldl m n _ fuel (j + 1) _ hlater]
            exact forRange_update_inj 0 m (fun i => j * m + i) (fun _ => 0) ld
              (fun a b h1 h2 h3 h4 e => hinj a b h1 h2 h3 h4 e) i hi0 him
          · simp only [h2, if_false]
            rw [calc_ld_frame node_lcol lcol_off d_off ldl m n _ fuel (j + 1) _ hlater]
            exact forRange_update_inj 0 m (fun i => j * m + i)
              (fun i => 1 / node_lcol (d_off + 2 * j) * node_lcol (lcol_off + (j * ldl + i))) ld
              (fun a b h1 h2 h3 h4 e => hinj a b h1 h2 h3 h4 e) i hi0 him
        · by_cases h2 : node_lcol (d_off + 2 * j0) = 0
          · simp only [h2, if_true]
            exact calc_ld_single node_lcol lcol_off d_off ldl m n fuel (j0 + 1) _ j h i hi0 him
          · simp only [h2, if_false]
            exact calc_ld_single node_lcol lcol_off d_off ldl m n fuel (j0 + 1) _ j h i hi0 him
      · simp only [h1, if_false, List.mem_cons, Prod.mk.injEq] at h ⊢
        rcases h with ⟨-, hb⟩ | h
        · cases hb
        · exact calc_ld_single node_lcol lcol_off d_off ldl m n fuel (j0 + 2) _ j h i hi0 him
    · simp only [hj, if_false, List.not_mem_nil] at h

end Ssids
namespace Ssids

end Ssids

namespace Ssids

/-- C24. In the indef branch of `calculate_update`, the array `ld` handed to the update of the
contribution block satisfies, for every column `j` that the loop handles as a 1x1 pivot and
every `0 <= i < m`: `ld[j*m + i]` is zero when the stored `d[2j]` is zero, and
`(1/d[2j]) * lcol[j*ldl + i]` otherwise. -/
theorem update_ld_single_pivot_column {T : Type} [Scalar T] (K : Kernels T) (fresh : Fresh T)
    (node : cpu_node_data T) (hm : node.nrow_expected - node.ncol_expected ≠ 0)
    (hn : node.nelim ≠ 0) :
    (calculate_update false K fresh node).contrib
      = node.contrib.map (fun c =>
          K.gemm (node.nrow_expected - node.ncol_expected)
            (node.nrow_expected - node.ncol_expected) node.nelim node.lcol
            (node.ncol_expected + node.ndelay_in) (node.nrow_expected + node.ndelay_in)
            (calc_ld node.lcol (node.ncol_expected + node.ndelay_in)
              ((node.nrow_expected + node.ndelay_in) * (node.ncol_expected + node.ndelay_in))
              (node.nrow_expected + node.ndelay_in) (node.nrow_expected - node.ncol_expected)
              node.nelim node.nelim.toNat 0 fresh.ld)
            (node.nrow_expected - node.ncol_expected) c
            (node.nrow_expected - node.ncol_expected)) ∧
    ∀ j, (j, false) ∈ calc_ld_pivots node.lcol
        ((node.nrow_expected + node.ndelay_in) * (node.ncol_expected + node.ndelay_in))
        node.nelim node.nelim.toNat 0 →
      ∀ i, 0 ≤ i → i < node.nrow_expected - node.ncol_expected →
        calc_ld node.lcol (node.ncol_expected + node.ndelay_in)
            ((node.nrow_expected + node.ndelay_in) * (node.ncol_expected + node.ndelay_in))
            (node.nrow_expected + node.ndelay_in) (node.nrow_expected - node.ncol_expected)
            node.nelim node.nelim.toNat 0 fresh.ld
            (j * (node.nrow_expected - node.ncol_expected) + i)
          = if node.lcol ((node.nrow_expected + node.ndelay_in)
                * (node.ncol_expected + node.ndelay_in) + 2 * j) = 0 then 0
            else (1 / node.lcol ((node.nrow_expected + node.ndelay_in)
                * (node.ncol_expected + node.ndelay_in) + 2 * j))
              * node.lcol ((node.ncol_expected + node.ndelay_in)
                + (j * (node.nrow_expected + node.ndelay_in) + i)) := by
  refine ⟨?_, fun j hj i hi0 him => calc_ld_single _ _ _ _ _ _ _ _ _ j hj i hi0 him⟩
  simp only [calculate_update, hm, hn, or_self, if_false, Bool.false_eq_true]

/-- Instance of C24: the front `example_node_pair_single`, whose third column is a 1x1 pivot
with stored diagonal 4: `ld[2] = (1/4) * lcol[3 + 2*4]`. -/
theorem update_ld_single_pivot_column_witness :
    (2, false) ∈ calc_ld_pivots example_node_pair_single.lcol 12 3 3 0 ∧
    calc_ld example_node_pair_single.lcol 3 12 4 1 3 3 0 example_fresh.ld 2
      = Dbl.num (11 / 4) := by
  have h := (update_ld_single_pivot_column example_kernels example_fresh
    example_node_pair_single (by decide) (by decide)).2 2 (by decide) 0 (by decide) (by decide)
  refine ⟨by decide, ?_⟩
  have e : calc_ld example_node_pair_single.lcol 3 12 4 1 3 3 0 example_fresh.ld 2
      = Dbl.num 1 / Dbl.num 4 * Dbl.num 11 := h
  rw [e]
  show Dbl.num (1 / 4 * 11) = Dbl.num (11 / 4)
  norm_num

end Ssids
namespace Ssids

theorem add_delays_eq_rounds {T : Type} (child : cpu_node_data T) (map : Int → Int)
    (nrow ncol : Int) (f : Front T) :
    add_delays child map nrow ncol f
      = forRange 0 child.ndelay_out (delay_round child map nrow ncol) f := rfl

/-- A cell belongs to one delayed column only. -/
theorem DelayCell.inj {N q e e1 x : Int} (hq : 0 ≤ q) (he : q ≤ e) (heN : e < N)
    (he1 : q ≤ e1) (he1N : e1 < N) (h : DelayCell N q e x) (h1 : DelayCell N q e1 x) :
    e = e1 := by
  rcases h with ⟨r, a1, a2, a3⟩ | ⟨c, a1, a2, a3⟩ <;>
    rcases h1 with ⟨r1, b1, b2, b3⟩ | ⟨c1, b1, b2, b3⟩
  · exact (colmajor_inj N e e1 r r1 (by omega) a2 (by omega) b2 (by rw [← a3, ← b3])).1
  · have := (colmajor_inj N e c1 r e1 (by omega) a2 (by omega) he1N (by rw [← a3, ← b3])).1
    omega
  · have := (colmajor_inj N c e1 e r1 (by omega) heN (by omega) b2 (by rw [← a3, ← b3])).1
    omega
  · exact (colmajor_inj N c c1 e e1 (by omega) heN (by omega) he1N (by rw [← a3, ← b3])).2

/-- The destination of a child row for the delayed column `e` is a cell of that column. -/
theorem delay_row_dest_cell {T : Type} (child : cpu_node_data T) (map : Int → Int)
    (q C N e j : Int) (hm : MapsRows child map q C N) (hqC : q ≤ C) (heC : e < C)
    (hj0 : child.ncol_expected ≤ j) (hj1 : j < child.nrow_expected) :
    DelayCell N q e (delay_row_dest child map N C e j) := by
  unfold delay_row_dest
  dsimp only
  rcases hm j hj0 hj1 with ⟨a, b⟩ | ⟨a, b⟩
  · rw [if_pos (by omega)]
    exact Or.inr ⟨_, a, b, rfl⟩
  · rw [if_neg (by omega)]
    exact Or.inl ⟨_, by omega, b, rfl⟩

/-- The destination of the entry `t` of the triangular tail is a cell of the column. -/
theorem delay_tail_cell (q N e t : Int) (ht : 0 ≤ t) (hN : e + t < N) :
    DelayCell N q e (e * (N + 1) + t) :=
  Or.inl ⟨e + t, by omega, hN, by ring⟩

/-- The loop over the child rows as a loop of plain updates. -/
theorem delay_round_lcol {T : Type} (child : cpu_node_data T) (map : Int → Int)
    (nrow ncol i : Int) (f : Front T) :
    (delay_round child map nrow ncol i f).lcol
      = forRange child.ncol_expected child.nrow_expected
          (fun j l => Function.update l (delay_row_dest child map nrow ncol f.delay_col j)
            (child.lcol (child.nelim * (child.nrow_expected + child.ndelay_in)
              + child.ndelay_in + i * (child.nrow_expected + child.ndelay_in) + j)))
          (forRange 0 (child.ndelay_out - i)
            (fun j l => Function.update l (f.delay_col * (nrow + 1) + j)
              (child.lcol ((child.nelim + i) * (child.nrow_expected + child.ndelay_in + 1) + j)))
            f.lcol) := by
  simp only [delay_round, delay_row_dest]
  congr 1
  funext j l
  split_ifs <;> rfl

theorem delay_round_delay_col {T : Type} (child : cpu_node_data T) (map : Int → Int)
    (nrow ncol i : Int) (f : Front T) :
    (delay_round child map nrow ncol i f).delay_col = f.delay_col + 1 := rfl

/-- One round writes only cells of its delayed column. -/
theorem delay_round_frame {T : Type} (child : cpu_node_data T) (map : Int → Int)
    (q C N i : Int) (f : Front T) (hm : MapsRows child map q C N) (hqC : q ≤ C) (hCN : C ≤ N)
    (hend : f.delay_col + (child.ndelay_out - i) ≤ C) (hi : i < child.ndelay_out) (x : Int)
    (hx : ¬ DelayCell N q f.delay_col x) :
    (delay_round child map N C i f).lcol x = f.lcol x := by
  rw [delay_round_lcol]
  rw [forRange_update_other _ _ _ _ _ x, forRange_update_other _ _ _ _ _ x]
  · intro t h0 h1 e
    exact hx (e ▸ delay_tail_cell q N f.delay_col t h0 (by omega))
  · intro j h0 h1 e
    exact hx (e ▸ delay_row_dest_cell child map q C N f.delay_col j hm hqC (by omega) h0 h1)

/-- The triangular tail after one round. -/
theorem delay_round_tail {T : Type} (child : cpu_node_data T) (map : Int → Int)
    (q C N i : Int) (f : Front T) (hm : MapsRows child map q C N) (hq : 0 ≤ q)
    (hqd : q ≤ f.delay_col) (hCN : C ≤ N)
    (hend : f.delay_col + (child.ndelay_out - i) ≤ C) (t : Int) (ht0 : 0 ≤ t)
    (ht1 : t < child.ndelay_out - i) :
    (delay_round child map N C i f).lcol (f.delay_col * (N + 1) + t)
      = child.lcol ((child.nelim + i) * (child.nrow_expected + child.ndelay_in + 1) + t) := by
  rw [delay_round_lcol]
  rw [forRange_update_other _ _ _ _ _ (f.delay_col * (N + 1) + t)]
  · exact forRange_update_inj 0 (child.ndelay_out - i) (fun j => f.delay_col * (N + 1) + j)
      (fun j => child.lcol ((child.nelim + i) * (child.nrow_expected + child.ndelay_in + 1) + j))
      f.lcol (fun a b _ _ _ _ e => by
        have e1 : f.delay_col * (N + 1) + a = f.delay_col * (N + 1) + b := e
        omega) t ht0 ht1
  · intro j h0 h1 e
    unfold delay_row_dest at e
    dsimp only at e
    have hx : f.delay_col * (N + 1) + t = f.delay_col * N + (f.delay_col + t) := by ring
    rw [hx] at e
    rcases hm j h0 h1 with ⟨a, b⟩ | ⟨a, b⟩
    · rw [if_pos (by omega)] at e
      have := (colmajor_inj N _ _ _ _ (by omega) (by omega) (by omega) (by omega) e).1
      omega
    · rw [if_neg (by omega)] at e
      have := (colmajor_inj N _ _ _ _ (by omega) b (by omega) (by omega) e).2
      omega

/-- The entry of a child row after one round. -/
theorem delay_round_row {T : Type} (child : cpu_node_data T) (map : Int → Int)
    (q C N i : Int) (f : Front T) (hm : MapsRows child map q C N) (hq : 0 ≤ q)
    (hqd : q ≤ f.delay_col) (hdC : f.delay_col < C) (hCN : C ≤ N)
    (hinj : ∀ j j1, child.ncol_expected ≤ j → j < child.nrow_expected →
      child.ncol_expected ≤ j1 → j1 < child.nrow_expected →
      map (child.rlist j) = map (child.rlist j1) → j = j1)
    (j : Int) (hj0 : child.ncol_expected ≤ j) (hj1 : j < child.nrow_expected) :
    (delay_round child map N C i f).lcol (delay_row_dest child map N C f.delay_col j)
      = child.lcol ((child.nelim + i) * (child.nrow_expected + child.ndelay_in)
          + child.ndelay_in + j) := by
  rw [delay_round_lcol]
  have hval : (child.nelim + i) * (child.nrow_expected + child.ndelay_in) + child.ndelay_in + j
      = child.nelim * (child.nrow_expected + child.ndelay_in)
        + child.ndelay_in + i * (child.nrow_expected + child.ndelay_in) + j := by ring
  rw [hval]
  refine forRange_update_inj child.ncol_expected child.nrow_expected
    (fun j => delay_row_dest child map N C f.delay_col j)
    (fun j => child.lcol (child.nelim * (child.nrow_expected + child.ndelay_in)
        + child.ndelay_in + i * (child.nrow_expected + child.ndelay_in) + j)) _ ?_ j hj0 hj1
  intro a b a0 a1 b0 b1 e
  apply hinj a b a0 a1 b0 b1
  simp only [delay_row_dest] at e
  rcases hm a a0 a1 with ⟨m0, m1⟩ | ⟨m0, m1⟩ <;> rcases hm b b0 b1 with ⟨n0, n1⟩ | ⟨n0, n1⟩
  · rw [if_pos (by omega), if_pos (by omega)] at e
    exact (colmajor_inj N _ _ _ _ (by omega) (by omega) (by omega) (by omega) e).1
  · rw [if_pos (by omega), if_neg (by omega)] at e
    have := (colmajor_inj N _ _ _ _ (by omega) (by omega) (by omega) n1 e).1
    omega
  · rw [if_neg (by omega), if_pos (by omega)] at e
    have := (colmajor_inj N _ _ _ _ (by omega) m1 (by omega) (by omega) e).1
    omega
  · rw [if_neg (by omega), if_neg (by omega)] at e
    exact (colmajor_inj N _ _ _ _ (by omega) m1 (by omega) n1 e).2

end Ssids
namespace Ssids

/-- "Handle delays" for one child leaves every entry that is not a cell of one of its delayed
columns. -/
theorem add_delays_frame {T : Type} (child : cpu_node_data T) (map : Int → Int)
    (q C N : Int) (f : Front T) (hm : MapsRows child map q C N) (hqC : q ≤ C) (hCN : C ≤ N)
    (hd : 0 ≤ child.ndelay_out) (hend : f.delay_col + child.ndelay_out ≤ C) (x : Int)
    (hx : ∀ e, f.delay_col ≤ e → e < f.delay_col + child.ndelay_out → ¬ DelayCell N q e x) :
    (add_delays child map N C f).lcol x = f.lcol x := by
  rw [add_delays_eq_rounds]
  refine (forRange_induction 0 child.ndelay_out (delay_round child map N C) f
    (fun i g => g.delay_col = f.delay_col + i ∧ g.lcol x = f.lcol x) hd ⟨by simp, rfl⟩ ?_).2
  rintro i g h0 h1 ⟨a, b⟩
  refine ⟨by rw [delay_round_delay_col, a]; ring, ?_⟩
  rw [delay_round_frame child map q C N i g hm hqC hCN (by omega) h1 x
    (by rw [a]; exact hx _ (by omega) (by omega))]
  exact b

/-- The value that round `i0` of "Handle delays" leaves in a cell of its delayed column
stays until the end of the loop. -/
theorem add_delays_value {T : Type} (child : cpu_node_data T) (map : Int → Int)
    (q C N : Int) (f : Front T) (hm : MapsRows child map q C N) (hq : 0 ≤ q) (hqC : q ≤ C)
    (hCN : C ≤ N) (hqd : q ≤ f.delay_col) (hend : f.delay_col + child.ndelay_out ≤ C)
    (i0 : Int) (h0 : 0 ≤ i0) (h1 : i0 < child.ndelay_out) (x : Int) (v : T)
    (hcell : DelayCell N q (f.delay_col + i0) x)
    (hval : ∀ g : Front T, g.delay_col = f.delay_col + i0 →
      (delay_round child map N C i0 g).lcol x = v) :
    (add_delays child map N C f).lcol x = v := by
  rw [add_delays_eq_rounds]
  refine (forRange_induction 0 child.ndelay_out (delay_round child map N C) f
    (fun i g => g.delay_col = f.delay_col + i ∧ (i0 < i → g.lcol x = v)) (by omega)
    ⟨by simp, fun h => by omega⟩ ?_).2 h1
  rintro i g a0 a1 ⟨a, b⟩
  refine ⟨by rw [delay_round_delay_col, a]; ring, fun hi => ?_⟩
  by_cases hii : i = i0
  · subst hii
    exact hval g a
  · rw [delay_round_frame child map q C N i g hm hqC hCN (by omega) a1 x ?_]
    · exact b (by omega)
    · intro hc
      have := DelayCell.inj hq (by omega) (by omega) (by omega) (by omega) hc hcell
      omega

/-- The loops over a child's contribution block leave the cells of the delayed columns. -/
theorem contrib_loop_frame {T : Type} [Scalar T] (child : cpu_node_data T)
    (map : Int → Int) (q C N : Int) (idx : Int → Int → Int) (f : Front T)
    (hm : MapsRows child map q C N) (e x : Int) (he0 : q ≤ e) (he1 : e < C)
    (hCN : C ≤ N) (hx : DelayCell N q e x) :
    (forRange 0 (child.nrow_expected - child.ncol_expected) (fun i f =>
      if map (child.rlist (child.ncol_expected + i)) < q then
        forRange i (child.nrow_expected - child.ncol_expected) (fun j f =>
          lcol_add f (map (child.rlist (child.ncol_expected + i)) * N
              + map (child.rlist (child.ncol_expected + j)))
            (contrib_mem child (i * (child.nrow_expected - child.ncol_expected) + j))) f
      else
        forRange i (child.nrow_expected - child.ncol_expected) (fun j f =>
          contrib_add f (idx i j)
            (contrib_mem child (i * (child.nrow_expected - child.ncol_expected) + j))) f)
      f).lcol x = f.lcol x := by
  refine forRange_invariant 0 _ _ f (fun g => g.lcol x = f.lcol x) rfl ?_
  intro i g hi0 hi1 hg
  dsimp only
  split_ifs with hci
  · refine forRange_invariant i _ _ g (fun g1 => g1.lcol x = f.lcol x) hg ?_
    intro j g1 hj0 hj1 hg1
    rw [lcol_add_get, if_neg, hg1]
    intro hk
    have hmi := hm (child.ncol_expected + i) (by omega) (by omega)
    have hmj := hm (child.ncol_expected + j) (by omega) (by omega)
    have hmi0 : 0 ≤ map (child.rlist (child.ncol_expected + i)) := by omega
    have hr0 : 0 ≤ map (child.rlist (child.ncol_expected + j)) := by omega
    have hr1 : map (child.rlist (child.ncol_expected + j)) < N := by omega
    rcases hx with ⟨r, a1, a2, a3⟩ | ⟨c, a1, a2, a3⟩
    · have := (colmajor_inj N _ _ _ _ hr0 hr1 (by omega) a2 (hk.trans a3)).1
      omega
    · have := (colmajor_inj N _ _ _ _ hr0 hr1 (by omega) (by omega) (hk.trans a3)).2
      omega
  · refine forRange_invariant i _ _ g (fun g1 => g1.lcol x = f.lcol x) hg ?_
    intro j g1 _ _ hg1
    exact hg1

theorem add_contrib_hxx_frame {T : Type} [Scalar T] (node child : cpu_node_data T)
    (map : Int → Int) (C N : Int) (f : Front T)
    (hm : MapsRows child map node.ncol_expected C N)
    (e x : Int) (he0 : node.ncol_expected ≤ e) (he1 : e < C) (hCN : C ≤ N)
    (hx : DelayCell N node.ncol_expected e x) :
    (add_contrib_hxx node child map N C f).lcol x = f.lcol x := by
  unfold add_contrib_hxx
  split_ifs
  · exact contrib_loop_frame child map node.ncol_expected C N
      (fun i j => (map (child.rlist (child.ncol_expected + i)) - C)
          * (node.nrow_expected - node.ncol_expected)
        + (map (child.rlist (child.ncol_expected + j)) - C)) f hm e x he0 he1 hCN hx
  · rfl

theorem add_contrib_cpu_frame {T : Type} [Scalar T] (node child : cpu_node_data T)
    (map : Int → Int) (C N : Int) (f : Front T)
    (hm : MapsRows child map node.ncol_expected C N)
    (e x : Int) (he0 : node.ncol_expected ≤ e) (he1 : e < C) (hCN : C ≤ N)
    (hx : DelayCell N node.ncol_expected e x) :
    (add_contrib_cpu node child map N f).lcol x = f.lcol x := by
  unfold add_contrib_cpu
  split_ifs
  · exact contrib_loop_frame child map node.ncol_expected C N
      (fun i j => (map (child.rlist (child.ncol_expected + i)) - node.ncol_expected)
          * (node.nrow_expected - node.ncol_expected)
        + (map (child.rlist (child.ncol_expected + j)) - node.ncol_expected)) f hm e x
      he0 he1 hCN hx
  · rfl

end Ssids
namespace Ssids

theorem sum_delays_append {T : Type} (nodes : Nat → cpu_node_data T) (as bs : List Nat) :
    sum_delays nodes (as ++ bs) = sum_delays nodes as + sum_delays nodes bs := by
  simp only [sum_delays_eq, List.map_append, List.sum_append]

/-- The loop over the children advances `delay_col` by the number of delayed columns. -/
theorem fold_children_delay_col {T : Type} (nodes : Nat → cpu_node_data T) (map : Int → Int)
    (N C : Int) (addc : Nat → Front T → Front T)
    (haddc : ∀ c f, (addc c f).delay_col = f.delay_col) :
    ∀ (cs : List Nat) (f : Front T), (∀ c ∈ cs, 0 ≤ (nodes c).ndelay_out) →
      (cs.foldl (fun f c => addc c (add_delays (nodes c) map N C f)) f).delay_col
        = f.delay_col + sum_delays nodes cs
  | [], f, _ => by simp [sum_delays]
  | c :: cs, f, hd => by
    rw [List.foldl_cons, fold_children_delay_col nodes map N C addc haddc cs _
      (fun c1 h => hd c1 (List.mem_cons_of_mem _ h)), haddc,
      (add_delays_perm (nodes c) map N C f (hd c (List.mem_cons_self _ _))).1, sum_delays_cons]
    ring

/-- The children after the one that handed over the delayed column `d` leave its cells. -/
theorem fold_children_frame {T : Type} (nodes : Nat → cpu_node_data T) (map : Int → Int)
    (q C N : Int) (addc : Nat → Front T → Front T)
    (haddc : ∀ c f, (addc c f).delay_col = f.delay_col)
    (hframe : ∀ c f e x, MapsRows (nodes c) map q C N → q ≤ e → e < C → DelayCell N q e x →
      (addc c f).lcol x = f.lcol x)
    (hq : 0 ≤ q) (hqC : q ≤ C) (hCN : C ≤ N) (d x : Int) (hd0 : q ≤ d)
    (hx : DelayCell N q d x) :
    ∀ (cs : List Nat) (f : Front T), (∀ c ∈ cs, 0 ≤ (nodes c).ndelay_out) →
      (∀ c ∈ cs, MapsRows (nodes c) map q C N) → d < f.delay_col →
      f.delay_col + sum_delays nodes cs ≤ C →
      (cs.foldl (fun f c => addc c (add_delays (nodes c) map N C f)) f).lcol x = f.lcol x
  | [], f, _, _, _, _ => rfl
  | c :: cs, f, hd, hm, hdf, hend => by
    have hc := hd c (List.mem_cons_self _ _)
    have hcs : ∀ c1 ∈ cs, 0 ≤ (nodes c1).ndelay_out :=
      fun c1 h => hd c1 (List.mem_cons_of_mem _ h)
    have hnn := sum_delays_nonneg nodes cs hcs
    rw [sum_delays_cons] at hend
    have hdc : (addc c (add_delays (nodes c) map N C f)).delay_col
        = f.delay_col + (nodes c).ndelay_out := by
      rw [haddc, (add_delays_perm (nodes c) map N C f hc).1]
    rw [List.foldl_cons, fold_children_frame nodes map q C N addc haddc hframe hq hqC hCN d x
      hd0 hx cs _ hcs (fun c1 h => hm c1 (List.mem_cons_of_mem _ h)) (by rw [hdc]; omega)
      (by rw [hdc]; omega),
      hframe c _ d x (hm c (List.mem_cons_self _ _)) hd0 (by omega) hx]
    refine add_delays_frame (nodes c) map q C N f (hm c (List.mem_cons_self _ _)) hqC hCN hc
      (by omega) x ?_
    intro e he0 he1 hce
    have := DelayCell.inj hq (by omega) (by omega) hd0 (by omega) hce hx
    omega

/-- The value that the round of a delayed column leaves in one of its cells is found in the
assembled front. -/
theorem fold_children_value {T : Type} (nodes : Nat → cpu_node_data T) (map : Int → Int)
    (q C N : Int) (addc : Nat → Front T → Front T)
    (haddc : ∀ c f, (addc c f).delay_col = f.delay_col)
    (hframe : ∀ c f e x, MapsRows (nodes c) map q C N → q ≤ e → e < C → DelayCell N q e x →
      (addc c f).lcol x = f.lcol x)
    (hq : 0 ≤ q) (hCN : C ≤ N) (pre post : List Nat) (ch : Nat) (f : Front T)
    (hf : f.delay_col = q)
    (hC : C = q + sum_delays nodes (pre ++ ch :: post))
    (hd : ∀ c ∈ pre ++ ch :: post, 0 ≤ (nodes c).ndelay_out)
    (hm : ∀ c ∈ pre ++ ch :: post, MapsRows (nodes c) map q C N)
    (i : Int) (hi0 : 0 ≤ i) (hi1 : i < (nodes ch).ndelay_out) (x : Int) (v : T)
    (hcell : DelayCell N q (q + sum_delays nodes pre + i) x)
    (hval : ∀ g : Front T, g.delay_col = q + sum_delays nodes pre + i →
      (delay_round (nodes ch) map N C i g).lcol x = v) :
    ((pre ++ ch :: post).foldl (fun f c => addc c (add_delays (nodes c) map N C f)) f).lcol x
      = v := by
  have hpre : ∀ c ∈ pre, 0 ≤ (nodes c).ndelay_out :=
    fun c h => hd c (List.mem_append_left _ h)
  have hpost : ∀ c ∈ post, 0 ≤ (nodes c).ndelay_out :=
    fun c h => hd c (List.mem_append_right _ (List.mem_cons_of_mem _ h))
  have hch : ch ∈ pre ++ ch :: post := List.mem_append_right _ (List.mem_cons_self _ _)
  have hn1 := sum_delays_nonneg nodes pre hpre
  have hn2 := sum_delays_nonneg nodes post hpost
  rw [sum_delays_append, sum_delays_cons] at hC
  have hdc := fold_children_delay_col nodes map N C addc haddc pre f hpre
  rw [hf] at hdc
  rw [List.foldl_append, List.foldl_cons]
  have hdc1 : (addc ch (add_delays (nodes ch) map N C
      (pre.foldl (fun f c => addc c (add_delays (nodes c) map N C f)) f))).delay_col
      = q + sum_delays nodes pre + (nodes ch).ndelay_out := by
    rw [haddc, (add_delays_perm (nodes ch) map N C _ (hd ch hch)).1, hdc]
  rw [fold_children_frame nodes map q C N addc haddc hframe hq (by omega) hCN
    (q + sum_delays nodes pre + i) x (by omega) hcell post _ hpost
    (fun c h => hm c (List.mem_append_right _ (List.mem_cons_of_mem _ h)))
    (by rw [hdc1]; omega) (by rw [hdc1]; omega),
    hframe ch _ (q + sum_delays nodes pre + i) x (hm ch hch) (by omega) (by omega) hcell]
  refine add_delays_value (nodes ch) map q C N _ (hm ch hch) hq (by omega) hCN
    (by rw [hdc]; omega) (by rw [hdc]; omega) i hi0 hi1 x v (by rw [hdc]; exact hcell) ?_
  intro g hg
  rw [hdc] at hg
  exact hval g hg

end Ssids
namespace Ssids

/-- With the rows of a child in the row list of the node, the lookup vector sends them to the
expected columns or behind the delayed columns. -/
theorem build_map_rows {T : Type} [Scalar T] (node child : cpu_node_data T) (D : Int)
    (map : Int → Int) (hcol : 0 ≤ node.ncol_expected)
    (hrow : node.ncol_expected ≤ node.nrow_expected)
    (hrows : ∀ j, child.ncol_expected ≤ j → j < child.nrow_expected →
      ∃ p, 0 ≤ p ∧ p < node.nrow_expected ∧ node.rlist p = child.rlist j) :
    MapsRows child (build_map node D map) node.ncol_expected (node.ncol_expected + D)
      (node.nrow_expected + D) := by
  intro j hj0 hj1
  obtain ⟨p, hp0, hp1, hp⟩ := hrows j hj0 hj1
  obtain ⟨p1, q0, q1, -, q3⟩ := build_map_range node D map hcol hrow p hp0 hp1
  rw [← hp, q3]
  split_ifs with h
  · right; constructor <;> omega
  · left; constructor <;> omega

/-- Distinct row variables of a child have distinct values in the lookup vector. -/
theorem build_map_rows_inj {T : Type} [Scalar T] (node child : cpu_node_data T) (D : Int)
    (map : Int → Int) (hcol : 0 ≤ node.ncol_expected)
    (hrow : node.ncol_expected ≤ node.nrow_expected) (hD : 0 ≤ D)
    (hrows : ∀ j, child.ncol_expected ≤ j → j < child.nrow_expected →
      ∃ p, 0 ≤ p ∧ p < node.nrow_expected ∧ node.rlist p = child.rlist j)
    (hdist : ∀ j j1, child.ncol_expected ≤ j → j < child.nrow_expected →
      child.ncol_expected ≤ j1 → j1 < child.nrow_expected →
      child.rlist j = child.rlist j1 → j = j1)
    (j j1 : Int) (hj0 : child.ncol_expected ≤ j) (hj1 : j < child.nrow_expected)
    (hk0 : child.ncol_expected ≤ j1) (hk1 : j1 < child.nrow_expected)
    (e : build_map node D map (child.rlist j) = build_map node D map (child.rlist j1)) :
    j = j1 := by
  obtain ⟨p, hp0, hp1, hp⟩ := hrows j hj0 hj1
  obtain ⟨p1, q0, q1, q2, q3⟩ := build_map_range node D map hcol hrow p hp0 hp1
  obtain ⟨r, hr0, hr1, hr⟩ := hrows j1 hk0 hk1
  obtain ⟨r1, s0, s1, s2, s3⟩ := build_map_range node D map hcol hrow r hr0 hr1
  rw [← hp, ← hr, q3, s3] at e
  have hpr : p1 = r1 := by
    split_ifs at e <;> omega
  apply hdist j j1 hj0 hj1 hk0 hk1
  rw [← hp, ← hr, ← q2, ← s2, hpr]

/-- The two equalities of the delay rewiring for a loop over the children whose contribution
step leaves `delay_col` and the cells of the delayed columns. -/
theorem fold_children_rewired {T : Type} [Scalar T] (nodes : Nat → cpu_node_data T)
    (node : cpu_node_data T) (map : Int → Int) (addc : Nat → Front T → Front T)
    (pre post : List Nat) (ch : Nat)
    (haddc : ∀ c f, (addc c f).delay_col = f.delay_col)
    (hframe : ∀ c f e x,
      MapsRows (nodes c) (build_map node (sum_delays nodes (pre ++ ch :: post)) map)
        node.ncol_expected (node.ncol_expected + sum_delays nodes (pre ++ ch :: post))
        (node.nrow_expected + sum_delays nodes (pre ++ ch :: post)) →
      node.ncol_expected ≤ e → e < node.ncol_expected + sum_delays nodes (pre ++ ch :: post) →
      DelayCell (node.nrow_expected + sum_delays nodes (pre ++ ch :: post))
        node.ncol_expected e x →
      (addc c f).lcol x = f.lcol x)
    (hcol : 0 ≤ node.ncol_expected) (hrow : node.ncol_expected ≤ node.nrow_expected)
    (hdel : ∀ c ∈ pre ++ ch :: post, 0 ≤ (nodes c).ndelay_out)
    (hrows : ∀ c ∈ pre ++ ch :: post, ∀ j, (nodes c).ncol_expected ≤ j →
      j < (nodes c).nrow_expected →
      ∃ p, 0 ≤ p ∧ p < node.nrow_expected ∧ node.rlist p = (nodes c).rlist j)
    (hdist : ∀ j j1, (nodes ch).ncol_expected ≤ j → j < (nodes ch).nrow_expected →
      (nodes ch).ncol_expected ≤ j1 → j1 < (nodes ch).nrow_expected →
      (nodes ch).rlist j = (nodes ch).rlist j1 → j = j1)
    (i : Int) (hi0 : 0 ≤ i) (hi1 : i < (nodes ch).ndelay_out) (f : Front T)
    (hf : f.delay_col = node.ncol_expected) :
    (∀ t, 0 ≤ t → t < (nodes ch).ndelay_out - i →
      ((pre ++ ch :: post).foldl (fun f c => addc c
          (add_delays (nodes c) (build_map node (sum_delays nodes (pre ++ ch :: post)) map)
            (node.nrow_expected + sum_delays nodes (pre ++ ch :: post))
            (node.ncol_expected + sum_delays nodes (pre ++ ch :: post)) f)) f).lcol
          ((node.ncol_expected + sum_delays nodes pre + i)
            * (node.nrow_expected + sum_delays nodes (pre ++ ch :: post) + 1) + t)
        = (nodes ch).lcol (((nodes ch).nelim + i)
            * ((nodes ch).nrow_expected + (nodes ch).ndelay_in + 1) + t)) ∧
    (∀ j, (nodes ch).ncol_expected ≤ j → j < (nodes ch).nrow_expected →
      ((pre ++ ch :: post).foldl (fun f c => addc c
          (add_delays (nodes c) (build_map node (sum_delays nodes (pre ++ ch :: post)) map)
            (node.nrow_expected + sum_delays nodes (pre ++ ch :: post))
            (node.ncol_expected + sum_delays nodes (pre ++ ch :: post)) f)) f).lcol
          (if build_map node (sum_delays nodes (pre ++ ch :: post)) map ((nodes ch).rlist j)
              < node.ncol_expected + sum_delays nodes (pre ++ ch :: post) then
            build_map node (sum_delays nodes (pre ++ ch :: post)) map ((nodes ch).rlist j)
              * (node.nrow_expected + sum_delays nodes (pre ++ ch :: post))
              + (node.ncol_expected + sum_delays nodes pre + i)
          else (node.ncol_expected + sum_delays nodes pre + i)
              * (node.nrow_expected + sum_delays nodes (pre ++ ch :: post))
              + build_map node (sum_delays nodes (pre ++ ch :: post)) map ((nodes ch).rlist j))
        = (nodes ch).lcol (((nodes ch).nelim + i)
            * ((nodes ch).nrow_expected + (nodes ch).ndelay_in) + (nodes ch).ndelay_in + j)) := by
  have hD := sum_delays_nonneg nodes (pre ++ ch :: post) hdel
  have hm : ∀ c ∈ pre ++ ch :: post,
      MapsRows (nodes c) (build_map node (sum_delays nodes (pre ++ ch :: post)) map)
        node.ncol_expected (node.ncol_expected + sum_delays nodes (pre ++ ch :: post))
        (node.nrow_expected + sum_delays nodes (pre ++ ch :: post)) :=
    fun c hc => build_map_rows node (nodes c) _ map hcol hrow (hrows c hc)
  have hchm : ch ∈ pre ++ ch :: post := List.mem_append_right _ (List.mem_cons_self _ _)
  have hsum : sum_delays nodes (pre ++ ch :: post)
      = sum_delays nodes pre + ((nodes ch).ndelay_out + sum_delays nodes post) := by
    rw [sum_delays_append, sum_delays_cons]
  have hn1 := sum_delays_nonneg nodes pre (fun c h => hdel c (List.mem_append_left _ h))
  have hn2 := sum_delays_nonneg nodes post
    (fun c h => hdel c (List.mem_append_right _ (List.mem_cons_of_mem _ h)))
  constructor
  · intro t ht0 ht1
    refine fold_children_value nodes _ node.ncol_expected _ _ addc haddc hframe hcol
      (by omega) pre post ch f hf rfl hdel hm i hi0 hi1 _ _
      (delay_tail_cell _ _ _ t ht0 (by omega)) ?_
    intro g hg
    rw [← hg]
    exact delay_round_tail (nodes ch) _ node.ncol_expected _ _ i g (hm ch hchm) hcol
      (by omega) (by omega) (by omega) t ht0 ht1
  · intro j hj0 hj1
    refine fold_children_value nodes _ node.ncol_expected _ _ addc haddc hframe hcol
      (by omega) pre post ch f hf rfl hdel hm i hi0 hi1 _ _
      (delay_row_dest_cell (nodes ch) _ node.ncol_expected _ _ _ j (hm ch hchm) (by omega)
        (by omega) hj0 hj1) ?_
    intro g hg
    rw [← hg]
    exact delay_round_row (nodes ch) _ node.ncol_expected _ _ i g (hm ch hchm) hcol
      (by omega) (by omega) (by omega)
      (build_map_rows_inj node (nodes ch) _ map hcol hrow hD (hrows ch hchm) hdist) j hj0 hj1

end Ssids
namespace Ssids

/-- C22. Delay rewiring in `assemble_node`, for both variants: let the children of the node be
`pre ++ ch :: post` in list order, all with `ndelay_out >= 0` and with their non-fully-summed
rows in the row list of the node (`0 <= ncol_expected <= nrow_expected`), the row variables
of `ch` being distinct. For the delayed column `i` of `ch`, placed at the column
`d = ncol_expected + (delayed columns of pre) + i` of the node, with
`lds = ch.nrow_expected + ch.ndelay_in`, the assembled front satisfies
(1) `lcol[d*(nrow+1) + t] = ch.lcol[(ch.nelim+i)*(lds+1) + t]` for `0 <= t < ch.ndelay_out - i`
and (2) for every row `j` of `ch` in `[ch.ncol_expected, ch.nrow_expected)` with
`r = map[ch.rlist[j]]`, the entry `lcol[r*nrow + d]` (if `r < ncol`) or `lcol[d*nrow + r]`
(otherwise) equals `ch.lcol[(ch.nelim+i)*lds + ch.ndelay_in + j]`: the values are those of the
front at the end of the assembly, after the remaining rounds, contributions and children. -/
theorem delay_rewiring {T : Type} [Scalar T] (posdef : Bool) (nnodes : Nat)
    (nodes : Nat → cpu_node_data T) (ni : Nat) (map : Int → Int) (aval : Int → T)
    (scaling : Option (Int → T)) (fresh : Fresh T) (pre post : List Nat) (ch : Nat)
    (hcs : children nodes nnodes ni = some (pre ++ ch :: post))
    (hcol : 0 ≤ (nodes ni).ncol_expected)
    (hrow : (nodes ni).ncol_expected ≤ (nodes ni).nrow_expected)
    (hdel : ∀ c ∈ pre ++ ch :: post, 0 ≤ (nodes c).ndelay_out)
    (hrows : ∀ c ∈ pre ++ ch :: post, ∀ j, (nodes c).ncol_expected ≤ j →
      j < (nodes c).nrow_expected →
      ∃ p, 0 ≤ p ∧ p < (nodes ni).nrow_expected ∧ (nodes ni).rlist p = (nodes c).rlist j)
    (hdist : ∀ j j1, (nodes ch).ncol_expected ≤ j → j < (nodes ch).nrow_expected →
      (nodes ch).ncol_expected ≤ j1 → j1 < (nodes ch).nrow_expected →
      (nodes ch).rlist j = (nodes ch).rlist j1 → j = j1)
    (i : Int) (hi0 : 0 ≤ i) (hi1 : i < (nodes ch).ndelay_out) :
    ∀ res, (res = assemble_node_cpu posdef nnodes nodes ni map aval scaling fresh ∨
        res = assemble_node_hxx posdef nnodes nodes ni map aval scaling fresh) →
      ∃ node1 map1, res = some (node1, map1) ∧
        (∀ t, 0 ≤ t → t < (nodes ch).ndelay_out - i →
          node1.lcol (((nodes ni).ncol_expected + sum_delays nodes pre + i)
              * ((nodes ni).nrow_expected + sum_delays nodes (pre ++ ch :: post) + 1) + t)
            = (nodes ch).lcol (((nodes ch).nelim + i)
                * ((nodes ch).nrow_expected + (nodes ch).ndelay_in + 1) + t)) ∧
        (∀ j, (nodes ch).ncol_expected ≤ j → j < (nodes ch).nrow_expected →
          node1.lcol
              (if map1 ((nodes ch).rlist j)
                  < (nodes ni).ncol_expected + sum_delays nodes (pre ++ ch :: post) then
                map1 ((nodes ch).rlist j)
                  * ((nodes ni).nrow_expected + sum_delays nodes (pre ++ ch :: post))
                  + ((nodes ni).ncol_expected + sum_delays nodes pre + i)
              else ((nodes ni).ncol_expected + sum_delays nodes pre + i)
                  * ((nodes ni).nrow_expected + sum_delays nodes (pre ++ ch :: post))
                  + map1 ((nodes ch).rlist j))
            = (nodes ch).lcol (((nodes ch).nelim + i)
                * ((nodes ch).nrow_expected + (nodes ch).ndelay_in)
                + (nodes ch).ndelay_in + j)) := by
  have hfc : (nodes ni).first_child.isSome = true := by
    cases hf : (nodes ni).first_child with
    | some c => rfl
    | none =>
      rw [children_leaf nodes nnodes ni hf] at hcs
      have := congrArg (Option.map List.length) hcs
      simp at this
      omega
  have hD := sum_delays_nonneg nodes (pre ++ ch :: post) hdel
  rintro res (rfl | rfl)
  · refine ⟨_, _, by unfold assemble_node_cpu; rw [hcs], ?_⟩
    simp only [store_front, assemble_front_cpu, hfc, if_true]
    exact fold_children_rewired nodes (nodes ni) map
      (fun c f => add_contrib_cpu (nodes ni) (nodes c)
        (build_map (nodes ni) (sum_delays nodes (pre ++ ch :: post)) map)
        ((nodes ni).nrow_expected + sum_delays nodes (pre ++ ch :: post)) f)
      pre post ch
      (fun c f => (add_contrib_cpu_perm (nodes ni) (nodes c) _ _ f).2)
      (fun c f e x hm he0 he1 hx =>
        add_contrib_cpu_frame (nodes ni) (nodes c) _ _ _ f hm e x he0 he1 (by omega) hx)
      hcol hrow hdel hrows hdist i hi0 hi1 _ rfl
  · refine ⟨_, _, by unfold assemble_node_hxx; rw [hcs], ?_⟩
    simp only [store_front, assemble_front_hxx, hfc, if_true]
    exact fold_children_rewired nodes (nodes ni) map
      (fun c f => add_contrib_hxx (nodes ni) (nodes c)
        (build_map (nodes ni) (sum_delays nodes (pre ++ ch :: post)) map)
        ((nodes ni).nrow_expected + sum_delays nodes (pre ++ ch :: post))
        ((nodes ni).ncol_expected + sum_delays nodes (pre ++ ch :: post)) f)
      pre post ch
      (fun c f => (add_contrib_hxx_perm (nodes ni) (nodes c) _ _ _ f).2)
      (fun c f e x hm he0 he1 hx =>
        add_contrib_hxx_frame (nodes ni) (nodes c) _ _ _ f hm e x he0 he1 (by omega) hx)
      hcol hrow hdel hrows hdist i hi0 hi1 _ rfl

end Ssids

namespace Ssids

/-- Instance of C22: the first of the two delayed columns of the child of `example_nodes22`,
placed at column 1 of a front with four rows: the tail goes to `lcol[5]` and `lcol[6]`, the
entry of the child row with variable 4 to `lcol[1*4 + 3]`, in both variants. -/
theorem delay_rewiring_witness :
    (∃ node1 map1, assemble_node_cpu false 2 example_nodes22 1 (fun _ => 0) example_aval none
          example_fresh = some (node1, map1) ∧
        (∀ t, 0 ≤ t → t < (example_nodes22 0).ndelay_out - 0 →
          node1.lcol (((example_nodes22 1).ncol_expected + sum_delays example_nodes22 [] + 0)
              * ((example_nodes22 1).nrow_expected + sum_delays example_nodes22 ([] ++ 0 :: [])
                + 1) + t)
            = (example_nodes22 0).lcol (((example_nodes22 0).nelim + 0)
                * ((example_nodes22 0).nrow_expected + (example_nodes22 0).ndelay_in + 1) + t)) ∧
        (∀ j, (example_nodes22 0).ncol_expected ≤ j → j < (example_nodes22 0).nrow_expected →
          node1.lcol
              (if map1 ((example_nodes22 0).rlist j)
                  < (example_nodes22 1).ncol_expected
                    + sum_delays example_nodes22 ([] ++ 0 :: []) then
                map1 ((example_nodes22 0).rlist j)
                  * ((example_nodes22 1).nrow_expected
                    + sum_delays example_nodes22 ([] ++ 0 :: []))
                  + ((example_nodes22 1).ncol_expected + sum_delays example_nodes22 [] + 0)
              else ((example_nodes22 1).ncol_expected + sum_delays example_nodes22 [] + 0)
                  * ((example_nodes22 1).nrow_expected
                    + sum_delays example_nodes22 ([] ++ 0 :: []))
                  + map1 ((example_nodes22 0).rlist j))
            = (example_nodes22 0).lcol (((example_nodes22 0).nelim + 0)
                * ((example_nodes22 0).nrow_expected + (example_nodes22 0).ndelay_in)
                + (example_nodes22 0).ndelay_in + j))) ∧
    (∃ node1 map1, assemble_node_hxx false 2 example_nodes22 1 (fun _ => 0) example_aval none
          example_fresh = some (node1, map1) ∧
        (∀ t, 0 ≤ t → t < (example_nodes22 0).ndelay_out - 0 →
          node1.lcol (((example_nodes22 1).ncol_expected + sum_delays example_nodes22 [] + 0)
              * ((example_nodes22 1).nrow_expected + sum_delays example_nodes22 ([] ++ 0 :: [])
                + 1) + t)
            = (example_nodes22 0).lcol (((example_nodes22 0).nelim + 0)
                * ((example_nodes22 0).nrow_expected + (example_nodes22 0).ndelay_in + 1) + t)) ∧
        (∀ j, (example_nodes22 0).ncol_expected ≤ j → j < (example_nodes22 0).nrow_expected →
          node1.lcol
              (if map1 ((example_nodes22 0).rlist j)
                  < (example_nodes22 1).ncol_expected
                    + sum_delays example_nodes22 ([] ++ 0 :: []) then
                map1 ((example_nodes22 0).rlist j)
                  * ((example_nodes22 1).nrow_expected
                    + sum_delays example_nodes22 ([] ++ 0 :: []))
                  + ((example_nodes22 1).ncol_expected + sum_delays example_nodes22 [] + 0)
              else ((example_nodes22 1).ncol_expected + sum_delays example_nodes22 [] + 0)
                  * ((example_nodes22 1).nrow_expected
                    + sum_delays example_nodes22 ([] ++ 0 :: []))
                  + map1 ((example_nodes22 0).rlist j))
            = (example_nodes22 0).lcol (((example_nodes22 0).nelim + 0)
                * ((example_nodes22 0).nrow_expected + (example_nodes22 0).ndelay_in)
                + (example_nodes22 0).ndelay_in + j))) := by
  have key := delay_rewiring false 2 example_nodes22 1 (fun _ => 0) example_aval none
    example_fresh [] [] 0 rfl (by decide) (by decide)
    (fun c hc => by
      have h0 : c = 0 := by simpa using hc
      subst h0
      decide)
    (fun c hc j h1 h2 => by
      have h0 : c = 0 := by simpa using hc
      subst h0
      change (2 : Int) ≤ j at h1
      change j < 3 at h2
      have hj : j = 2 := by omega
      subst hj
      exact ⟨1, by decide, by decide, rfl⟩)
    (fun j j1 h1 h2 h3 h4 _ => by
      change (2 : Int) ≤ j at h1
      change j < 3 at h2
      change (2 : Int) ≤ j1 at h3
      change j1 < 3 at h4
      omega)
    0 (by decide) (by decide)
  exact ⟨key _ (Or.inl rfl), key _ (Or.inr rfl)⟩

/-- The same instance evaluated: `lcol[5] = 0`, `lcol[6] = 1` and `lcol[7] = 2` in the front
assembled by `factor_cpu.cxx`. -/
theorem delay_rewiring_example :
    (assemble_node_cpu false 2 example_nodes22 1 (fun _ => 0) example_aval none
        example_fresh).map (fun r => (r.1.lcol 5, r.1.lcol 6, r.1.lcol 7, r.2 4))
      = some (Dbl.num 0, Dbl.num 1, Dbl.num 2, 3) := by
  decide

end Ssids
